import Mathlib

/-!
# Graph containers, topological sort and insertion sort of `4-semester`

A shallow embedding of the following headers of `00-client-server-task`

* `include/graph.hpp`            (class `graph::Graph`, undirected),
* `include/oriented_graph.hpp`   (class `graph::OrientedGraph`),
* `include/topological_sort.hpp` (`graph::TopologicalSort` and `graph::dfs`),
* `include/weighted_graph.hpp` and `include/weighted_oriented_graph.hpp`
  (classes `graph::WeightedGraph<Weight>` and `graph::WeightedOrientedGraph<Weight>`),

and of `include/insertion_sort.hpp` of `205-24-geometry-example`
(`geometry::InsertionSort`, with the comparator that `methods/insertion_sort_method.cpp`
passes to it).

Representation choices.

* `size_t` vertex ids are natural numbers; the code never does arithmetic on
  ids, so no wrap-around can occur.
* `std::unordered_set<size_t>` is a list of ids and
  `std::unordered_map<size_t, std::unordered_set<size_t>>` is an association
  list.  The order of the list is the iteration order of the container.  The
  C++ standard leaves that order unspecified, so the statements about
  `TopologicalSort` quantify over every association list with the required
  contents, that is, over every possible iteration order.  Where a new entry
  is created the model appends it at the end; no theorem depends on this.
* The weight map `std::unordered_map<std::pair<size_t, size_t>, Weight, Hash>` is an
  association list from pairs of ids to values of a type parameter `W`.  A write
  through the reference returned by the non-const `EdgeWeight` is the operation
  `WriteEdgeWeight`; when the accessor throws, the state is left as it was.
* `std::out_of_range` thrown by `unordered_map::at` is the value `none` of
  `Option`, or the constructor `SortResult.out_of_range` once it propagates
  through `dfs` and `TopologicalSort`.
* The recursion of `dfs` is bounded by a fuel argument.  The theorems show
  that fuel equal to the number of vertices is enough whenever every edge
  ends in a vertex, and that on every graph the outcome is the same, and not
  `out_of_fuel`, for every fuel above the number of vertices.
* The array `T* data` of `InsertionSort` with its `count` elements is a list; the
  statements take `count` to be the length of the list, so every index the loops read
  or write is in range.  The elements are only compared and copied, so the integers
  of the array are modelled by `Int`.
-/

namespace graph

/-! ## Containers -/

/-- Model of `std::unordered_set<size_t>`: the ids in iteration order. -/
abbrev IdSet := List Nat

/-- Model of `std::unordered_map<size_t, std::unordered_set<size_t>>`:
the entries in iteration order. -/
abbrev AdjMap := List (Nat × IdSet)

/-- Model of `unordered_set::insert`: nothing happens when the id is already stored. -/
def IdSet.insert (s : IdSet) (id : Nat) : IdSet :=
  if id ∈ s then s else s ++ [id]

/-- Model of `unordered_set::erase(key)`. -/
def IdSet.erase (s : IdSet) (id : Nat) : IdSet :=
  s.filter (fun x => decide (x ≠ id))

/-- Model of `unordered_map::find`: the set stored under `id`, or `none` for `end()`.
It is also the model of `unordered_map::at`, where `none` stands for
`std::out_of_range`. -/
def AdjMap.find : AdjMap → Nat → Option IdSet
  | [], _ => none
  | (k, s) :: rest, id => if k = id then some s else AdjMap.find rest id

/-- Entry creation done by `unordered_map::operator[]`: an absent key gets
the empty set, a present key is left alone. -/
def AdjMap.touch (m : AdjMap) (id : Nat) : AdjMap :=
  match m.find id with
  | some _ => m
  | none => m ++ [(id, [])]

/-- In-place modification of the set stored under `id` (no effect when `id` is absent). -/
def AdjMap.modify (m : AdjMap) (id : Nat) (f : IdSet → IdSet) : AdjMap :=
  m.map (fun p => if p.1 = id then (p.1, f p.2) else p)

/-- Model of `m[id].insert(x)`. -/
def AdjMap.insertAt (m : AdjMap) (id x : Nat) : AdjMap :=
  (m.touch id).modify id (fun s => s.insert x)

/-- Model of `m[id].erase(x)`. -/
def AdjMap.eraseAt (m : AdjMap) (id x : Nat) : AdjMap :=
  (m.touch id).modify id (fun s => s.erase x)

/-- Model of `unordered_map::erase(key)`. -/
def AdjMap.eraseKey (m : AdjMap) (id : Nat) : AdjMap :=
  m.filter (fun p => decide (p.1 ≠ id))

/-- The keys in iteration order. -/
def AdjMap.keys (m : AdjMap) : List Nat :=
  m.map (fun p => p.1)

/-- The loop
`for (size_t neighbourId : it->second) if (id != neighbourId) m[neighbourId].erase(id);`
of `RemoveVertex`, run over the neighbours in iteration order. -/
def AdjMap.eraseBackRefs (id : Nat) : List Nat → AdjMap → AdjMap
  | [], m => m
  | n :: ns, m =>
    if id ≠ n then AdjMap.eraseBackRefs id ns (m.eraseAt n id)
    else AdjMap.eraseBackRefs id ns m

/-! ## `graph::Graph` (graph.hpp) -/

/-- State of `graph::Graph`: the private member `edges`. -/
structure Graph where
  edges : AdjMap
deriving DecidableEq, Repr

namespace Graph

/-- The default constructor. -/
def empty : Graph := ⟨[]⟩

/-- `Graph::AddVertex`: `edges[id];` -/
def AddVertex (g : Graph) (id : Nat) : Graph :=
  ⟨g.edges.touch id⟩

/-- `Graph::AddEdge`: `edges[id1].insert(id2); edges[id2].insert(id1);` -/
def AddEdge (g : Graph) (id1 id2 : Nat) : Graph :=
  ⟨(g.edges.insertAt id1 id2).insertAt id2 id1⟩

/-- `Graph::HasVertex`: `edges.find(id) != edges.end()`. -/
def HasVertex (g : Graph) (id : Nat) : Bool :=
  (g.edges.find id).isSome

/-- `Graph::HasEdge`. -/
def HasEdge (g : Graph) (id1 id2 : Nat) : Bool :=
  match g.edges.find id1 with
  | none => false
  | some s => decide (id2 ∈ s)

/-- `Graph::RemoveVertex`. -/
def RemoveVertex (g : Graph) (id : Nat) : Graph :=
  match g.edges.find id with
  | none => g
  | some s => ⟨(AdjMap.eraseBackRefs id s g.edges).eraseKey id⟩

/-- `Graph::RemoveEdge`. -/
def RemoveEdge (g : Graph) (id1 id2 : Nat) : Graph :=
  let e1 := if (g.edges.find id1).isSome then g.edges.eraseAt id1 id2 else g.edges
  let e2 := if (e1.find id2).isSome then e1.eraseAt id2 id1 else e1
  ⟨e2⟩

/-- `Graph::Edges`: `edges.at(id)`; `none` is `std::out_of_range`. -/
def Edges (g : Graph) (id : Nat) : Option IdSet :=
  g.edges.find id

/-- `Graph::IncomingEdges`: `edges.at(id)`; `none` is `std::out_of_range`. -/
def IncomingEdges (g : Graph) (id : Nat) : Option IdSet :=
  g.edges.find id

/-- `Graph::Vertices`: the keys of `edges` in iteration order. -/
def Vertices (g : Graph) : List Nat :=
  g.edges.keys

/-- `Graph::NumVertices`: `edges.size()`. -/
def NumVertices (g : Graph) : Nat :=
  g.edges.length

end Graph

/-- One call of a mutating public member function of a graph class. -/
inductive Op where
  | AddVertex (id : Nat)
  | AddEdge (id1 id2 : Nat)
  | RemoveVertex (id : Nat)
  | RemoveEdge (id1 id2 : Nat)
deriving DecidableEq, Repr

/-- Effect of one call on a `Graph`. -/
def Graph.step (g : Graph) : Op → Graph
  | .AddVertex id => g.AddVertex id
  | .AddEdge id1 id2 => g.AddEdge id1 id2
  | .RemoveVertex id => g.RemoveVertex id
  | .RemoveEdge id1 id2 => g.RemoveEdge id1 id2

/-- The `Graph` obtained from the empty graph by a sequence of calls. -/
def Graph.run (ops : List Op) : Graph :=
  ops.foldl Graph.step Graph.empty

/-! ## `graph::OrientedGraph` (oriented_graph.hpp) -/

/-- State of `graph::OrientedGraph`: the private members `edges` (outgoing)
and `incomingEdges`. -/
structure OrientedGraph where
  edges : AdjMap
  incomingEdges : AdjMap
deriving DecidableEq, Repr

namespace OrientedGraph

/-- The default constructor. -/
def empty : OrientedGraph := ⟨[], []⟩

/-- `OrientedGraph::AddVertex`: `edges[id]; incomingEdges[id];` -/
def AddVertex (g : OrientedGraph) (id : Nat) : OrientedGraph :=
  ⟨g.edges.touch id, g.incomingEdges.touch id⟩

/-- `OrientedGraph::AddEdge`:
`edges[id1].insert(id2); incomingEdges[id2].insert(id1);` -/
def AddEdge (g : OrientedGraph) (id1 id2 : Nat) : OrientedGraph :=
  ⟨g.edges.insertAt id1 id2, g.incomingEdges.insertAt id2 id1⟩

/-- `OrientedGraph::HasVertex`: `edges.find(id) != edges.end()`. -/
def HasVertex (g : OrientedGraph) (id : Nat) : Bool :=
  (g.edges.find id).isSome

/-- `OrientedGraph::HasEdge`. -/
def HasEdge (g : OrientedGraph) (id1 id2 : Nat) : Bool :=
  match g.edges.find id1 with
  | none => false
  | some s => decide (id2 ∈ s)

/-- First half of `OrientedGraph::RemoveVertex`: the block guarded by
`it != edges.end()`. -/
def removeOutgoing (g : OrientedGraph) (id : Nat) : OrientedGraph :=
  match g.edges.find id with
  | none => g
  | some s => ⟨g.edges.eraseKey id, AdjMap.eraseBackRefs id s g.incomingEdges⟩

/-- Second half of `OrientedGraph::RemoveVertex`: the block guarded by
`it2 != incomingEdges.end()`. -/
def removeIncoming (g : OrientedGraph) (id : Nat) : OrientedGraph :=
  match g.incomingEdges.find id with
  | none => g
  | some s => ⟨AdjMap.eraseBackRefs id s g.edges, g.incomingEdges.eraseKey id⟩

/-- `OrientedGraph::RemoveVertex`. -/
def RemoveVertex (g : OrientedGraph) (id : Nat) : OrientedGraph :=
  (g.removeOutgoing id).removeIncoming id

/-- `OrientedGraph::RemoveEdge`. -/
def RemoveEdge (g : OrientedGraph) (id1 id2 : Nat) : OrientedGraph :=
  ⟨if (g.edges.find id1).isSome then g.edges.eraseAt id1 id2 else g.edges,
   if (g.incomingEdges.find id2).isSome then g.incomingEdges.eraseAt id2 id1
   else g.incomingEdges⟩

/-- `OrientedGraph::Edges`: `edges.at(id)`; `none` is `std::out_of_range`. -/
def Edges (g : OrientedGraph) (id : Nat) : Option IdSet :=
  g.edges.find id

/-- `OrientedGraph::IncomingEdges`: `incomingEdges.at(id)`; `none` is
`std::out_of_range`. -/
def IncomingEdges (g : OrientedGraph) (id : Nat) : Option IdSet :=
  g.incomingEdges.find id

/-- `OrientedGraph::Vertices`: the keys of `edges` in iteration order. -/
def Vertices (g : OrientedGraph) : List Nat :=
  g.edges.keys

/-- `OrientedGraph::NumVertices`: `edges.size()`. -/
def NumVertices (g : OrientedGraph) : Nat :=
  g.edges.length

/-- Effect of one call on an `OrientedGraph`. -/
def step (g : OrientedGraph) : Op → OrientedGraph
  | .AddVertex id => g.AddVertex id
  | .AddEdge id1 id2 => g.AddEdge id1 id2
  | .RemoveVertex id => g.RemoveVertex id
  | .RemoveEdge id1 id2 => g.RemoveEdge id1 id2

/-- The `OrientedGraph` obtained from the empty graph by a sequence of calls. -/
def run (ops : List Op) : OrientedGraph :=
  ops.foldl step empty

end OrientedGraph

/-! ## `graph::TopologicalSort` (topological_sort.hpp) -/

/-- The enumeration `DFSVertexState`. -/
inductive DFSVertexState where
  | NotVisited
  | Processing
  | Processed
deriving DecidableEq, Repr

/-- The three variables that `TopologicalSort` passes by reference to `dfs`.
`visited` is a `std::unordered_map<size_t, DFSVertexState>` that is only ever
accessed through `operator[]`, which yields `NotVisited` (the zero value of the
enumeration) for a key that was never written; it is modelled by the function
giving the state read for each id. -/
structure DfsVars where
  visited : Nat → DFSVertexState
  result_order : List Nat
  is_cyclic : Bool

/-- Outcome of a call that may throw: a value, `std::out_of_range`, or the
fuel of the model exhausted. -/
inductive SortResult (α : Type) where
  | ok (a : α)
  | out_of_range
  | out_of_fuel
deriving DecidableEq, Repr

/-- The assignment `visited[id] = s`. -/
def setVisited (visited : Nat → DFSVertexState) (id : Nat) (s : DFSVertexState) :
    Nat → DFSVertexState :=
  fun x => if x = id then s else visited x

/-- The `for (auto destination : graph.Edges(vertex))` loop of `dfs`, with the
recursive call passed in as `call`.  The boolean of the result tells whether the
loop left `dfs` through `is_cyclic = true; return;`. -/
def dfsLoop (call : Nat → DfsVars → SortResult DfsVars) :
    List Nat → DfsVars → SortResult (Bool × DfsVars)
  | [], st => .ok (false, st)
  | destination :: rest, st =>
    let afterCall :=
      if st.visited destination = DFSVertexState.NotVisited then call destination st
      else .ok st
    match afterCall with
    | .ok st1 =>
      if st1.visited destination = DFSVertexState.Processing then
        .ok (true, { st1 with is_cyclic := true })
      else dfsLoop call rest st1
    | .out_of_range => .out_of_range
    | .out_of_fuel => .out_of_fuel

/-- The function `dfs`.  The first argument bounds the recursion depth. -/
def dfs : Nat → OrientedGraph → Nat → DfsVars → SortResult DfsVars
  | 0, _, _, _ => .out_of_fuel
  | fuel + 1, g, vertex, st =>
    let st0 : DfsVars :=
      { st with visited := setVisited st.visited vertex DFSVertexState.Processing }
    match g.Edges vertex with
    | none => .out_of_range
    | some destinations =>
      match dfsLoop (dfs fuel g) destinations st0 with
      | .ok (true, st1) => .ok st1
      | .ok (false, st1) =>
        .ok { st1 with
              visited := setVisited st1.visited vertex DFSVertexState.Processed
              result_order := st1.result_order ++ [vertex] }
      | .out_of_range => .out_of_range
      | .out_of_fuel => .out_of_fuel

/-- The second `for (auto vertex : graph.Vertices())` loop of `TopologicalSort`.
The result `none` is the early `return std::vector<size_t>();`. -/
def sortLoop (fuel : Nat) (g : OrientedGraph) :
    List Nat → DfsVars → SortResult (Option DfsVars)
  | [], st => .ok (some st)
  | vertex :: rest, st =>
    if st.is_cyclic then .ok none
    else if st.visited vertex = DFSVertexState.NotVisited then
      match dfs fuel g vertex st with
      | .ok st1 => sortLoop fuel g rest st1
      | .out_of_range => .out_of_range
      | .out_of_fuel => .out_of_fuel
    else sortLoop fuel g rest st

/-- The variables of `TopologicalSort` after its first loop, which writes
`NotVisited` for every vertex into the empty map `visited`. -/
def initialVars : DfsVars :=
  { visited := fun _ => DFSVertexState.NotVisited, result_order := [], is_cyclic := false }

/-- The function `TopologicalSort`; `fuel` bounds the recursion depth of `dfs`. -/
def TopologicalSort (fuel : Nat) (g : OrientedGraph) : SortResult (List Nat) :=
  match sortLoop fuel g g.Vertices initialVars with
  | .ok none => .ok []
  | .ok (some st) => .ok st.result_order.reverse
  | .out_of_range => .out_of_range
  | .out_of_fuel => .out_of_fuel

/-! ## Relational view of the containers -/

/-- The key `k` has an entry in the map. -/
def AdjMap.has (m : AdjMap) (k : Nat) : Prop :=
  (AdjMap.find m k).isSome = true

/-- The id `b` is stored in the set kept under key `a`. -/
def AdjMap.rel (m : AdjMap) (a b : Nat) : Prop :=
  ∃ s, AdjMap.find m a = some s ∧ b ∈ s

/-! ## The set model of `RandomTest` (tests/graph_test.cpp) -/

/-- The two sets `vertices` and `edges` that `RandomTest` maintains next to the graph. -/
structure SetModel where
  V : Finset Nat
  E : Finset (Nat × Nat)

/-- Evolution of the set model under one call:
`V += {x}`; `V += {a,b}, E += {(a,b),(b,a)}`; `V -= {x}, E -= all pairs containing x`;
`E -= {(a,b),(b,a)}`. -/
def SetModel.step (s : SetModel) : Op → SetModel
  | .AddVertex x => ⟨insert x s.V, s.E⟩
  | .AddEdge a b => ⟨insert a (insert b s.V), insert (a, b) (insert (b, a) s.E)⟩
  | .RemoveVertex x => ⟨s.V.erase x, s.E.filter (fun p => p.1 ≠ x ∧ p.2 ≠ x)⟩
  | .RemoveEdge a b => ⟨s.V, (s.E.erase (a, b)).erase (b, a)⟩

/-- The set model after a sequence of calls, starting from empty sets. -/
def SetModel.run (ops : List Op) : SetModel :=
  ops.foldl SetModel.step ⟨∅, ∅⟩

/-! ## Invariants -/

/-- The adjacency relation of a `Graph` is symmetric and relates vertices only. -/
structure Graph.Inv (g : Graph) : Prop where
  symm : ∀ a b, AdjMap.rel g.edges a b → AdjMap.rel g.edges b a
  closed : ∀ a b, AdjMap.rel g.edges a b → AdjMap.has g.edges b

/-- The set model describes the graph: same vertices, same adjacency. -/
structure Graph.Refines (g : Graph) (s : SetModel) : Prop where
  vertices : ∀ x, g.HasVertex x = true ↔ x ∈ s.V
  adjacency : ∀ a b, g.HasEdge a b = true ↔ (a, b) ∈ s.E

/-- The two maps of an `OrientedGraph` mirror each other. -/
def OrientedGraph.Mirror (g : OrientedGraph) : Prop :=
  ∀ a b, AdjMap.rel g.edges a b ↔ AdjMap.rel g.incomingEdges b a

/-! ## Notions used in the statements about `TopologicalSort` -/

/-- The pair `(u, v)` is an edge of the graph, as reported by `HasEdge`. -/
def OrientedGraph.Edge (g : OrientedGraph) (u v : Nat) : Prop :=
  g.HasEdge u v = true

/-- The graph has no directed cycle (a self-loop is a cycle of length one). -/
def OrientedGraph.Acyclic (g : OrientedGraph) : Prop :=
  ∀ v, ¬ Relation.TransGen g.Edge v v

/-- Every edge endpoint satisfies `HasVertex`. -/
def OrientedGraph.EdgeClosed (g : OrientedGraph) : Prop :=
  ∀ u v, g.HasEdge u v = true → g.HasVertex u = true ∧ g.HasVertex v = true

/-- The keys of `edges` are pairwise distinct, as in every `std::unordered_map`. -/
def OrientedGraph.DistinctKeys (g : OrientedGraph) : Prop :=
  g.Vertices.Nodup

instance OrientedGraph.decidableDistinctKeys (g : OrientedGraph) :
    Decidable g.DistinctKeys :=
  inferInstanceAs (Decidable g.Vertices.Nodup)

/-- Number of entries of `vs` that `visited` still maps to `NotVisited`. -/
def pending (vs : List Nat) (visited : Nat → DFSVertexState) : Nat :=
  vs.countP (fun k => decide (visited k = DFSVertexState.NotVisited))

/-- A vertex never goes back to `NotVisited`. -/
def VisitedMono (v1 v2 : Nat → DFSVertexState) : Prop :=
  ∀ x, v2 x = DFSVertexState.NotVisited → v1 x = DFSVertexState.NotVisited

/-- Invariant of the variables of `TopologicalSort` while no cycle has been seen:
`result_order` lists exactly the `Processed` ids, once each, every edge leaving a
listed id ends in an id listed earlier, and only vertices are listed. -/
structure PostOrder (g : OrientedGraph) (st : DfsVars) : Prop where
  not_cyclic : st.is_cyclic = false
  processed_iff : ∀ x, st.visited x = DFSVertexState.Processed ↔ x ∈ st.result_order
  nodup : st.result_order.Nodup
  succ_closed : ∀ x ∈ st.result_order, ∀ y, g.Edge x y → y ∈ st.result_order
  no_forward : st.result_order.Pairwise (fun a b => ¬ g.Edge a b)
  vertices : ∀ x ∈ st.result_order, g.HasVertex x = true

/-- All pairs `(u, v)` with `v` stored in the outgoing set of `u`. -/
def OrientedGraph.edgeList (g : OrientedGraph) : List (Nat × Nat) :=
  g.edges.flatMap (fun p => p.2.map (fun d => (p.1, d)))

/-! ## Graphs built from a vertex list and an edge list -/

/-- The calls `AddVertex(v)` for each id of `vs`, followed by `AddEdge(a, b)` for each
pair of `ps`; this is how `TopologicalSortMethod` builds its graph. -/
def buildOps (vs : List Nat) (ps : List (Nat × Nat)) : List Op :=
  vs.map Op.AddVertex ++ ps.map (fun p => Op.AddEdge p.1 p.2)

/-- The consecutive pairs `(v1, v2), (v2, v3), ...` of a list. -/
def chainEdges (vs : List Nat) : List (Nat × Nat) :=
  vs.zip vs.tail

/-- The graph built by `AddVertex` on each id of `vs` and `AddEdge(vi, vi+1)` for each
consecutive pair. -/
def chainGraph (vs : List Nat) : OrientedGraph :=
  OrientedGraph.run (buildOps vs (chainEdges vs))

/-- The pairs `(v1, v2), ..., (v(n-1), vn), (vn, v1)` of a list. -/
def cycleEdges (vs : List Nat) : List (Nat × Nat) :=
  vs.zip (vs.rotate 1)

/-- The graph built by `AddVertex` on each id of `vs` and `AddEdge` along the cycle. -/
def cycleGraph (vs : List Nat) : OrientedGraph :=
  OrientedGraph.run (buildOps vs (cycleEdges vs))

/-- Two graphs with the same vertices and the same edges; the iteration orders of
their containers may differ. -/
def OrientedGraph.SameContents (g h : OrientedGraph) : Prop :=
  (∀ x, g.HasVertex x = h.HasVertex x) ∧ (∀ a b, g.HasEdge a b = h.HasEdge a b)

/-! ## Concrete graphs -/

/-- The graph of `SimpleTest`: vertices 1, 2, 3 and edges 2 → 1, 1 → 3. -/
def simpleGraph : OrientedGraph :=
  OrientedGraph.run [.AddVertex 1, .AddVertex 2, .AddVertex 3, .AddEdge 2 1, .AddEdge 1 3]

/-- A diamond: edges 1 → 2, 1 → 3, 2 → 4, 3 → 4. -/
def diamondGraph : OrientedGraph :=
  OrientedGraph.run [.AddVertex 4, .AddVertex 3, .AddVertex 2, .AddVertex 1,
    .AddEdge 1 2, .AddEdge 1 3, .AddEdge 2 4, .AddEdge 3 4]

/-- Vertices 1 and 2, iterated in this order, and the self-loop 2 → 2. -/
def selfLoopLastGraph : OrientedGraph :=
  OrientedGraph.run [.AddVertex 1, .AddVertex 2, .AddEdge 2 2]

/-- Vertices 2 and 1, iterated in this order, and the self-loop 1 → 1. -/
def selfLoopLastGraphMirror : OrientedGraph :=
  OrientedGraph.run [.AddVertex 2, .AddVertex 1, .AddEdge 1 1]

/-- The graph left by the single call `AddEdge(1, 2)` on the empty graph. -/
def danglingEdgeGraph : OrientedGraph :=
  OrientedGraph.run [.AddEdge 1 2]

/-- The calls of `AnotherSimpleTest` up to the removal: vertices 1, 2 and the edge 1 → 2. -/
def anotherSimpleOps : List Op :=
  [.AddVertex 1, .AddVertex 2, .AddEdge 1 2]

/-- The calls of the removal scenario of the undirected graph: vertices 1, 2, 3 and
the edge (1, 2). -/
def removalScenarioOps : List Op :=
  [.AddVertex 1, .AddVertex 2, .AddVertex 3, .AddEdge 1 2]

/-- The keys of `edges` are pairwise distinct, as in every `std::unordered_map`. -/
def Graph.DistinctKeys (g : Graph) : Prop :=
  g.edges.keys.Nodup

/-- Every set stored under the key `id` contains `x`. -/
def AdjMap.AllAt (m : AdjMap) (id x : Nat) : Prop :=
  ∀ p ∈ m, p.1 = id → x ∈ p.2

/-- No set stored under the key `id` contains `x`. -/
def AdjMap.NoneAt (m : AdjMap) (id x : Nat) : Prop :=
  ∀ p ∈ m, p.1 = id → x ∉ p.2

/-! ## Weighted graphs (weighted_graph.hpp, weighted_oriented_graph.hpp) -/

/-- Model of `std::unordered_map<std::pair<size_t, size_t>, Weight, Hash>`: the entries
in iteration order.  `W` is the template parameter `Weight`. -/
abbrev WeightMap (W : Type) := List ((Nat × Nat) × W)

/-- Model of `unordered_map::find` and of `unordered_map::at` on the weight map;
`none` stands for `end()`, respectively for `std::out_of_range`. -/
def WeightMap.find {W : Type} : WeightMap W → Nat × Nat → Option W
  | [], _ => none
  | (k, w) :: rest, key => if k = key then some w else WeightMap.find rest key

/-- Write of `w` into the value stored under `key` (no effect when `key` is absent). -/
def WeightMap.update {W : Type} (m : WeightMap W) (key : Nat × Nat) (w : W) : WeightMap W :=
  m.map (fun p => if p.1 = key then (p.1, w) else p)

/-- Model of `m[key] = w`: the value of a present key is replaced, an absent key gets
a new entry. -/
def WeightMap.assign {W : Type} (m : WeightMap W) (key : Nat × Nat) (w : W) : WeightMap W :=
  match WeightMap.find m key with
  | some _ => WeightMap.update m key w
  | none => m ++ [(key, w)]

/-- Model of `unordered_map::erase(key)` on the weight map. -/
def WeightMap.eraseKey {W : Type} (m : WeightMap W) (key : Nat × Nat) : WeightMap W :=
  m.filter (fun p => decide (p.1 ≠ key))

/-- The loop of `RemoveVertex` in the weighted classes,
`for (size_t neighbourId : it->second) { if (id != neighbourId) { other[neighbourId].erase(id); }
weights.erase(key(neighbourId)); }`,
where `other` is the adjacency map holding the back references and `key` builds the
weight key of the edge between `id` and the neighbour. -/
def eraseRefsAndWeights {W : Type} (id : Nat) (key : Nat → Nat × Nat) :
    List Nat → AdjMap × WeightMap W → AdjMap × WeightMap W
  | [], st => st
  | n :: ns, st =>
    eraseRefsAndWeights id key ns
      (if id ≠ n then AdjMap.eraseAt st.1 n id else st.1, WeightMap.eraseKey st.2 (key n))

/-- A call of a mutating public member function of a weighted graph class;
`WriteWeight` is a write through the reference returned by the non-const
`EdgeWeight`. -/
inductive WOp (W : Type) where
  | AddVertex (id : Nat)
  | AddEdge (id1 id2 : Nat) (weight : W)
  | RemoveVertex (id : Nat)
  | RemoveEdge (id1 id2 : Nat)
  | WriteWeight (id1 id2 : Nat) (weight : W)

/-- State of `graph::WeightedGraph<Weight>`: the private members `edges` and `weights`. -/
structure WeightedGraph (W : Type) where
  edges : AdjMap
  weights : WeightMap W

/-- `WeightedGraph::MakeEdgeId`: the smaller id first. -/
def WeightedGraph.MakeEdgeId (id1 id2 : Nat) : Nat × Nat :=
  if id1 < id2 then (id1, id2) else (id2, id1)

/-- The default constructor. -/
def WeightedGraph.empty {W : Type} : WeightedGraph W := ⟨[], []⟩

/-- `WeightedGraph::AddVertex`: `edges[id];` -/
def WeightedGraph.AddVertex {W : Type} (g : WeightedGraph W) (id : Nat) : WeightedGraph W :=
  ⟨g.edges.touch id, g.weights⟩

/-- `WeightedGraph::AddEdge`: `edges[id1].insert(id2); edges[id2].insert(id1);
weights[MakeEdgeId(id1, id2)] = weight;` -/
def WeightedGraph.AddEdge {W : Type} (g : WeightedGraph W) (id1 id2 : Nat) (weight : W) :
    WeightedGraph W :=
  ⟨(g.edges.insertAt id1 id2).insertAt id2 id1,
   WeightMap.assign g.weights (WeightedGraph.MakeEdgeId id1 id2) weight⟩

/-- `WeightedGraph::HasVertex`. -/
def WeightedGraph.HasVertex {W : Type} (g : WeightedGraph W) (id : Nat) : Bool :=
  (g.edges.find id).isSome

/-- `WeightedGraph::HasEdge`. -/
def WeightedGraph.HasEdge {W : Type} (g : WeightedGraph W) (id1 id2 : Nat) : Bool :=
  match g.edges.find id1 with
  | none => false
  | some s => decide (id2 ∈ s)

/-- `WeightedGraph::RemoveVertex`. -/
def WeightedGraph.RemoveVertex {W : Type} (g : WeightedGraph W) (id : Nat) :
    WeightedGraph W :=
  match g.edges.find id with
  | none => g
  | some s =>
    ⟨AdjMap.eraseKey
        (eraseRefsAndWeights id (WeightedGraph.MakeEdgeId id) s (g.edges, g.weights)).1 id,
      (eraseRefsAndWeights id (WeightedGraph.MakeEdgeId id) s (g.edges, g.weights)).2⟩

/-- `WeightedGraph::RemoveEdge`. -/
def WeightedGraph.RemoveEdge {W : Type} (g : WeightedGraph W) (id1 id2 : Nat) :
    WeightedGraph W :=
  let e1 := if (g.edges.find id1).isSome then g.edges.eraseAt id1 id2 else g.edges
  let e2 := if (e1.find id2).isSome then e1.eraseAt id2 id1 else e1
  ⟨e2, WeightMap.eraseKey g.weights (WeightedGraph.MakeEdgeId id1 id2)⟩

/-- `WeightedGraph::Edges`: `edges.at(id)`; `none` is `std::out_of_range`. -/
def WeightedGraph.Edges {W : Type} (g : WeightedGraph W) (id : Nat) : Option IdSet :=
  g.edges.find id

/-- `WeightedGraph::IncomingEdges`: `edges.at(id)`; `none` is `std::out_of_range`. -/
def WeightedGraph.IncomingEdges {W : Type} (g : WeightedGraph W) (id : Nat) :
    Option IdSet :=
  g.edges.find id

/-- `WeightedGraph::EdgeWeight` (both overloads, read): `weights.at(MakeEdgeId(id1, id2))`;
`none` is `std::out_of_range`. -/
def WeightedGraph.EdgeWeight {W : Type} (g : WeightedGraph W) (id1 id2 : Nat) : Option W :=
  WeightMap.find g.weights (WeightedGraph.MakeEdgeId id1 id2)

/-- A write `graph.EdgeWeight(id1, id2) = weight` through the non-const overload;
`none` is `std::out_of_range`, thrown before anything is written. -/
def WeightedGraph.WriteEdgeWeight {W : Type} (g : WeightedGraph W) (id1 id2 : Nat)
    (weight : W) : Option (WeightedGraph W) :=
  match WeightMap.find g.weights (WeightedGraph.MakeEdgeId id1 id2) with
  | none => none
  | some _ =>
    some ⟨g.edges, WeightMap.update g.weights (WeightedGraph.MakeEdgeId id1 id2) weight⟩

/-- `WeightedGraph::Vertices`. -/
def WeightedGraph.Vertices {W : Type} (g : WeightedGraph W) : List Nat :=
  g.edges.keys

/-- `WeightedGraph::NumVertices`. -/
def WeightedGraph.NumVertices {W : Type} (g : WeightedGraph W) : Nat :=
  g.edges.length

/-- Effect of one call on a `WeightedGraph`; a write that throws leaves the state as
it was. -/
def WeightedGraph.step {W : Type} (g : WeightedGraph W) : WOp W → WeightedGraph W
  | .AddVertex id => g.AddVertex id
  | .AddEdge id1 id2 weight => g.AddEdge id1 id2 weight
  | .RemoveVertex id => g.RemoveVertex id
  | .RemoveEdge id1 id2 => g.RemoveEdge id1 id2
  | .WriteWeight id1 id2 weight => (g.WriteEdgeWeight id1 id2 weight).getD g

/-- The `WeightedGraph` obtained from the empty graph by a sequence of calls. -/
def WeightedGraph.run {W : Type} (ops : List (WOp W)) : WeightedGraph W :=
  ops.foldl WeightedGraph.step WeightedGraph.empty

/-- The unweighted graph with the same adjacency map. -/
def WeightedGraph.toGraph {W : Type} (g : WeightedGraph W) : Graph :=
  ⟨g.edges⟩

/-- State of `graph::WeightedOrientedGraph<Weight>`: the private members `edges`,
`incomingEdges` and `weights`. -/
structure WeightedOrientedGraph (W : Type) where
  edges : AdjMap
  incomingEdges : AdjMap
  weights : WeightMap W

/-- The default constructor. -/
def WeightedOrientedGraph.empty {W : Type} : WeightedOrientedGraph W := ⟨[], [], []⟩

/-- `WeightedOrientedGraph::AddVertex`: `edges[id]; incomingEdges[id];` -/
def WeightedOrientedGraph.AddVertex {W : Type} (g : WeightedOrientedGraph W) (id : Nat) :
    WeightedOrientedGraph W :=
  ⟨g.edges.touch id, g.incomingEdges.touch id, g.weights⟩

/-- `WeightedOrientedGraph::AddEdge`: `edges[id1].insert(id2);
incomingEdges[id2].insert(id1); weights[std::make_pair(id1, id2)] = weight;` -/
def WeightedOrientedGraph.AddEdge {W : Type} (g : WeightedOrientedGraph W) (id1 id2 : Nat)
    (weight : W) : WeightedOrientedGraph W :=
  ⟨g.edges.insertAt id1 id2, g.incomingEdges.insertAt id2 id1,
   WeightMap.assign g.weights (id1, id2) weight⟩

/-- `WeightedOrientedGraph::HasVertex`. -/
def WeightedOrientedGraph.HasVertex {W : Type} (g : WeightedOrientedGraph W) (id : Nat) :
    Bool :=
  (g.edges.find id).isSome

/-- `WeightedOrientedGraph::HasEdge`. -/
def WeightedOrientedGraph.HasEdge {W : Type} (g : WeightedOrientedGraph W)
    (id1 id2 : Nat) : Bool :=
  match g.edges.find id1 with
  | none => false
  | some s => decide (id2 ∈ s)

/-- First half of `WeightedOrientedGraph::RemoveVertex`: the block guarded by
`it != edges.end()`. -/
def WeightedOrientedGraph.removeOutgoing {W : Type} (g : WeightedOrientedGraph W)
    (id : Nat) : WeightedOrientedGraph W :=
  match g.edges.find id with
  | none => g
  | some s =>
    ⟨g.edges.eraseKey id,
      (eraseRefsAndWeights id (fun n => (id, n)) s (g.incomingEdges, g.weights)).1,
      (eraseRefsAndWeights id (fun n => (id, n)) s (g.incomingEdges, g.weights)).2⟩

/-- Second half of `WeightedOrientedGraph::RemoveVertex`: the block guarded by
`it2 != incomingEdges.end()`. -/
def WeightedOrientedGraph.removeIncoming {W : Type} (g : WeightedOrientedGraph W)
    (id : Nat) : WeightedOrientedGraph W :=
  match g.incomingEdges.find id with
  | none => g
  | some s =>
    ⟨(eraseRefsAndWeights id (fun n => (n, id)) s (g.edges, g.weights)).1,
      g.incomingEdges.eraseKey id,
      (eraseRefsAndWeights id (fun n => (n, id)) s (g.edges, g.weights)).2⟩

/-- `WeightedOrientedGraph::RemoveVertex`. -/
def WeightedOrientedGraph.RemoveVertex {W : Type} (g : WeightedOrientedGraph W)
    (id : Nat) : WeightedOrientedGraph W :=
  (g.removeOutgoing id).removeIncoming id

/-- `WeightedOrientedGraph::RemoveEdge`. -/
def WeightedOrientedGraph.RemoveEdge {W : Type} (g : WeightedOrientedGraph W)
    (id1 id2 : Nat) : WeightedOrientedGraph W :=
  ⟨if (g.edges.find id1).isSome then g.edges.eraseAt id1 id2 else g.edges,
   if (g.incomingEdges.find id2).isSome then g.incomingEdges.eraseAt id2 id1
   else g.incomingEdges,
   WeightMap.eraseKey g.weights (id1, id2)⟩

/-- `WeightedOrientedGraph::Edges`: `edges.at(id)`; `none` is `std::out_of_range`. -/
def WeightedOrientedGraph.Edges {W : Type} (g : WeightedOrientedGraph W) (id : Nat) :
    Option IdSet :=
  g.edges.find id

/-- `WeightedOrientedGraph::IncomingEdges`: `incomingEdges.at(id)`; `none` is
`std::out_of_range`. -/
def WeightedOrientedGraph.IncomingEdges {W : Type} (g : WeightedOrientedGraph W)
    (id : Nat) : Option IdSet :=
  g.incomingEdges.find id

/-- `WeightedOrientedGraph::EdgeWeight` (read): `weights.at(std::make_pair(id1, id2))`;
`none` is `std::out_of_range`. -/
def WeightedOrientedGraph.EdgeWeight {W : Type} (g : WeightedOrientedGraph W)
    (id1 id2 : Nat) : Option W :=
  WeightMap.find g.weights (id1, id2)

/-- A write `graph.EdgeWeight(id1, id2) = weight` through the non-const overload;
`none` is `std::out_of_range`, thrown before anything is written. -/
def WeightedOrientedGraph.WriteEdgeWeight {W : Type} (g : WeightedOrientedGraph W)
    (id1 id2 : Nat) (weight : W) : Option (WeightedOrientedGraph W) :=
  match WeightMap.find g.weights (id1, id2) with
  | none => none
  | some _ => some ⟨g.edges, g.incomingEdges, WeightMap.update g.weights (id1, id2) weight⟩

/-- Effect of one call on a `WeightedOrientedGraph`; a write that throws leaves the
state as it was. -/
def WeightedOrientedGraph.step {W : Type} (g : WeightedOrientedGraph W) :
    WOp W → WeightedOrientedGraph W
  | .AddVertex id => g.AddVertex id
  | .AddEdge id1 id2 weight => g.AddEdge id1 id2 weight
  | .RemoveVertex id => g.RemoveVertex id
  | .RemoveEdge id1 id2 => g.RemoveEdge id1 id2
  | .WriteWeight id1 id2 weight => (g.WriteEdgeWeight id1 id2 weight).getD g

/-- The `WeightedOrientedGraph` obtained from the empty graph by a sequence of calls. -/
def WeightedOrientedGraph.run {W : Type} (ops : List (WOp W)) : WeightedOrientedGraph W :=
  ops.foldl WeightedOrientedGraph.step WeightedOrientedGraph.empty

/-- The unweighted oriented graph with the same two adjacency maps. -/
def WeightedOrientedGraph.toOriented {W : Type} (g : WeightedOrientedGraph W) :
    OrientedGraph :=
  ⟨g.edges, g.incomingEdges⟩

/-- Invariant of `WeightedGraph`: the adjacency is symmetric and closed, and a weight
is stored for the key of `(a, b)` exactly when `(a, b)` is an edge. -/
structure WeightedGraph.WInv {W : Type} (g : WeightedGraph W) : Prop where
  adjacency : Graph.Inv g.toGraph
  weight_iff : ∀ a b, (WeightMap.find g.weights (WeightedGraph.MakeEdgeId a b)).isSome = true ↔
    AdjMap.rel g.edges a b

/-- Invariant of `WeightedOrientedGraph`: the two adjacency maps mirror each other, and
a weight is stored under `(a, b)` exactly when `(a, b)` is an edge. -/
structure WeightedOrientedGraph.WInv {W : Type} (g : WeightedOrientedGraph W) : Prop where
  mirror : OrientedGraph.Mirror g.toOriented
  weight_iff : ∀ a b, (WeightMap.find g.weights (a, b)).isSome = true ↔
    AdjMap.rel g.edges a b

/-- The weighted undirected graph holding the single edge (1, 2) with weight 5. -/
def weightedEdgeGraph : WeightedGraph Int :=
  WeightedGraph.run [.AddEdge 1 2 5]

/-- The weighted oriented graph holding the edges 1 → 2 with weight 5 and 2 → 1 with
weight 8. -/
def weightedTwoWayGraph : WeightedOrientedGraph Int :=
  WeightedOrientedGraph.run [.AddEdge 1 2 5, .AddEdge 2 1 8]

/-- A sequence of calls on a weighted graph: vertices 1, 2, the edge (1, 2) with weight
3, a write of 4 into that weight, a self-loop on 2 with weight 6, and a write to the
missing edge (1, 3), which throws. -/
def weightedScenarioOps : List (WOp Int) :=
  [.AddVertex 1, .AddVertex 2, .AddEdge 1 2 3, .WriteWeight 1 2 4, .AddEdge 2 2 6,
    .WriteWeight 1 3 9]

/-- The calls of the third block of `GraphIteratorTest`: vertices 1 to 4 and the edges
(1, 2), (3, 5), (10, 15). -/
def iteratorTestOps : List Op :=
  [.AddVertex 1, .AddVertex 2, .AddVertex 3, .AddVertex 4, .AddEdge 1 2, .AddEdge 3 5,
    .AddEdge 10 15]

/-! ## Notions used in the statements about the frames of `dfs` -/

/-- The variables `s2` arise from `s` by processing ids that were `NotVisited` in `s`:
the state of every other id is as in `s`, and `result_order` grew by pairwise distinct
ids, each `NotVisited` in `s`, `Processed` in `s2` and a vertex of the graph. -/
structure Advances (g : OrientedGraph) (s s2 : DfsVars) : Prop where
  frame : ∀ x, s.visited x ≠ DFSVertexState.NotVisited → s2.visited x = s.visited x
  appended : ∃ added, s2.result_order = s.result_order ++ added ∧ added.Nodup ∧
    ∀ x ∈ added, s.visited x = DFSVertexState.NotVisited ∧
      s2.visited x = DFSVertexState.Processed ∧ g.HasVertex x = true

/-- `Detected g fuel v st sd`: during the call `dfs(graph, v, ...)` entered with the
variables `st`, the statement `is_cyclic = true` is reached for the first time with the
variables `sd`.  Either the loop of this frame passed the destinations `pre` without
leaving and finds the next destination `d` in state `Processing` (`inFrame`), or `d` is
`NotVisited` and the statement is reached inside the recursive call on `d` (`inCall`). -/
inductive Detected (g : OrientedGraph) : Nat → Nat → DfsVars → DfsVars → Prop
  | inFrame (fuel v : Nat) (st : DfsVars) (pre : List Nat) (d : Nat) (post : List Nat)
      (sd : DfsVars) :
      g.Edges v = some (pre ++ d :: post) →
      dfsLoop (dfs fuel g) pre
        { st with visited := setVisited st.visited v DFSVertexState.Processing }
        = .ok (false, sd) →
      sd.visited d = DFSVertexState.Processing →
      Detected g (fuel + 1) v st sd
  | inCall (fuel v : Nat) (st : DfsVars) (pre : List Nat) (d : Nat) (post : List Nat)
      (s1 sd : DfsVars) :
      g.Edges v = some (pre ++ d :: post) →
      dfsLoop (dfs fuel g) pre
        { st with visited := setVisited st.visited v DFSVertexState.Processing }
        = .ok (false, s1) →
      s1.visited d = DFSVertexState.NotVisited →
      Detected g fuel d s1 sd →
      Detected g (fuel + 1) v st sd

/-- Vertices 1, 2, 3 and the edges 1 → 3, 1 → 2, 2 → 1: from 1 the leaf 3 is processed
before the cycle through 2 is met. -/
def cycleAfterLeafGraph : OrientedGraph :=
  OrientedGraph.run [.AddVertex 1, .AddVertex 2, .AddVertex 3, .AddEdge 1 3, .AddEdge 1 2,
    .AddEdge 2 1]

/-- The variables with which `dfs(cycleAfterLeafGraph, 1, ...)` returns.  The writes to
`visited` are, in order: 1 `Processing`, 3 `Processing`, 3 `Processed`, 2 `Processing`;
so 3 is `Processed` and listed, 1 and 2 are `Processing`, and the flag is set. -/
def cycleAfterLeafVars : DfsVars :=
  { visited :=
      setVisited (setVisited (setVisited (setVisited initialVars.visited
        1 DFSVertexState.Processing) 3 DFSVertexState.Processing)
        3 DFSVertexState.Processed) 2 DFSVertexState.Processing
    result_order := [3]
    is_cyclic := true }

end graph

namespace geometry

/-! ## `geometry::InsertionSort` (insertion_sort.hpp) -/

/-- The inner loop of `InsertionSort`,
`for (j = i; j > 0; j--) { if (comparator(current, data[j - 1]) >= 0) break;
data[j] = data[j - 1]; }`,
entered with the given value of `j`.  The result is the value of `j` after the loop
together with the array. -/
def innerLoop {T : Type} [Inhabited T] (comparator : T → T → Int) (current : T) :
    Nat → List T → Nat × List T
  | 0, data => (0, data)
  | j + 1, data =>
    if comparator current (data.getD j default) ≥ 0 then (j + 1, data)
    else innerLoop comparator current j (data.set (j + 1) (data.getD j default))

/-- The body of the outer loop of `InsertionSort` for the index `i`:
`T current = data[i];`, the inner loop, and `data[j] = current;`. -/
def outerBody {T : Type} [Inhabited T] (comparator : T → T → Int) (data : List T)
    (i : Nat) : List T :=
  (innerLoop comparator (data.getD i default) i data).2.set
    (innerLoop comparator (data.getD i default) i data).1 (data.getD i default)

/-- The function `InsertionSort`: the loop `for (size_t i = 1; i < count; i++)` runs
the body for `i = 1, ..., count - 1`.  The result is the array after the call. -/
def InsertionSort {T : Type} [Inhabited T] (data : List T) (count : Nat)
    (comparator : T → T → Int) : List T :=
  (List.range' 1 (count - 1)).foldl (outerBody comparator) data

/-- The lambda that `InsertionSortMethodHelper` passes to `InsertionSort`:
`if (left < right) return -1; else if (left > right) return 1; return 0;` -/
def methodComparator (left right : Int) : Int :=
  if left < right then -1 else if left > right then 1 else 0

/-- A comparator as the doc comment of `InsertionSort` asks for: 1 if the second
number is greater than the first, -1 if the first number is greater than the second,
0 if they are equal. -/
def documentedComparator (first second : Int) : Int :=
  if second > first then 1 else if first > second then -1 else 0

end geometry

namespace graph

/-! ## Lemmas on the containers -/

theorem IdSet.mem_insert (s : IdSet) (x y : Nat) :
    y ∈ IdSet.insert s x ↔ y ∈ s ∨ y = x := by
  unfold IdSet.insert
  split
  · constructor
    · intro h; exact Or.inl h
    · rintro (h | h)
      · exact h
      · subst h; assumption
  · simp

theorem IdSet.mem_erase (s : IdSet) (x y : Nat) :
    y ∈ IdSet.erase s x ↔ y ∈ s ∧ y ≠ x := by
  simp [IdSet.erase]

theorem AdjMap.find_append (m m2 : AdjMap) (k : Nat) :
    AdjMap.find (m ++ m2) k =
      match AdjMap.find m k with
      | some s => some s
      | none => AdjMap.find m2 k := by
  induction m with
  | nil => simp [AdjMap.find]
  | cons p rest ih =>
    obtain ⟨a, s⟩ := p
    by_cases h : a = k
    · simp [AdjMap.find, h]
    · simp [AdjMap.find, h, ih]

theorem AdjMap.find_touch (m : AdjMap) (id k : Nat) :
    AdjMap.find (AdjMap.touch m id) k =
      if k = id then some ((AdjMap.find m id).getD []) else AdjMap.find m k := by
  unfold AdjMap.touch
  cases hf : AdjMap.find m id with
  | some s =>
    by_cases h : k = id
    · subst h; simp [hf]
    · simp [h]
  | none =>
    simp only [AdjMap.find_append]
    by_cases h : k = id
    · subst h; simp [hf, AdjMap.find]
    · have h2 : ¬ id = k := fun e => h e.symm
      cases hk : AdjMap.find m k <;> simp [AdjMap.find, h, h2]

theorem AdjMap.modify_cons (a : Nat) (s : IdSet) (rest : AdjMap) (id : Nat)
    (f : IdSet → IdSet) :
    AdjMap.modify ((a, s) :: rest) id f =
      (if a = id then (a, f s) else (a, s)) :: AdjMap.modify rest id f := rfl

theorem AdjMap.find_modify (m : AdjMap) (id : Nat) (f : IdSet → IdSet) (k : Nat) :
    AdjMap.find (AdjMap.modify m id f) k =
      if k = id then (AdjMap.find m id).map f else AdjMap.find m k := by
  induction m with
  | nil => simp [AdjMap.modify, AdjMap.find]
  | cons p rest ih =>
    obtain ⟨a, s⟩ := p
    rw [AdjMap.modify_cons]
    by_cases ha : a = id
    · rw [if_pos ha]
      subst ha
      by_cases hk : k = a
      · subst hk; simp [AdjMap.find]
      · have hk2 : ¬ a = k := fun e => hk e.symm
        simp [AdjMap.find, hk, hk2, ih]
    · rw [if_neg ha]
      by_cases hk : k = id
      · subst hk; simp [AdjMap.find, ha, ih]
      · by_cases hak : a = k
        · subst hak; simp [AdjMap.find, hk]
        · simp [AdjMap.find, hk, hak, ih]

theorem AdjMap.eraseKey_cons (a : Nat) (s : IdSet) (rest : AdjMap) (id : Nat) :
    AdjMap.eraseKey ((a, s) :: rest) id =
      if a = id then AdjMap.eraseKey rest id else (a, s) :: AdjMap.eraseKey rest id := by
  by_cases h : a = id <;> simp [AdjMap.eraseKey, List.filter_cons, h]

theorem AdjMap.find_eraseKey (m : AdjMap) (id k : Nat) :
    AdjMap.find (AdjMap.eraseKey m id) k =
      if k = id then none else AdjMap.find m k := by
  induction m with
  | nil => simp [AdjMap.eraseKey, AdjMap.find]
  | cons p rest ih =>
    obtain ⟨a, s⟩ := p
    rw [AdjMap.eraseKey_cons]
    by_cases ha : a = id
    · rw [if_pos ha]
      subst ha
      by_cases hk : k = a
      · subst hk; simpa using ih
      · have hk2 : ¬ a = k := fun e => hk e.symm
        simp [AdjMap.find, hk, hk2, ih]
    · rw [if_neg ha]
      by_cases hk : k = id
      · subst hk; simpa [AdjMap.find, ha] using ih
      · by_cases hak : a = k
        · subst hak; simp [AdjMap.find, hk]
        · simp [AdjMap.find, hk, hak, ih]

theorem AdjMap.find_insertAt (m : AdjMap) (id x k : Nat) :
    AdjMap.find (AdjMap.insertAt m id x) k =
      if k = id then some (IdSet.insert ((AdjMap.find m id).getD []) x)
      else AdjMap.find m k := by
  unfold AdjMap.insertAt
  rw [AdjMap.find_modify]
  by_cases h : k = id
  · simp [h, AdjMap.find_touch]
  · simp [h, AdjMap.find_touch]

theorem AdjMap.find_eraseAt (m : AdjMap) (id x k : Nat) :
    AdjMap.find (AdjMap.eraseAt m id x) k =
      if k = id then some (IdSet.erase ((AdjMap.find m id).getD []) x)
      else AdjMap.find m k := by
  unfold AdjMap.eraseAt
  rw [AdjMap.find_modify]
  by_cases h : k = id
  · simp [h, AdjMap.find_touch]
  · simp [h, AdjMap.find_touch]


/-! ## The relational view of each container operation -/

theorem AdjMap.has_iff (m : AdjMap) (k : Nat) :
    AdjMap.has m k ↔ ∃ s, AdjMap.find m k = some s := by
  simp [AdjMap.has, Option.isSome_iff_exists]

theorem AdjMap.has_of_rel {m : AdjMap} {a b : Nat} (h : AdjMap.rel m a b) :
    AdjMap.has m a := by
  obtain ⟨s, hs, _⟩ := h
  exact (AdjMap.has_iff m a).2 ⟨s, hs⟩

theorem AdjMap.has_touch (m : AdjMap) (id k : Nat) :
    AdjMap.has (AdjMap.touch m id) k ↔ AdjMap.has m k ∨ k = id := by
  simp only [AdjMap.has, AdjMap.find_touch]
  by_cases h : k = id <;> simp [h]

theorem AdjMap.rel_touch (m : AdjMap) (id a b : Nat) :
    AdjMap.rel (AdjMap.touch m id) a b ↔ AdjMap.rel m a b := by
  simp only [AdjMap.rel, AdjMap.find_touch]
  by_cases h : a = id
  · subst h
    cases hf : AdjMap.find m a <;> simp
  · simp [h]

theorem AdjMap.has_insertAt (m : AdjMap) (id x k : Nat) :
    AdjMap.has (AdjMap.insertAt m id x) k ↔ AdjMap.has m k ∨ k = id := by
  simp only [AdjMap.has, AdjMap.find_insertAt]
  by_cases h : k = id <;> simp [h]

theorem AdjMap.rel_insertAt (m : AdjMap) (id x a b : Nat) :
    AdjMap.rel (AdjMap.insertAt m id x) a b ↔ AdjMap.rel m a b ∨ (a = id ∧ b = x) := by
  simp only [AdjMap.rel, AdjMap.find_insertAt]
  by_cases h : a = id
  · subst h
    cases hf : AdjMap.find m a <;> simp [IdSet.mem_insert]
  · simp [h]

theorem AdjMap.has_eraseAt (m : AdjMap) (id x k : Nat) :
    AdjMap.has (AdjMap.eraseAt m id x) k ↔ AdjMap.has m k ∨ k = id := by
  simp only [AdjMap.has, AdjMap.find_eraseAt]
  by_cases h : k = id <;> simp [h]

theorem AdjMap.rel_eraseAt (m : AdjMap) (id x a b : Nat) :
    AdjMap.rel (AdjMap.eraseAt m id x) a b ↔ AdjMap.rel m a b ∧ ¬ (a = id ∧ b = x) := by
  simp only [AdjMap.rel, AdjMap.find_eraseAt]
  by_cases h : a = id
  · subst h
    cases hf : AdjMap.find m a <;> simp [IdSet.mem_erase]
  · simp [h]

theorem AdjMap.has_eraseKey (m : AdjMap) (id k : Nat) :
    AdjMap.has (AdjMap.eraseKey m id) k ↔ AdjMap.has m k ∧ k ≠ id := by
  simp only [AdjMap.has, AdjMap.find_eraseKey]
  by_cases h : k = id <;> simp [h]

theorem AdjMap.rel_eraseKey (m : AdjMap) (id a b : Nat) :
    AdjMap.rel (AdjMap.eraseKey m id) a b ↔ AdjMap.rel m a b ∧ a ≠ id := by
  simp only [AdjMap.rel, AdjMap.find_eraseKey]
  by_cases h : a = id <;> simp [h]

theorem AdjMap.has_eraseBackRefs (id : Nat) (ns : List Nat) (m : AdjMap) (k : Nat) :
    AdjMap.has (AdjMap.eraseBackRefs id ns m) k ↔
      AdjMap.has m k ∨ (k ∈ ns ∧ k ≠ id) := by
  induction ns generalizing m with
  | nil => simp [AdjMap.eraseBackRefs]
  | cons n ns ih =>
    unfold AdjMap.eraseBackRefs
    by_cases h : id = n
    · subst h
      simp only [ne_eq, not_true_eq_false, if_false, ih, List.mem_cons]
      tauto
    · simp only [ne_eq, h, not_false_eq_true, if_true, ih, AdjMap.has_eraseAt, List.mem_cons]
      constructor
      · rintro ((h1 | h1) | h1)
        · exact Or.inl h1
        · subst h1; exact Or.inr ⟨Or.inl rfl, fun e => h e.symm⟩
        · exact Or.inr ⟨Or.inr h1.1, h1.2⟩
      · rintro (h1 | ⟨h1 | h1, h2⟩)
        · exact Or.inl (Or.inl h1)
        · exact Or.inl (Or.inr h1)
        · exact Or.inr ⟨h1, h2⟩

theorem AdjMap.rel_eraseBackRefs (id : Nat) (ns : List Nat) (m : AdjMap) (a b : Nat) :
    AdjMap.rel (AdjMap.eraseBackRefs id ns m) a b ↔
      AdjMap.rel m a b ∧ ¬ (a ∈ ns ∧ a ≠ id ∧ b = id) := by
  induction ns generalizing m with
  | nil => simp [AdjMap.eraseBackRefs]
  | cons n ns ih =>
    unfold AdjMap.eraseBackRefs
    by_cases h : id = n
    · subst h
      simp only [ne_eq, not_true_eq_false, if_false, ih, List.mem_cons]
      tauto
    · simp only [ne_eq, h, not_false_eq_true, if_true, ih, AdjMap.rel_eraseAt, List.mem_cons]
      constructor
      · rintro ⟨⟨h1, h2⟩, h3⟩
        refine ⟨h1, ?_⟩
        rintro ⟨h4 | h4, h5, h6⟩
        · exact h2 ⟨h4, h6⟩
        · exact h3 ⟨h4, h5, h6⟩
      · rintro ⟨h1, h2⟩
        refine ⟨⟨h1, ?_⟩, ?_⟩
        · rintro ⟨h3, h4⟩
          subst h3
          exact h2 ⟨Or.inl rfl, fun e => h e.symm, h4⟩
        · rintro ⟨h3, h4, h5⟩
          exact h2 ⟨Or.inr h3, h4, h5⟩

/-! ## The queries and operations of `Graph` in relational form -/

theorem Graph.hasVertex_iff_has (g : Graph) (k : Nat) :
    g.HasVertex k = true ↔ AdjMap.has g.edges k := Iff.rfl

theorem Graph.hasEdge_iff_rel (g : Graph) (a b : Nat) :
    g.HasEdge a b = true ↔ AdjMap.rel g.edges a b := by
  unfold Graph.HasEdge AdjMap.rel
  cases hf : AdjMap.find g.edges a <;> simp

theorem Graph.rel_AddVertex (g : Graph) (x a b : Nat) :
    AdjMap.rel (g.AddVertex x).edges a b ↔ AdjMap.rel g.edges a b := by
  simp [Graph.AddVertex, AdjMap.rel_touch]

theorem Graph.has_AddVertex (g : Graph) (x k : Nat) :
    AdjMap.has (g.AddVertex x).edges k ↔ AdjMap.has g.edges k ∨ k = x := by
  simp [Graph.AddVertex, AdjMap.has_touch]

theorem Graph.rel_AddEdge (g : Graph) (x y a b : Nat) :
    AdjMap.rel (g.AddEdge x y).edges a b ↔
      AdjMap.rel g.edges a b ∨ (a = x ∧ b = y) ∨ (a = y ∧ b = x) := by
  simp [Graph.AddEdge, AdjMap.rel_insertAt, or_assoc]

theorem Graph.has_AddEdge (g : Graph) (x y k : Nat) :
    AdjMap.has (g.AddEdge x y).edges k ↔ AdjMap.has g.edges k ∨ k = x ∨ k = y := by
  simp [Graph.AddEdge, AdjMap.has_insertAt, or_assoc]

theorem Graph.rel_RemoveEdge (g : Graph) (x y a b : Nat) :
    AdjMap.rel (g.RemoveEdge x y).edges a b ↔
      AdjMap.rel g.edges a b ∧ ¬ (a = x ∧ b = y) ∧ ¬ (a = y ∧ b = x) := by
  have key : ∀ (m : AdjMap) (u v : Nat),
      AdjMap.rel (if (AdjMap.find m u).isSome then AdjMap.eraseAt m u v else m) a b ↔
        AdjMap.rel m a b ∧ ¬ (a = u ∧ b = v) := by
    intro m u v
    by_cases hu : (AdjMap.find m u).isSome = true
    · rw [if_pos hu, AdjMap.rel_eraseAt]
    · rw [if_neg hu]
      constructor
      · intro h
        refine ⟨h, ?_⟩
        rintro ⟨h1, -⟩
        subst h1
        exact hu (AdjMap.has_of_rel h)
      · exact fun h => h.1
  simp only [Graph.RemoveEdge, key, and_assoc]

theorem Graph.has_RemoveEdge (g : Graph) (x y k : Nat) :
    AdjMap.has (g.RemoveEdge x y).edges k ↔ AdjMap.has g.edges k := by
  have key : ∀ (m : AdjMap) (u v : Nat),
      AdjMap.has (if (AdjMap.find m u).isSome then AdjMap.eraseAt m u v else m) k ↔
        AdjMap.has m k := by
    intro m u v
    by_cases hu : (AdjMap.find m u).isSome = true
    · rw [if_pos hu, AdjMap.has_eraseAt]
      constructor
      · rintro (h | h)
        · exact h
        · subst h; exact hu
      · exact Or.inl
    · rw [if_neg hu]
  simp only [Graph.RemoveEdge, key]

theorem Graph.rel_RemoveVertex (g : Graph) (x a b : Nat) :
    AdjMap.rel (g.RemoveVertex x).edges a b ↔
      AdjMap.rel g.edges a b ∧ a ≠ x ∧ ¬ (AdjMap.rel g.edges x a ∧ b = x) := by
  unfold Graph.RemoveVertex
  cases hf : AdjMap.find g.edges x with
  | none =>
    have hx : ∀ c, ¬ AdjMap.rel g.edges x c := by
      rintro c ⟨s, hs, -⟩
      rw [hf] at hs
      cases hs
    constructor
    · intro h
      refine ⟨h, ?_, fun h2 => hx _ h2.1⟩
      rintro rfl
      exact hx _ h
    · exact fun h => h.1
  | some s =>
    have hs : ∀ c, AdjMap.rel g.edges x c ↔ c ∈ s := by
      intro c
      simp [AdjMap.rel, hf]
    simp only [AdjMap.rel_eraseKey, AdjMap.rel_eraseBackRefs, hs]
    tauto

theorem Graph.has_RemoveVertex (g : Graph) (x k : Nat) :
    AdjMap.has (g.RemoveVertex x).edges k ↔
      (AdjMap.has g.edges k ∨ AdjMap.rel g.edges x k) ∧
        (AdjMap.has g.edges x → k ≠ x) := by
  unfold Graph.RemoveVertex
  cases hf : AdjMap.find g.edges x with
  | none =>
    have hx : ∀ c, ¬ AdjMap.rel g.edges x c := by
      rintro c ⟨s, hs, -⟩
      rw [hf] at hs
      cases hs
    have hnx : ¬ AdjMap.has g.edges x := by simp [AdjMap.has, hf]
    simp [hx, hnx]
  | some s =>
    have hs : ∀ c, AdjMap.rel g.edges x c ↔ c ∈ s := by
      intro c
      simp [AdjMap.rel, hf]
    have hxx : AdjMap.has g.edges x := by simp [AdjMap.has, hf]
    simp only [AdjMap.has_eraseKey, AdjMap.has_eraseBackRefs, hs, hxx, true_implies]
    tauto

/-! ## Invariants of `Graph` -/

theorem Graph.inv_empty : Graph.Inv Graph.empty := by
  constructor <;> rintro a b ⟨s, hs, -⟩ <;> simp [Graph.empty, AdjMap.find] at hs

theorem Graph.inv_step (g : Graph) (op : Op) (h : Graph.Inv g) : Graph.Inv (g.step op) := by
  obtain ⟨hsym, hcl⟩ := h
  cases op with
  | AddVertex x =>
    constructor
    · intro a b
      simp only [Graph.step, Graph.rel_AddVertex]
      exact hsym a b
    · intro a b
      simp only [Graph.step, Graph.rel_AddVertex, Graph.has_AddVertex]
      exact fun h => Or.inl (hcl a b h)
  | AddEdge x y =>
    constructor
    · intro a b
      simp only [Graph.step, Graph.rel_AddEdge]
      rintro (h | h | h)
      · exact Or.inl (hsym a b h)
      · exact Or.inr (Or.inr ⟨h.2, h.1⟩)
      · exact Or.inr (Or.inl ⟨h.2, h.1⟩)
    · intro a b
      simp only [Graph.step, Graph.rel_AddEdge, Graph.has_AddEdge]
      rintro (h | h | h)
      · exact Or.inl (hcl a b h)
      · exact Or.inr (Or.inr h.2)
      · exact Or.inr (Or.inl h.2)
  | RemoveVertex x =>
    have hne : ∀ a b, AdjMap.rel g.edges a b → ¬ (AdjMap.rel g.edges x a ∧ b = x) → b ≠ x := by
      intro a b hab hn hb
      subst hb
      exact hn ⟨hsym a b hab, rfl⟩
    constructor
    · intro a b
      simp only [Graph.step, Graph.rel_RemoveVertex]
      rintro ⟨h1, h2, h3⟩
      exact ⟨hsym a b h1, hne a b h1 h3, fun h4 => h2 h4.2⟩
    · intro a b
      simp only [Graph.step, Graph.rel_RemoveVertex, Graph.has_RemoveVertex]
      rintro ⟨h1, h2, h3⟩
      exact ⟨Or.inl (hcl a b h1), fun _ => hne a b h1 h3⟩
  | RemoveEdge x y =>
    constructor
    · intro a b
      simp only [Graph.step, Graph.rel_RemoveEdge]
      rintro ⟨h1, h2, h3⟩
      exact ⟨hsym a b h1, fun h4 => h3 ⟨h4.2, h4.1⟩, fun h4 => h2 ⟨h4.2, h4.1⟩⟩
    · intro a b
      simp only [Graph.step, Graph.rel_RemoveEdge, Graph.has_RemoveEdge]
      exact fun h => hcl a b h.1

theorem Graph.inv_foldl (ops : List Op) (g : Graph) (h : Graph.Inv g) :
    Graph.Inv (ops.foldl Graph.step g) := by
  induction ops generalizing g with
  | nil => exact h
  | cons op ops ih => exact ih _ (Graph.inv_step g op h)

theorem Graph.inv_run (ops : List Op) : Graph.Inv (Graph.run ops) :=
  Graph.inv_foldl ops _ Graph.inv_empty

/-! ## `Graph` against the set model -/

theorem Graph.refines_empty : Graph.Refines Graph.empty ⟨∅, ∅⟩ := by
  constructor
  · intro x
    simp [Graph.HasVertex, Graph.empty, AdjMap.find]
  · intro a b
    simp [Graph.HasEdge, Graph.empty, AdjMap.find]

theorem Graph.refines_step (g : Graph) (s : SetModel) (op : Op) (hi : Graph.Inv g)
    (h : Graph.Refines g s) : Graph.Refines (g.step op) (s.step op) := by
  obtain ⟨hsym, hcl⟩ := hi
  obtain ⟨hv, he⟩ := h
  simp only [Graph.hasVertex_iff_has] at hv
  simp only [Graph.hasEdge_iff_rel] at he
  cases op with
  | AddVertex x =>
    constructor
    · intro k
      simp only [Graph.hasVertex_iff_has, Graph.step, Graph.has_AddVertex, SetModel.step,
        Finset.mem_insert, hv]
      tauto
    · intro a b
      simp only [Graph.hasEdge_iff_rel, Graph.step, Graph.rel_AddVertex, SetModel.step, he]
  | AddEdge x y =>
    constructor
    · intro k
      simp only [Graph.hasVertex_iff_has, Graph.step, Graph.has_AddEdge, SetModel.step,
        Finset.mem_insert, hv]
      tauto
    · intro a b
      simp only [Graph.hasEdge_iff_rel, Graph.step, Graph.rel_AddEdge, SetModel.step,
        Finset.mem_insert, Prod.mk.injEq, he]
      tauto
  | RemoveVertex x =>
    constructor
    · intro k
      simp only [Graph.hasVertex_iff_has, Graph.step, Graph.has_RemoveVertex, SetModel.step,
        Finset.mem_erase, ← hv]
      constructor
      · rintro ⟨h1 | h1, h2⟩
        · refine ⟨?_, h1⟩
          intro hk
          subst hk
          exact h2 h1 rfl
        · exact ⟨h2 (AdjMap.has_of_rel h1), hcl _ _ h1⟩
      · rintro ⟨h1, h2⟩
        exact ⟨Or.inl h2, fun _ => h1⟩
    · intro a b
      simp only [Graph.hasEdge_iff_rel, Graph.step, Graph.rel_RemoveVertex, SetModel.step,
        Finset.mem_filter, ← he]
      constructor
      · rintro ⟨h1, h2, h3⟩
        refine ⟨h1, h2, ?_⟩
        intro hb
        subst hb
        exact h3 ⟨hsym _ _ h1, rfl⟩
      · rintro ⟨h1, h2, h3⟩
        exact ⟨h1, h2, fun h4 => h3 h4.2⟩
  | RemoveEdge x y =>
    constructor
    · intro k
      simp only [Graph.hasVertex_iff_has, Graph.step, Graph.has_RemoveEdge, SetModel.step, hv]
    · intro a b
      simp only [Graph.hasEdge_iff_rel, Graph.step, Graph.rel_RemoveEdge, SetModel.step,
        Finset.mem_erase, Prod.mk.injEq, ne_eq, ← he]
      tauto

theorem Graph.refines_foldl (ops : List Op) (g : Graph) (s : SetModel) (hi : Graph.Inv g)
    (h : Graph.Refines g s) :
    Graph.Refines (ops.foldl Graph.step g) (ops.foldl SetModel.step s) := by
  induction ops generalizing g s with
  | nil => exact h
  | cons op ops ih =>
    exact ih _ _ (Graph.inv_step g op hi) (Graph.refines_step g s op hi h)

/-! ## The queries and operations of `OrientedGraph` in relational form -/

theorem OrientedGraph.oriented_hasVertex_iff (g : OrientedGraph) (k : Nat) :
    g.HasVertex k = true ↔ AdjMap.has g.edges k := Iff.rfl

theorem OrientedGraph.oriented_hasEdge_iff (g : OrientedGraph) (a b : Nat) :
    g.HasEdge a b = true ↔ AdjMap.rel g.edges a b := by
  unfold OrientedGraph.HasEdge AdjMap.rel
  cases hf : AdjMap.find g.edges a <;> simp

theorem AdjMap.rel_iff_mem_getD (m : AdjMap) (a b : Nat) :
    AdjMap.rel m a b ↔ b ∈ (AdjMap.find m a).getD [] := by
  unfold AdjMap.rel
  cases hf : AdjMap.find m a <;> simp

theorem AdjMap.rel_guarded_eraseAt (m : AdjMap) (u v a b : Nat) :
    AdjMap.rel (if (AdjMap.find m u).isSome then AdjMap.eraseAt m u v else m) a b ↔
      AdjMap.rel m a b ∧ ¬ (a = u ∧ b = v) := by
  by_cases hu : (AdjMap.find m u).isSome = true
  · rw [if_pos hu, AdjMap.rel_eraseAt]
  · rw [if_neg hu]
    constructor
    · intro h
      refine ⟨h, ?_⟩
      rintro ⟨h1, -⟩
      subst h1
      exact hu (AdjMap.has_of_rel h)
    · exact fun h => h.1

theorem AdjMap.has_guarded_eraseAt (m : AdjMap) (u v k : Nat) :
    AdjMap.has (if (AdjMap.find m u).isSome then AdjMap.eraseAt m u v else m) k ↔
      AdjMap.has m k := by
  by_cases hu : (AdjMap.find m u).isSome = true
  · rw [if_pos hu, AdjMap.has_eraseAt]
    constructor
    · rintro (h | h)
      · exact h
      · subst h; exact hu
    · exact Or.inl
  · rw [if_neg hu]

theorem OrientedGraph.out_removeOutgoing (g : OrientedGraph) (x a b : Nat) :
    AdjMap.rel (g.removeOutgoing x).edges a b ↔ AdjMap.rel g.edges a b ∧ a ≠ x := by
  unfold OrientedGraph.removeOutgoing
  cases hf : AdjMap.find g.edges x with
  | none =>
    constructor
    · intro h
      refine ⟨h, ?_⟩
      rintro rfl
      obtain ⟨s, hs, -⟩ := h
      rw [hf] at hs
      cases hs
    · exact fun h => h.1
  | some s => simp only [AdjMap.rel_eraseKey]

theorem OrientedGraph.in_removeOutgoing (g : OrientedGraph) (x a b : Nat) :
    AdjMap.rel (g.removeOutgoing x).incomingEdges a b ↔
      AdjMap.rel g.incomingEdges a b ∧ ¬ (AdjMap.rel g.edges x a ∧ a ≠ x ∧ b = x) := by
  unfold OrientedGraph.removeOutgoing
  cases hf : AdjMap.find g.edges x with
  | none =>
    have hx : ∀ c, ¬ AdjMap.rel g.edges x c := by
      rintro c ⟨s, hs, -⟩
      rw [hf] at hs
      cases hs
    simp [hx]
  | some s =>
    have hs : ∀ c, AdjMap.rel g.edges x c ↔ c ∈ s := by
      intro c
      simp [AdjMap.rel, hf]
    simp only [AdjMap.rel_eraseBackRefs, hs]

theorem OrientedGraph.in_removeIncoming (g : OrientedGraph) (x a b : Nat) :
    AdjMap.rel (g.removeIncoming x).incomingEdges a b ↔
      AdjMap.rel g.incomingEdges a b ∧ a ≠ x := by
  unfold OrientedGraph.removeIncoming
  cases hf : AdjMap.find g.incomingEdges x with
  | none =>
    constructor
    · intro h
      refine ⟨h, ?_⟩
      rintro rfl
      obtain ⟨s, hs, -⟩ := h
      rw [hf] at hs
      cases hs
    · exact fun h => h.1
  | some s => simp only [AdjMap.rel_eraseKey]

theorem OrientedGraph.out_removeIncoming (g : OrientedGraph) (x a b : Nat) :
    AdjMap.rel (g.removeIncoming x).edges a b ↔
      AdjMap.rel g.edges a b ∧ ¬ (AdjMap.rel g.incomingEdges x a ∧ a ≠ x ∧ b = x) := by
  unfold OrientedGraph.removeIncoming
  cases hf : AdjMap.find g.incomingEdges x with
  | none =>
    have hx : ∀ c, ¬ AdjMap.rel g.incomingEdges x c := by
      rintro c ⟨s, hs, -⟩
      rw [hf] at hs
      cases hs
    simp [hx]
  | some s =>
    have hs : ∀ c, AdjMap.rel g.incomingEdges x c ↔ c ∈ s := by
      intro c
      simp [AdjMap.rel, hf]
    simp only [AdjMap.rel_eraseBackRefs, hs]

/-! ## The mirror invariant of `OrientedGraph` -/

theorem OrientedGraph.mirror_empty : OrientedGraph.Mirror OrientedGraph.empty := by
  intro a b
  simp [OrientedGraph.empty, AdjMap.rel, AdjMap.find]

theorem OrientedGraph.mirror_step (g : OrientedGraph) (op : Op)
    (h : OrientedGraph.Mirror g) : OrientedGraph.Mirror (g.step op) := by
  cases op with
  | AddVertex x =>
    intro a b
    simp only [OrientedGraph.step, OrientedGraph.AddVertex, AdjMap.rel_touch]
    exact h a b
  | AddEdge x y =>
    intro a b
    simp only [OrientedGraph.step, OrientedGraph.AddEdge, AdjMap.rel_insertAt, h a b]
    tauto
  | RemoveVertex x =>
    intro a b
    simp only [OrientedGraph.step, OrientedGraph.RemoveVertex,
      OrientedGraph.out_removeIncoming, OrientedGraph.in_removeIncoming,
      OrientedGraph.out_removeOutgoing, OrientedGraph.in_removeOutgoing]
    constructor
    · rintro ⟨⟨h1, h2⟩, h3⟩
      refine ⟨⟨(h a b).1 h1, fun h4 => h2 h4.2.2⟩, ?_⟩
      intro hb
      subst hb
      exact h3 ⟨⟨(h a b).1 h1, fun h5 => h5.2.1 rfl⟩, h2, rfl⟩
    · rintro ⟨⟨h1, h2⟩, h3⟩
      refine ⟨⟨(h a b).2 h1, ?_⟩, fun h4 => h3 h4.2.2⟩
      intro ha
      subst ha
      exact h2 ⟨(h a b).2 h1, h3, rfl⟩
  | RemoveEdge x y =>
    intro a b
    simp only [OrientedGraph.step, OrientedGraph.RemoveEdge, AdjMap.rel_guarded_eraseAt,
      h a b]
    tauto

theorem OrientedGraph.mirror_foldl (ops : List Op) (g : OrientedGraph)
    (h : OrientedGraph.Mirror g) : OrientedGraph.Mirror (ops.foldl OrientedGraph.step g) := by
  induction ops generalizing g with
  | nil => exact h
  | cons op ops ih => exact ih _ (OrientedGraph.mirror_step g op h)

theorem OrientedGraph.mirror_run (ops : List Op) :
    OrientedGraph.Mirror (OrientedGraph.run ops) :=
  OrientedGraph.mirror_foldl ops _ OrientedGraph.mirror_empty

/-! ## Container invariants: statements of the claims -/

/-- C8: in every state of the undirected `Graph` reachable from the empty graph
by `AddVertex`, `AddEdge`, `RemoveVertex` and `RemoveEdge`, the adjacency relation
is symmetric: `HasEdge(a,b) = HasEdge(b,a)` for all ids. -/
theorem Graph.hasEdge_symmetric_of_run (ops : List Op) (a b : Nat) :
    (Graph.run ops).HasEdge a b = (Graph.run ops).HasEdge b a := by
  have hi := Graph.inv_run ops
  rw [Bool.eq_iff_iff, Graph.hasEdge_iff_rel, Graph.hasEdge_iff_rel]
  exact ⟨hi.symm a b, hi.symm b a⟩

/-- C9: in every state of `OrientedGraph` reachable from the empty graph by
`AddVertex`, `AddEdge`, `RemoveVertex` and `RemoveEdge`, `dst` is in the outgoing
set stored for `src` if and only if `src` is in the incoming set stored for `dst`,
an id without entry counting as having the empty set. -/
theorem OrientedGraph.outgoing_mirrors_incoming_of_run (ops : List Op) (src dst : Nat) :
    dst ∈ ((OrientedGraph.run ops).edges.find src).getD [] ↔
      src ∈ ((OrientedGraph.run ops).incomingEdges.find dst).getD [] := by
  rw [← AdjMap.rel_iff_mem_getD, ← AdjMap.rel_iff_mem_getD]
  exact OrientedGraph.mirror_run ops src dst

/-- C10: the undirected `Graph` refines the set model of the random test.  After
every step of every sequence of calls (that is, after the first `n` calls, for each `n`),
`HasVertex(x)` holds iff `x` is in `V` and `HasEdge(a,b)` holds iff `(a,b)` is in `E`,
for all ids. -/
theorem Graph.run_refines_setModel (ops : List Op) (n : Nat) (x a b : Nat) :
    ((Graph.run (ops.take n)).HasVertex x = true ↔ x ∈ (SetModel.run (ops.take n)).V) ∧
      ((Graph.run (ops.take n)).HasEdge a b = true ↔
        (a, b) ∈ (SetModel.run (ops.take n)).E) := by
  have h := Graph.refines_foldl (ops.take n) Graph.empty ⟨∅, ∅⟩ Graph.inv_empty
    Graph.refines_empty
  exact ⟨h.vertices x, h.adjacency a b⟩

/-! ## Vertices and edges of an `OrientedGraph` -/

theorem AdjMap.find_isSome_iff_mem_keys (m : AdjMap) (k : Nat) :
    (AdjMap.find m k).isSome = true ↔ k ∈ AdjMap.keys m := by
  induction m with
  | nil => simp [AdjMap.find, AdjMap.keys]
  | cons p rest ih =>
    obtain ⟨a, s⟩ := p
    simp only [AdjMap.keys, List.map_cons, List.mem_cons] at ih ⊢
    by_cases h : a = k
    · simp [AdjMap.find, h]
    · have h2 : ¬ k = a := fun e => h e.symm
      simp [AdjMap.find, h, h2, ih]

theorem OrientedGraph.hasVertex_iff_mem_Vertices (g : OrientedGraph) (k : Nat) :
    g.HasVertex k = true ↔ k ∈ g.Vertices :=
  AdjMap.find_isSome_iff_mem_keys g.edges k

theorem OrientedGraph.edge_iff_of_Edges {g : OrientedGraph} {v : Nat} {ds : IdSet}
    (h : g.Edges v = some ds) (d : Nat) : g.HasEdge v d = true ↔ d ∈ ds := by
  unfold OrientedGraph.Edges at h
  simp [OrientedGraph.HasEdge, h]

theorem OrientedGraph.hasVertex_of_Edges {g : OrientedGraph} {v : Nat} {ds : IdSet}
    (h : g.Edges v = some ds) : g.HasVertex v = true := by
  unfold OrientedGraph.Edges at h
  simp [OrientedGraph.HasVertex, h]

theorem OrientedGraph.Edges_of_hasVertex {g : OrientedGraph} {v : Nat}
    (h : g.HasVertex v = true) : ∃ ds, g.Edges v = some ds := by
  unfold OrientedGraph.HasVertex at h
  exact Option.isSome_iff_exists.1 h

/-! ## The keys of a reachable graph are pairwise distinct -/

theorem AdjMap.keys_touch_nodup (m : AdjMap) (id : Nat) (h : (AdjMap.keys m).Nodup) :
    (AdjMap.keys (AdjMap.touch m id)).Nodup := by
  unfold AdjMap.touch
  cases hf : AdjMap.find m id with
  | some s => exact h
  | none =>
    have hnot : id ∉ AdjMap.keys m := by
      intro hmem
      have := (AdjMap.find_isSome_iff_mem_keys m id).2 hmem
      rw [hf] at this
      cases this
    simp only [AdjMap.keys, List.map_append, List.map_cons, List.map_nil]
    rw [List.nodup_append]
    refine ⟨h, List.nodup_singleton id, ?_⟩
    intro a ha hb
    rw [List.mem_singleton] at hb
    subst hb
    exact hnot ha

theorem AdjMap.keys_modify (m : AdjMap) (id : Nat) (f : IdSet → IdSet) :
    AdjMap.keys (AdjMap.modify m id f) = AdjMap.keys m := by
  induction m with
  | nil => rfl
  | cons p rest ih =>
    obtain ⟨a, s⟩ := p
    rw [AdjMap.modify_cons]
    simp only [AdjMap.keys, List.map_cons] at ih ⊢
    rw [ih]
    by_cases ha : a = id
    · rw [if_pos ha]
    · rw [if_neg ha]

theorem AdjMap.keys_eraseKey_nodup (m : AdjMap) (id : Nat) (h : (AdjMap.keys m).Nodup) :
    (AdjMap.keys (AdjMap.eraseKey m id)).Nodup := by
  have hsub : List.Sublist (AdjMap.keys (AdjMap.eraseKey m id)) (AdjMap.keys m) := by
    unfold AdjMap.keys AdjMap.eraseKey
    exact (List.filter_sublist m).map _
  exact hsub.nodup h

theorem AdjMap.keys_eraseAt_nodup (m : AdjMap) (id x : Nat) (h : (AdjMap.keys m).Nodup) :
    (AdjMap.keys (AdjMap.eraseAt m id x)).Nodup := by
  unfold AdjMap.eraseAt
  rw [AdjMap.keys_modify]
  exact AdjMap.keys_touch_nodup m id h

theorem AdjMap.keys_insertAt_nodup (m : AdjMap) (id x : Nat) (h : (AdjMap.keys m).Nodup) :
    (AdjMap.keys (AdjMap.insertAt m id x)).Nodup := by
  unfold AdjMap.insertAt
  rw [AdjMap.keys_modify]
  exact AdjMap.keys_touch_nodup m id h

theorem AdjMap.keys_eraseBackRefs_nodup (id : Nat) (ns : List Nat) (m : AdjMap)
    (h : (AdjMap.keys m).Nodup) : (AdjMap.keys (AdjMap.eraseBackRefs id ns m)).Nodup := by
  induction ns generalizing m with
  | nil => exact h
  | cons n rest ih =>
    unfold AdjMap.eraseBackRefs
    by_cases hn : id = n
    · rw [if_neg (not_not.2 hn)]
      exact ih m h
    · rw [if_pos hn]
      exact ih _ (AdjMap.keys_eraseAt_nodup m n id h)

theorem OrientedGraph.distinctKeys_step (g : OrientedGraph) (op : Op)
    (h : g.DistinctKeys) : (g.step op).DistinctKeys := by
  unfold OrientedGraph.DistinctKeys OrientedGraph.Vertices at h ⊢
  cases op with
  | AddVertex x => exact AdjMap.keys_touch_nodup _ _ h
  | AddEdge x y => exact AdjMap.keys_insertAt_nodup _ _ _ h
  | RemoveVertex x =>
    have h1 : (AdjMap.keys (g.removeOutgoing x).edges).Nodup := by
      unfold OrientedGraph.removeOutgoing
      cases hf : AdjMap.find g.edges x with
      | none => exact h
      | some s => exact AdjMap.keys_eraseKey_nodup _ _ h
    show (AdjMap.keys ((g.removeOutgoing x).removeIncoming x).edges).Nodup
    unfold OrientedGraph.removeIncoming
    cases hf : AdjMap.find (g.removeOutgoing x).incomingEdges x with
    | none => exact h1
    | some s => exact AdjMap.keys_eraseBackRefs_nodup _ _ _ h1
  | RemoveEdge x y =>
    show (AdjMap.keys (if (AdjMap.find g.edges x).isSome then AdjMap.eraseAt g.edges x y
      else g.edges)).Nodup
    by_cases hx : (AdjMap.find g.edges x).isSome = true
    · rw [if_pos hx]
      exact AdjMap.keys_eraseAt_nodup _ _ _ h
    · rw [if_neg hx]
      exact h

theorem OrientedGraph.distinctKeys_foldl (ops : List Op) (g : OrientedGraph)
    (h : g.DistinctKeys) : (ops.foldl OrientedGraph.step g).DistinctKeys := by
  induction ops generalizing g with
  | nil => exact h
  | cons op ops ih => exact ih _ (OrientedGraph.distinctKeys_step g op h)

/-- Every graph obtained from the empty graph by calls of the public operations has
pairwise distinct keys. -/
theorem OrientedGraph.distinctKeys_run (ops : List Op) :
    (OrientedGraph.run ops).DistinctKeys :=
  OrientedGraph.distinctKeys_foldl ops _ List.nodup_nil

/-! ## The fuel measure -/

theorem VisitedMono.same (v : Nat → DFSVertexState) : VisitedMono v v :=
  fun _ h => h

theorem VisitedMono.andThen {v1 v2 v3 : Nat → DFSVertexState} (h12 : VisitedMono v1 v2)
    (h23 : VisitedMono v2 v3) : VisitedMono v1 v3 :=
  fun x h => h12 x (h23 x h)

theorem VisitedMono.set_right {v1 v2 : Nat → DFSVertexState} (h : VisitedMono v1 v2)
    (id : Nat) (s : DFSVertexState) (hs : s ≠ DFSVertexState.NotVisited) :
    VisitedMono v1 (setVisited v2 id s) := by
  intro x hx
  unfold setVisited at hx
  by_cases hxi : x = id
  · rw [if_pos hxi] at hx
    exact absurd hx hs
  · rw [if_neg hxi] at hx
    exact h x hx

theorem pending_mono (vs : List Nat) {v1 v2 : Nat → DFSVertexState}
    (h : VisitedMono v1 v2) : pending vs v2 ≤ pending vs v1 := by
  unfold pending
  apply List.countP_mono_left
  intro x _ hx
  simp only [decide_eq_true_eq] at hx ⊢
  exact h x hx

theorem pending_set_lt (vs : List Nat) (visited : Nat → DFSVertexState) (v : Nat)
    (hv : v ∈ vs) (hn : visited v = DFSVertexState.NotVisited) :
    pending vs (setVisited visited v DFSVertexState.Processing) < pending vs visited := by
  induction vs with
  | nil => cases hv
  | cons a rest ih =>
    have hmono : VisitedMono visited (setVisited visited v DFSVertexState.Processing) :=
      (VisitedMono.same visited).set_right v _ (by decide)
    have hrest := pending_mono rest hmono
    unfold pending at ih hrest ⊢
    by_cases ha : a = v
    · subst ha
      have h1 : setVisited visited a DFSVertexState.Processing a
          ≠ DFSVertexState.NotVisited := by
        simp [setVisited]
      simp only [List.countP_cons, hn, h1, decide_True, decide_False, if_true]
      simp only [Bool.false_eq_true, if_false]
      omega
    · have hv2 : v ∈ rest := by
        rcases List.mem_cons.1 hv with h | h
        · exact absurd h.symm ha
        · exact h
      have h1 : setVisited visited v DFSVertexState.Processing a = visited a := by
        simp [setVisited, ha]
      have := ih hv2
      simp only [List.countP_cons, h1]
      omega

/-! ## `dfs` returns on a graph whose edges end in vertices -/

theorem dfsLoop_returns (g : OrientedGraph) (fuel : Nat)
    (ih : ∀ v st, g.HasVertex v = true → st.visited v = DFSVertexState.NotVisited →
      pending g.Vertices st.visited ≤ fuel →
      ∃ st2, dfs fuel g v st = .ok st2 ∧ VisitedMono st.visited st2.visited)
    (ds : List Nat) (st : DfsVars) (hds : ∀ d ∈ ds, g.HasVertex d = true)
    (hfuel : pending g.Vertices st.visited ≤ fuel) :
    ∃ b st2, dfsLoop (dfs fuel g) ds st = .ok (b, st2) ∧
      VisitedMono st.visited st2.visited := by
  induction ds generalizing st with
  | nil => exact ⟨false, st, rfl, VisitedMono.same _⟩
  | cons d rest ihl =>
    have hrest : ∀ x ∈ rest, g.HasVertex x = true :=
      fun x hx => hds x (List.mem_cons_of_mem _ hx)
    have hafter : ∃ st1, (if st.visited d = DFSVertexState.NotVisited then dfs fuel g d st
        else .ok st) = .ok st1 ∧ VisitedMono st.visited st1.visited := by
      by_cases hd : st.visited d = DFSVertexState.NotVisited
      · rw [if_pos hd]
        exact ih d st (hds d (List.mem_cons_self _ _)) hd hfuel
      · rw [if_neg hd]
        exact ⟨st, rfl, VisitedMono.same _⟩
    obtain ⟨st1, h1, hm1⟩ := hafter
    simp only [dfsLoop, h1]
    by_cases hp : st1.visited d = DFSVertexState.Processing
    · rw [if_pos hp]
      exact ⟨true, _, rfl, hm1⟩
    · rw [if_neg hp]
      obtain ⟨b, st2, h2, hm2⟩ :=
        ihl st1 hrest (le_trans (pending_mono _ hm1) hfuel)
      exact ⟨b, st2, h2, hm1.andThen hm2⟩

theorem dfs_returns (g : OrientedGraph) (hc : g.EdgeClosed) (fuel : Nat) :
    ∀ v st, g.HasVertex v = true → st.visited v = DFSVertexState.NotVisited →
      pending g.Vertices st.visited ≤ fuel →
      ∃ st2, dfs fuel g v st = .ok st2 ∧ VisitedMono st.visited st2.visited := by
  induction fuel with
  | zero =>
    intro v st hv hn hfuel
    have := pending_set_lt g.Vertices st.visited v
      ((g.hasVertex_iff_mem_Vertices v).1 hv) hn
    omega
  | succ fuel ih =>
    intro v st hv hn hfuel
    obtain ⟨ds, hds⟩ := OrientedGraph.Edges_of_hasVertex hv
    have hlt := pending_set_lt g.Vertices st.visited v
      ((g.hasVertex_iff_mem_Vertices v).1 hv) hn
    have hm0 : VisitedMono st.visited (setVisited st.visited v DFSVertexState.Processing) :=
      (VisitedMono.same _).set_right v _ (by decide)
    obtain ⟨b, st1, h1, hm1⟩ := dfsLoop_returns g fuel ih ds
      { st with visited := setVisited st.visited v DFSVertexState.Processing }
      (fun d hd => (hc v d ((OrientedGraph.edge_iff_of_Edges hds d).2 hd)).2)
      (by simp only; omega)
    simp only [dfs, hds, h1]
    cases b with
    | true => exact ⟨st1, rfl, hm0.andThen hm1⟩
    | false =>
      exact ⟨_, rfl, (hm0.andThen hm1).set_right v _ (by decide)⟩

theorem sortLoop_returns (g : OrientedGraph) (hc : g.EdgeClosed) (fuel : Nat)
    (vs : List Nat) (st : DfsVars) (hvs : ∀ v ∈ vs, g.HasVertex v = true)
    (hfuel : pending g.Vertices st.visited ≤ fuel) :
    ∃ r, sortLoop fuel g vs st = .ok r := by
  induction vs generalizing st with
  | nil => exact ⟨some st, rfl⟩
  | cons v rest ihl =>
    have hrest : ∀ x ∈ rest, g.HasVertex x = true :=
      fun x hx => hvs x (List.mem_cons_of_mem _ hx)
    unfold sortLoop
    by_cases hcy : st.is_cyclic = true
    · rw [if_pos hcy]
      exact ⟨none, rfl⟩
    · rw [if_neg hcy]
      by_cases hn : st.visited v = DFSVertexState.NotVisited
      · rw [if_pos hn]
        obtain ⟨st1, h1, hm1⟩ :=
          dfs_returns g hc fuel v st (hvs v (List.mem_cons_self _ _)) hn hfuel
        simp only [h1]
        exact ihl st1 hrest (le_trans (pending_mono _ hm1) hfuel)
      · rw [if_neg hn]
        exact ihl st hrest hfuel

theorem pending_initial_le (g : OrientedGraph) :
    pending g.Vertices initialVars.visited ≤ g.NumVertices := by
  unfold pending OrientedGraph.Vertices OrientedGraph.NumVertices AdjMap.keys
  exact le_trans (List.countP_le_length _) (by simp)

theorem TopologicalSort_returns (g : OrientedGraph) (hc : g.EdgeClosed) (fuel : Nat)
    (hfuel : g.NumVertices ≤ fuel) : ∃ r, TopologicalSort fuel g = .ok r := by
  obtain ⟨r, hr⟩ := sortLoop_returns g hc fuel g.Vertices initialVars
    (fun v hv => (g.hasVertex_iff_mem_Vertices v).2 hv)
    (le_trans (pending_initial_le g) hfuel)
  unfold TopologicalSort
  rw [hr]
  cases r with
  | none => exact ⟨[], rfl⟩
  | some st => exact ⟨_, rfl⟩

/-! ## `dfs` on an acyclic graph builds a post-order -/

theorem setVisited_same (visited : Nat → DFSVertexState) (id : Nat) (s : DFSVertexState) :
    setVisited visited id s id = s := by
  simp [setVisited]

theorem setVisited_other (visited : Nat → DFSVertexState) (id : Nat) (s : DFSVertexState)
    (x : Nat) (h : x ≠ id) : setVisited visited id s x = visited x := by
  simp [setVisited, h]

theorem dfsLoop_postOrder (g : OrientedGraph) (hacyc : g.Acyclic) (fuel : Nat)
    (ih : ∀ v st st2, dfs fuel g v st = .ok st2 →
      st.visited v = DFSVertexState.NotVisited →
      (∀ p, st.visited p = DFSVertexState.Processing → Relation.ReflTransGen g.Edge p v) →
      PostOrder g st →
      PostOrder g st2 ∧ st2.visited v = DFSVertexState.Processed ∧
        (∀ x, st2.visited x = DFSVertexState.Processing ↔
          st.visited x = DFSVertexState.Processing) ∧
        (∀ x, st.visited x = DFSVertexState.Processed →
          st2.visited x = DFSVertexState.Processed))
    (v : Nat) (ds : List Nat) :
    ∀ st b st2, dfsLoop (dfs fuel g) ds st = .ok (b, st2) →
      (∀ d ∈ ds, g.Edge v d) →
      (∀ p, st.visited p = DFSVertexState.Processing → Relation.ReflTransGen g.Edge p v) →
      PostOrder g st →
      b = false ∧ PostOrder g st2 ∧
        (∀ d ∈ ds, st2.visited d = DFSVertexState.Processed) ∧
        (∀ x, st2.visited x = DFSVertexState.Processing ↔
          st.visited x = DFSVertexState.Processing) ∧
        (∀ x, st.visited x = DFSVertexState.Processed →
          st2.visited x = DFSVertexState.Processed) := by
  induction ds with
  | nil =>
    intro st b st2 h _ _ hpo
    simp only [dfsLoop, SortResult.ok.injEq, Prod.mk.injEq] at h
    obtain ⟨hb, hst⟩ := h
    subst hb hst
    exact ⟨rfl, hpo, fun d hd => absurd hd (List.not_mem_nil d), fun _ => Iff.rfl,
      fun _ hx => hx⟩
  | cons d rest ihl =>
    intro st b st2 h hedges hreach hpo
    have hrest : ∀ x ∈ rest, g.Edge v x := fun x hx => hedges x (List.mem_cons_of_mem _ hx)
    have hvd : g.Edge v d := hedges d (List.mem_cons_self _ _)
    unfold dfsLoop at h
    by_cases hd : st.visited d = DFSVertexState.NotVisited
    · rw [if_pos hd] at h
      cases hcall : dfs fuel g d st with
      | out_of_range => rw [hcall] at h; cases h
      | out_of_fuel => rw [hcall] at h; cases h
      | ok st1 =>
        rw [hcall] at h
        simp only at h
        obtain ⟨hpo1, hd1, hproc1, hmono1⟩ := ih d st st1 hcall hd
          (fun p hp => (hreach p hp).tail hvd) hpo
        have hnp : ¬ st1.visited d = DFSVertexState.Processing := by
          rw [hd1]; decide
        rw [if_neg hnp] at h
        obtain ⟨hb, hpo2, hall, hproc2, hmono2⟩ := ihl st1 b st2 h hrest
          (fun p hp => hreach p ((hproc1 p).1 hp)) hpo1
        refine ⟨hb, hpo2, ?_, fun x => (hproc2 x).trans (hproc1 x),
          fun x hx => hmono2 x (hmono1 x hx)⟩
        intro x hx
        rcases List.mem_cons.1 hx with hx | hx
        · subst hx; exact hmono2 x hd1
        · exact hall x hx
    · rw [if_neg hd] at h
      simp only at h
      by_cases hp : st.visited d = DFSVertexState.Processing
      · exact absurd (Relation.TransGen.tail' (hreach d hp) hvd) (hacyc d)
      · rw [if_neg hp] at h
        have hdone : st.visited d = DFSVertexState.Processed := by
          cases hs : st.visited d with
          | NotVisited => exact absurd hs hd
          | Processing => exact absurd hs hp
          | Processed => rfl
        obtain ⟨hb, hpo2, hall, hproc2, hmono2⟩ := ihl st b st2 h hrest hreach hpo
        refine ⟨hb, hpo2, ?_, hproc2, hmono2⟩
        intro x hx
        rcases List.mem_cons.1 hx with hx | hx
        · subst hx; exact hmono2 x hdone
        · exact hall x hx

theorem dfs_postOrder (g : OrientedGraph) (hacyc : g.Acyclic) (fuel : Nat) :
    ∀ v st st2, dfs fuel g v st = .ok st2 →
      st.visited v = DFSVertexState.NotVisited →
      (∀ p, st.visited p = DFSVertexState.Processing → Relation.ReflTransGen g.Edge p v) →
      PostOrder g st →
      PostOrder g st2 ∧ st2.visited v = DFSVertexState.Processed ∧
        (∀ x, st2.visited x = DFSVertexState.Processing ↔
          st.visited x = DFSVertexState.Processing) ∧
        (∀ x, st.visited x = DFSVertexState.Processed →
          st2.visited x = DFSVertexState.Processed) := by
  induction fuel with
  | zero =>
    intro v st st2 h
    simp [dfs] at h
  | succ fuel ih =>
    intro v st st2 h hn hreach hpo
    unfold dfs at h
    cases hE : g.Edges v with
    | none => rw [hE] at h; cases h
    | some ds =>
      rw [hE] at h
      simp only at h
      cases hloop : dfsLoop (dfs fuel g) ds
          { st with visited := setVisited st.visited v DFSVertexState.Processing } with
      | out_of_range => rw [hloop] at h; cases h
      | out_of_fuel => rw [hloop] at h; cases h
      | ok res =>
        obtain ⟨b, st1⟩ := res
        rw [hloop] at h
        have hvnot : v ∉ st.result_order := by
          intro hmem
          have := (hpo.processed_iff v).2 hmem
          rw [hn] at this
          cases this
        have hpo0 : PostOrder g
            { st with visited := setVisited st.visited v DFSVertexState.Processing } := by
          refine ⟨hpo.not_cyclic, ?_, hpo.nodup, hpo.succ_closed, hpo.no_forward,
            hpo.vertices⟩
          intro x
          by_cases hx : x = v
          · subst hx
            simp only [setVisited_same]
            constructor
            · intro h1; cases h1
            · intro h1; exact absurd h1 hvnot
          · simp only [setVisited_other _ _ _ _ hx]
            exact hpo.processed_iff x
        have hreach0 : ∀ p, setVisited st.visited v DFSVertexState.Processing p
            = DFSVertexState.Processing → Relation.ReflTransGen g.Edge p v := by
          intro p hp
          by_cases hpv : p = v
          · subst hpv; exact Relation.ReflTransGen.refl
          · rw [setVisited_other _ _ _ _ hpv] at hp
            exact hreach p hp
        obtain ⟨hb, hpo1, hall, hproc1, hmono1⟩ :=
          dfsLoop_postOrder g hacyc fuel ih v ds _ b st1 hloop
            (fun d hd => (OrientedGraph.edge_iff_of_Edges hE d).2 hd) hreach0 hpo0
        subst hb
        simp only [SortResult.ok.injEq] at h
        subst h
        have hv1 : st1.visited v = DFSVertexState.Processing :=
          (hproc1 v).2 (setVisited_same _ _ _)
        have hvnot1 : v ∉ st1.result_order := by
          intro hmem
          have := (hpo1.processed_iff v).2 hmem
          rw [hv1] at this
          cases this
        refine ⟨⟨hpo1.not_cyclic, ?_, ?_, ?_, ?_, ?_⟩, setVisited_same _ _ _, ?_, ?_⟩
        · intro x
          by_cases hx : x = v
          · subst hx
            simp [setVisited_same]
          · simp only [setVisited_other _ _ _ _ hx, List.mem_append, List.mem_singleton, hx,
              or_false]
            exact hpo1.processed_iff x
        · simp only
          rw [List.nodup_append]
          refine ⟨hpo1.nodup, List.nodup_singleton v, ?_⟩
          intro a ha hav
          rw [List.mem_singleton] at hav
          subst hav
          exact hvnot1 ha
        · intro x hx y hxy
          simp only [List.mem_append, List.mem_singleton] at hx ⊢
          rcases hx with hx | hx
          · exact Or.inl (hpo1.succ_closed x hx y hxy)
          · subst hx
            have hy : y ∈ ds := (OrientedGraph.edge_iff_of_Edges hE y).1 hxy
            exact Or.inl ((hpo1.processed_iff y).1 (hall y hy))
        · simp only
          rw [List.pairwise_append]
          refine ⟨hpo1.no_forward, List.pairwise_singleton _ _, ?_⟩
          intro a ha b hb hab
          rw [List.mem_singleton] at hb
          subst hb
          exact hvnot1 (hpo1.succ_closed a ha b hab)
        · intro x hx
          simp only [List.mem_append, List.mem_singleton] at hx
          rcases hx with hx | hx
          · exact hpo1.vertices x hx
          · subst hx
            exact OrientedGraph.hasVertex_of_Edges hE
        · intro x
          by_cases hx : x = v
          · subst hx
            simp only [setVisited_same]
            rw [hn]
            constructor <;> intro h1 <;> cases h1
          · simp only [setVisited_other _ _ _ _ hx]
            rw [hproc1 x]
            simp only [setVisited_other _ _ _ _ hx]
        · intro x hxp
          by_cases hx : x = v
          · subst hx
            rw [hn] at hxp
            cases hxp
          · simp only [setVisited_other _ _ _ _ hx]
            apply hmono1
            simp only [setVisited_other _ _ _ _ hx]
            exact hxp

theorem sortLoop_postOrder (g : OrientedGraph) (hacyc : g.Acyclic) (fuel : Nat)
    (vs : List Nat) :
    ∀ st r, sortLoop fuel g vs st = .ok r → PostOrder g st →
      (∀ p, st.visited p ≠ DFSVertexState.Processing) →
      ∃ st2, r = some st2 ∧ PostOrder g st2 ∧
        (∀ v ∈ vs, st2.visited v = DFSVertexState.Processed) ∧
        (∀ x, st.visited x = DFSVertexState.Processed →
          st2.visited x = DFSVertexState.Processed) := by
  induction vs with
  | nil =>
    intro st r h hpo _
    simp only [sortLoop, SortResult.ok.injEq] at h
    exact ⟨st, h.symm, hpo, fun v hv => absurd hv (List.not_mem_nil v), fun _ hx => hx⟩
  | cons v rest ihl =>
    intro st r h hpo hnoproc
    unfold sortLoop at h
    have hcy : ¬ st.is_cyclic = true := by
      rw [hpo.not_cyclic]; decide
    rw [if_neg hcy] at h
    by_cases hn : st.visited v = DFSVertexState.NotVisited
    · rw [if_pos hn] at h
      cases hcall : dfs fuel g v st with
      | out_of_range => rw [hcall] at h; cases h
      | out_of_fuel => rw [hcall] at h; cases h
      | ok st1 =>
        rw [hcall] at h
        simp only at h
        obtain ⟨hpo1, hv1, hproc1, hmono1⟩ := dfs_postOrder g hacyc fuel v st st1 hcall hn
          (fun p hp => absurd hp (hnoproc p)) hpo
        obtain ⟨st2, hr, hpo2, hall, hmono2⟩ := ihl st1 r h hpo1
          (fun p hp => hnoproc p ((hproc1 p).1 hp))
        refine ⟨st2, hr, hpo2, ?_, fun x hx => hmono2 x (hmono1 x hx)⟩
        intro x hx
        rcases List.mem_cons.1 hx with hx | hx
        · subst hx; exact hmono2 x hv1
        · exact hall x hx
    · rw [if_neg hn] at h
      have hdone : st.visited v = DFSVertexState.Processed := by
        cases hs : st.visited v with
        | NotVisited => exact absurd hs hn
        | Processing => exact absurd hs (hnoproc v)
        | Processed => rfl
      obtain ⟨st2, hr, hpo2, hall, hmono2⟩ := ihl st r h hpo hnoproc
      refine ⟨st2, hr, hpo2, ?_, hmono2⟩
      intro x hx
      rcases List.mem_cons.1 hx with hx | hx
      · subst hx; exact hmono2 x hdone
      · exact hall x hx

theorem postOrder_initial (g : OrientedGraph) : PostOrder g initialVars := by
  refine ⟨rfl, ?_, List.nodup_nil, ?_, List.Pairwise.nil, ?_⟩
  · intro x
    simp [initialVars]
  · intro x hx
    simp [initialVars] at hx
  · intro x hx
    simp [initialVars] at hx

/-- On an acyclic graph whose edges end in vertices, `TopologicalSort` returns the
reverse of a post-order that lists exactly the vertices. -/
theorem TopologicalSort_acyclic (g : OrientedGraph) (hacyc : g.Acyclic)
    (hc : g.EdgeClosed) (fuel : Nat) (hfuel : g.NumVertices ≤ fuel) :
    ∃ po : List Nat, TopologicalSort fuel g = .ok po.reverse ∧ po.Nodup ∧
      (∀ x, x ∈ po ↔ g.HasVertex x = true) ∧
      po.Pairwise (fun a b => ¬ g.Edge a b) := by
  obtain ⟨r, hr⟩ := sortLoop_returns g hc fuel g.Vertices initialVars
    (fun v hv => (g.hasVertex_iff_mem_Vertices v).2 hv)
    (le_trans (pending_initial_le g) hfuel)
  obtain ⟨st2, hst2, hpo2, hall, -⟩ := sortLoop_postOrder g hacyc fuel g.Vertices
    initialVars r hr (postOrder_initial g) (by intro p; simp [initialVars])
  subst hst2
  refine ⟨st2.result_order, ?_, hpo2.nodup, ?_, hpo2.no_forward⟩
  · unfold TopologicalSort
    rw [hr]
  · intro x
    constructor
    · exact hpo2.vertices x
    · intro hx
      exact (hpo2.processed_iff x).1 (hall x ((g.hasVertex_iff_mem_Vertices x).1 hx))

/-! ## `dfs` on a graph in which every vertex has an outgoing edge -/

theorem dfs_noSink (g : OrientedGraph)
    (hsink : ∀ v ds, g.Edges v = some ds → ds ≠ []) (fuel : Nat) :
    ∀ v st st2, dfs fuel g v st = .ok st2 →
      (∀ x, st.visited x ≠ DFSVertexState.Processed) → st.result_order = [] →
      st2.is_cyclic = true ∧ (∀ x, st2.visited x ≠ DFSVertexState.Processed) ∧
        st2.result_order = [] ∧ st2.visited v = DFSVertexState.Processing ∧
        (∀ x, st.visited x = DFSVertexState.Processing →
          st2.visited x = DFSVertexState.Processing) := by
  induction fuel with
  | zero =>
    intro v st st2 h
    simp [dfs] at h
  | succ fuel ih =>
    intro v st st2 h hnone hres
    unfold dfs at h
    cases hE : g.Edges v with
    | none => rw [hE] at h; cases h
    | some ds =>
      rw [hE] at h
      simp only at h
      cases ds with
      | nil => exact absurd rfl (hsink v [] hE)
      | cons d rest =>
        have hnone0 : ∀ x, setVisited st.visited v DFSVertexState.Processing x
            ≠ DFSVertexState.Processed := by
          intro x
          by_cases hx : x = v
          · subst hx
            rw [setVisited_same]
            decide
          · rw [setVisited_other _ _ _ _ hx]
            exact hnone x
        have hkeep0 : ∀ x, st.visited x = DFSVertexState.Processing →
            setVisited st.visited v DFSVertexState.Processing x
              = DFSVertexState.Processing := by
          intro x hx
          by_cases hxv : x = v
          · subst hxv
            exact setVisited_same _ _ _
          · rw [setVisited_other _ _ _ _ hxv]
            exact hx
        unfold dfsLoop at h
        by_cases hd : setVisited st.visited v DFSVertexState.Processing d
            = DFSVertexState.NotVisited
        · simp only [hd, if_true] at h
          cases hcall : dfs fuel g d
              { st with visited := setVisited st.visited v DFSVertexState.Processing } with
          | out_of_range => rw [hcall] at h; cases h
          | out_of_fuel => rw [hcall] at h; cases h
          | ok st1 =>
            rw [hcall] at h
            simp only at h
            obtain ⟨-, hnone1, hres1, hd1, hkeep1⟩ := ih d _ st1 hcall hnone0 hres
            rw [if_pos hd1] at h
            simp only [SortResult.ok.injEq] at h
            subst h
            exact ⟨rfl, hnone1, hres1, hkeep1 v (setVisited_same _ _ _),
              fun x hx => hkeep1 x (hkeep0 x hx)⟩
        · simp only [hd, if_false] at h
          have hp : setVisited st.visited v DFSVertexState.Processing d
              = DFSVertexState.Processing := by
            cases hs : setVisited st.visited v DFSVertexState.Processing d with
            | NotVisited => exact absurd hs hd
            | Processing => rfl
            | Processed => exact absurd hs (hnone0 d)
          rw [if_pos hp] at h
          simp only [SortResult.ok.injEq] at h
          subst h
          exact ⟨rfl, hnone0, hres, setVisited_same _ _ _, hkeep0⟩

theorem TopologicalSort_noSink (g : OrientedGraph) (hc : g.EdgeClosed)
    (hsink : ∀ v ds, g.Edges v = some ds → ds ≠ []) (fuel : Nat)
    (hfuel : g.NumVertices ≤ fuel) : TopologicalSort fuel g = .ok [] := by
  unfold TopologicalSort
  cases hvs : g.Vertices with
  | nil => rfl
  | cons v rest =>
    have hv : g.HasVertex v = true := by
      rw [g.hasVertex_iff_mem_Vertices, hvs]
      exact List.mem_cons_self _ _
    obtain ⟨st1, h1, -⟩ := dfs_returns g hc fuel v initialVars hv rfl
      (le_trans (pending_initial_le g) hfuel)
    obtain ⟨hcy, -, hres, -, -⟩ := dfs_noSink g hsink fuel v initialVars st1 h1
      (by intro x; simp [initialVars]) rfl
    have hstep : sortLoop fuel g (v :: rest) initialVars = sortLoop fuel g rest st1 := by
      have hnc : ¬ initialVars.is_cyclic = true := by simp [initialVars]
      have hnv : initialVars.visited v = DFSVertexState.NotVisited := rfl
      rw [sortLoop, if_neg hnc, if_pos hnv, h1]
    rw [hstep]
    cases rest with
    | nil =>
      simp only [sortLoop, hres]
      rfl
    | cons w rest2 =>
      simp only [sortLoop, hcy, if_true]

/-! ## Positions in a list -/

theorem rel_of_indexOf_lt {R : Nat → Nat → Prop} (l : List Nat) (hp : l.Pairwise R)
    (a b : Nat) (hb : b ∈ l) (hlt : l.indexOf a < l.indexOf b) : R a b := by
  induction l with
  | nil => cases hb
  | cons x xs ih =>
    rw [List.pairwise_cons] at hp
    by_cases hxa : x = a
    · subst hxa
      by_cases hxb : x = b
      · subst hxb
        exact absurd hlt (lt_irrefl _)
      · rcases List.mem_cons.1 hb with h | h
        · exact absurd h.symm hxb
        · exact hp.1 b h
    · by_cases hxb : x = b
      · subst hxb
        rw [List.indexOf_cons_self] at hlt
        exact absurd hlt (Nat.not_lt_zero _)
      · rw [List.indexOf_cons_ne _ hxa, List.indexOf_cons_ne _ hxb] at hlt
        rcases List.mem_cons.1 hb with h | h
        · exact absurd h.symm hxb
        · exact ih hp.2 h (Nat.lt_of_succ_lt_succ hlt)

theorem indexOf_lt_of_no_backward {R : Nat → Nat → Prop} (l : List Nat)
    (hp : l.Pairwise (fun a b => ¬ R b a)) (u v : Nat) (hu : u ∈ l) (hv : v ∈ l)
    (huv : R u v) (hne : u ≠ v) : l.indexOf u < l.indexOf v := by
  rcases Nat.lt_trichotomy (l.indexOf u) (l.indexOf v) with h | h | h
  · exact h
  · exact absurd ((List.indexOf_inj hu hv).1 h) hne
  · exact absurd huv (rel_of_indexOf_lt l hp v u hu h)

/-! ## Checking the hypotheses on a concrete graph -/

theorem AdjMap.mem_of_find {m : AdjMap} {k : Nat} {s : IdSet}
    (h : AdjMap.find m k = some s) : (k, s) ∈ m := by
  induction m with
  | nil => simp [AdjMap.find] at h
  | cons p rest ih =>
    obtain ⟨a, t⟩ := p
    by_cases ha : a = k
    · subst ha
      simp only [AdjMap.find, if_true, Option.some.injEq] at h
      subst h
      exact List.mem_cons_self _ _
    · simp only [AdjMap.find, ha, if_false] at h
      exact List.mem_cons_of_mem _ (ih h)

theorem OrientedGraph.mem_edgeList_of_hasEdge {g : OrientedGraph} {u v : Nat}
    (h : g.HasEdge u v = true) : (u, v) ∈ g.edgeList := by
  obtain ⟨s, hs, hv⟩ := (g.oriented_hasEdge_iff u v).1 h
  unfold OrientedGraph.edgeList
  rw [List.mem_flatMap]
  exact ⟨(u, s), AdjMap.mem_of_find hs, List.mem_map.2 ⟨v, hv, rfl⟩⟩

theorem OrientedGraph.acyclic_of_rank_edges (g : OrientedGraph) (rank : Nat → Nat)
    (h : ∀ a b, g.HasEdge a b = true → rank a < rank b) : g.Acyclic := by
  have key : ∀ a b, Relation.TransGen g.Edge a b → rank a < rank b := by
    intro a b hab
    induction hab with
    | single hab => exact h _ _ hab
    | tail _ hbc ih => exact lt_trans ih (h _ _ hbc)
  intro v hv
  exact lt_irrefl _ (key v v hv)

theorem OrientedGraph.acyclic_of_rank (g : OrientedGraph) (rank : Nat → Nat)
    (h : ∀ p ∈ g.edgeList, rank p.1 < rank p.2) : g.Acyclic :=
  g.acyclic_of_rank_edges rank
    (fun a b hab => h (a, b) (OrientedGraph.mem_edgeList_of_hasEdge hab))

theorem OrientedGraph.edgeClosed_of_edgeList (g : OrientedGraph)
    (h : ∀ p ∈ g.edgeList, g.HasVertex p.1 = true ∧ g.HasVertex p.2 = true) :
    g.EdgeClosed :=
  fun u v huv => h (u, v) (OrientedGraph.mem_edgeList_of_hasEdge huv)

theorem simpleGraph_acyclic : simpleGraph.Acyclic :=
  simpleGraph.acyclic_of_rank (fun n => if n = 2 then 0 else if n = 1 then 1 else 2)
    (by decide)

theorem simpleGraph_edgeClosed : simpleGraph.EdgeClosed :=
  simpleGraph.edgeClosed_of_edgeList (by decide)

theorem diamondGraph_acyclic : diamondGraph.Acyclic :=
  diamondGraph.acyclic_of_rank (fun n => if n = 1 then 0 else if n = 4 then 2 else 1)
    (by decide)

theorem diamondGraph_edgeClosed : diamondGraph.EdgeClosed :=
  diamondGraph.edgeClosed_of_edgeList (by decide)

theorem pairwise_indexOf_lt_of_nodup (l : List Nat) (h : l.Nodup) :
    l.Pairwise (fun a b => l.indexOf a < l.indexOf b) := by
  induction l with
  | nil => exact List.Pairwise.nil
  | cons x xs ih =>
    rw [List.nodup_cons] at h
    rw [List.pairwise_cons]
    constructor
    · intro y hy
      have hxy : x ≠ y := fun e => h.1 (e ▸ hy)
      rw [List.indexOf_cons_self, List.indexOf_cons_ne _ hxy]
      exact Nat.succ_pos _
    · refine (ih h.2).imp_of_mem ?_
      intro a b ha hb hab
      have hxa : x ≠ a := fun e => h.1 (e ▸ ha)
      have hxb : x ≠ b := fun e => h.1 (e ▸ hb)
      rw [List.indexOf_cons_ne _ hxa, List.indexOf_cons_ne _ hxb]
      exact Nat.succ_lt_succ hab

theorem chain'_of_zip_tail {R : Nat → Nat → Prop} (l : List Nat)
    (h : ∀ p ∈ l.zip l.tail, R p.1 p.2) : l.Chain' R := by
  induction l with
  | nil => exact List.chain'_nil
  | cons x xs ih =>
    cases xs with
    | nil => exact List.chain'_singleton x
    | cons y ys =>
      rw [List.chain'_cons]
      constructor
      · exact h (x, y) (by simp)
      · apply ih
        intro p hp
        apply h p
        simp only [List.tail_cons, List.zip_cons_cons, List.mem_cons] at hp ⊢
        exact Or.inr hp

theorem rel_of_mem_zip_tail {R : Nat → Nat → Prop} (l : List Nat) (h : l.Pairwise R) :
    ∀ p ∈ l.zip l.tail, R p.1 p.2 := by
  induction l with
  | nil => intro p hp; simp at hp
  | cons x xs ih =>
    rw [List.pairwise_cons] at h
    cases xs with
    | nil => intro p hp; simp at hp
    | cons y ys =>
      intro p hp
      simp only [List.tail_cons, List.zip_cons_cons, List.mem_cons] at hp
      rcases hp with hp | hp
      · subst hp
        exact h.1 y (List.mem_cons_self _ _)
      · exact ih h.2 p (by simpa using hp)

theorem exists_mem_zip_of_mem (l l2 : List Nat) (hlen : l.length ≤ l2.length) (a : Nat)
    (ha : a ∈ l) : ∃ b, (a, b) ∈ l.zip l2 := by
  induction l generalizing l2 with
  | nil => cases ha
  | cons x xs ih =>
    cases l2 with
    | nil => simp at hlen
    | cons y ys =>
      rcases List.mem_cons.1 ha with h | h
      · subst h
        exact ⟨y, by simp⟩
      · obtain ⟨b, hb⟩ := ih ys (by simpa using hlen) h
        exact ⟨b, by simp [hb]⟩

/-! ## Contents of a graph built from a vertex list and an edge list -/

theorem OrientedGraph.foldl_addVertex (vs : List Nat) (g : OrientedGraph) :
    (∀ k, AdjMap.has (List.foldl OrientedGraph.step g (vs.map Op.AddVertex)).edges k ↔
        AdjMap.has g.edges k ∨ k ∈ vs) ∧
      (∀ a b, AdjMap.rel (List.foldl OrientedGraph.step g (vs.map Op.AddVertex)).edges a b ↔
        AdjMap.rel g.edges a b) := by
  induction vs generalizing g with
  | nil => simp
  | cons v rest ih =>
    obtain ⟨h1, h2⟩ := ih (g.step (Op.AddVertex v))
    constructor
    · intro k
      rw [List.map_cons, List.foldl_cons, h1]
      simp only [OrientedGraph.step, OrientedGraph.AddVertex, AdjMap.has_touch,
        List.mem_cons]
      tauto
    · intro a b
      rw [List.map_cons, List.foldl_cons, h2]
      simp only [OrientedGraph.step, OrientedGraph.AddVertex, AdjMap.rel_touch]

theorem OrientedGraph.foldl_addEdge (ps : List (Nat × Nat)) (g : OrientedGraph) :
    (∀ k, AdjMap.has (List.foldl OrientedGraph.step g
          (ps.map (fun p => Op.AddEdge p.1 p.2))).edges k ↔
        AdjMap.has g.edges k ∨ ∃ b, (k, b) ∈ ps) ∧
      (∀ a b, AdjMap.rel (List.foldl OrientedGraph.step g
          (ps.map (fun p => Op.AddEdge p.1 p.2))).edges a b ↔
        AdjMap.rel g.edges a b ∨ (a, b) ∈ ps) := by
  induction ps generalizing g with
  | nil => simp
  | cons p rest ih =>
    obtain ⟨x, y⟩ := p
    obtain ⟨h1, h2⟩ := ih (g.step (Op.AddEdge x y))
    constructor
    · intro k
      rw [List.map_cons, List.foldl_cons, h1]
      simp only [OrientedGraph.step, OrientedGraph.AddEdge, AdjMap.has_insertAt,
        List.mem_cons, Prod.mk.injEq]
      constructor
      · rintro ((h | h) | ⟨b, hb⟩)
        · exact Or.inl h
        · exact Or.inr ⟨y, Or.inl ⟨h, rfl⟩⟩
        · exact Or.inr ⟨b, Or.inr hb⟩
      · rintro (h | ⟨b, hb | hb⟩)
        · exact Or.inl (Or.inl h)
        · exact Or.inl (Or.inr hb.1)
        · exact Or.inr ⟨b, hb⟩
    · intro a b
      rw [List.map_cons, List.foldl_cons, h2]
      simp only [OrientedGraph.step, OrientedGraph.AddEdge, AdjMap.rel_insertAt,
        List.mem_cons, Prod.mk.injEq]
      tauto

theorem OrientedGraph.hasVertex_run_buildOps (vs : List Nat) (ps : List (Nat × Nat))
    (k : Nat) :
    (OrientedGraph.run (buildOps vs ps)).HasVertex k = true ↔
      k ∈ vs ∨ ∃ b, (k, b) ∈ ps := by
  rw [OrientedGraph.oriented_hasVertex_iff]
  unfold OrientedGraph.run buildOps
  rw [List.foldl_append, (OrientedGraph.foldl_addEdge ps _).1,
    (OrientedGraph.foldl_addVertex vs _).1]
  simp [OrientedGraph.empty, AdjMap.has, AdjMap.find]

theorem OrientedGraph.hasEdge_run_buildOps (vs : List Nat) (ps : List (Nat × Nat))
    (a b : Nat) :
    (OrientedGraph.run (buildOps vs ps)).HasEdge a b = true ↔ (a, b) ∈ ps := by
  rw [OrientedGraph.oriented_hasEdge_iff]
  unfold OrientedGraph.run buildOps
  rw [List.foldl_append, (OrientedGraph.foldl_addEdge ps _).2,
    (OrientedGraph.foldl_addVertex vs _).2]
  simp [OrientedGraph.empty, AdjMap.rel, AdjMap.find]

/-- Every graph with the contents of the chain on a duplicate-free list `vs` is sorted
to `vs`. -/
theorem TopologicalSort_of_chain_contents (vs : List Nat) (hvs : vs.Nodup)
    (g : OrientedGraph) (hV : ∀ x, g.HasVertex x = true ↔ x ∈ vs)
    (hE : ∀ a b, g.HasEdge a b = true ↔ (a, b) ∈ vs.zip vs.tail)
    (fuel : Nat) (hfuel : g.NumVertices ≤ fuel) : TopologicalSort fuel g = .ok vs := by
  have hc : g.EdgeClosed := by
    intro a b hab
    have hm := List.of_mem_zip ((hE a b).1 hab)
    exact ⟨(hV a).2 hm.1, (hV b).2 (List.mem_of_mem_tail hm.2)⟩
  have hacyc : g.Acyclic := by
    apply g.acyclic_of_rank_edges (fun x => vs.indexOf x)
    intro a b hab
    exact rel_of_mem_zip_tail vs (pairwise_indexOf_lt_of_nodup vs hvs) (a, b) ((hE a b).1 hab)
  obtain ⟨po, hsort, hnd, hmem, hpw⟩ := TopologicalSort_acyclic g hacyc hc fuel hfuel
  rw [hsort]
  congr 1
  have hnd2 : po.reverse.Nodup := List.nodup_reverse.2 hnd
  have hmem2 : ∀ x, x ∈ po.reverse ↔ x ∈ vs :=
    fun x => List.mem_reverse.trans ((hmem x).trans (hV x))
  have hrev : po.reverse.Pairwise (fun a b => ¬ g.Edge b a) := List.pairwise_reverse.2 hpw
  have hperm : po.reverse.Perm vs := (List.perm_ext_iff_of_nodup hnd2 hvs).2 hmem2
  haveI htrans : IsTrans Nat (fun a b => po.reverse.indexOf a < po.reverse.indexOf b) :=
    ⟨fun _ _ _ h1 h2 => lt_trans h1 h2⟩
  haveI hanti : IsAntisymm Nat (fun a b => po.reverse.indexOf a < po.reverse.indexOf b) :=
    ⟨fun _ _ h1 h2 => absurd h1 (lt_asymm h2)⟩
  have hs1 : po.reverse.Pairwise (fun a b => po.reverse.indexOf a < po.reverse.indexOf b) :=
    pairwise_indexOf_lt_of_nodup _ hnd2
  have hs2 : vs.Pairwise (fun a b => po.reverse.indexOf a < po.reverse.indexOf b) := by
    apply List.chain'_iff_pairwise.1
    apply chain'_of_zip_tail
    intro p hp
    have hedge : g.HasEdge p.1 p.2 = true := (hE p.1 p.2).2 hp
    have hm := List.of_mem_zip hp
    have hne : p.1 ≠ p.2 := by
      intro e
      apply hacyc p.1
      apply Relation.TransGen.single
      show g.HasEdge p.1 p.1 = true
      rw [e] at hedge ⊢
      exact hedge
    exact indexOf_lt_of_no_backward po.reverse hrev p.1 p.2 ((hmem2 _).2 hm.1)
      ((hmem2 _).2 (List.mem_of_mem_tail hm.2)) hedge hne
  exact List.eq_of_perm_of_sorted hperm hs1 hs2

theorem OrientedGraph.sameContents_self (g : OrientedGraph) : g.SameContents g :=
  ⟨fun _ => rfl, fun _ _ => rfl⟩

theorem chainGraph_hasVertex (vs : List Nat) (x : Nat) :
    (chainGraph vs).HasVertex x = true ↔ x ∈ vs := by
  unfold chainGraph
  rw [OrientedGraph.hasVertex_run_buildOps]
  constructor
  · rintro (h | ⟨b, hb⟩)
    · exact h
    · exact (List.of_mem_zip hb).1
  · exact Or.inl

theorem chainGraph_hasEdge (vs : List Nat) (a b : Nat) :
    (chainGraph vs).HasEdge a b = true ↔ (a, b) ∈ vs.zip vs.tail := by
  unfold chainGraph
  rw [OrientedGraph.hasEdge_run_buildOps]
  rfl

theorem cycleGraph_hasVertex (vs : List Nat) (x : Nat) :
    (cycleGraph vs).HasVertex x = true ↔ x ∈ vs := by
  unfold cycleGraph
  rw [OrientedGraph.hasVertex_run_buildOps]
  constructor
  · rintro (h | ⟨b, hb⟩)
    · exact h
    · exact (List.of_mem_zip hb).1
  · exact Or.inl

theorem cycleGraph_hasEdge (vs : List Nat) (a b : Nat) :
    (cycleGraph vs).HasEdge a b = true ↔ (a, b) ∈ vs.zip (vs.rotate 1) := by
  unfold cycleGraph
  rw [OrientedGraph.hasEdge_run_buildOps]
  rfl

theorem simpleGraph_eq_build :
    simpleGraph = OrientedGraph.run (buildOps [1, 2, 3] [(2, 1), (1, 3)]) := rfl

theorem simpleGraph_same_as_chain : simpleGraph.SameContents (chainGraph [2, 1, 3]) := by
  constructor
  · intro x
    rw [Bool.eq_iff_iff, chainGraph_hasVertex, simpleGraph_eq_build,
      OrientedGraph.hasVertex_run_buildOps]
    simp only [List.mem_cons, Prod.mk.injEq, List.mem_singleton, List.not_mem_nil, or_false]
    constructor
    · rintro (h | ⟨b, hb⟩)
      · tauto
      · tauto
    · intro h
      exact Or.inl (by tauto)
  · intro a b
    rw [Bool.eq_iff_iff, chainGraph_hasEdge, simpleGraph_eq_build,
      OrientedGraph.hasEdge_run_buildOps]
    simp only [List.tail_cons, List.zip_cons_cons, List.zip_nil_right, List.mem_cons,
      Prod.mk.injEq, List.not_mem_nil, or_false]

/-! ## `TopologicalSort`: statements of the claims -/

/-- C1: on every `OrientedGraph` without directed cycle whose edge endpoints all
satisfy `HasVertex`, `TopologicalSort` returns a sequence in which, for every edge
`(u, v)`, `u` occurs at a strictly smaller index than `v`. -/
theorem TopologicalSort_edges_forward (g : OrientedGraph) (hacyc : g.Acyclic)
    (hc : g.EdgeClosed) (fuel : Nat) (hfuel : g.NumVertices ≤ fuel) :
    ∃ order, TopologicalSort fuel g = .ok order ∧
      ∀ u v, g.HasEdge u v = true →
        u ∈ order ∧ v ∈ order ∧ order.indexOf u < order.indexOf v := by
  obtain ⟨po, hsort, -, hmem, hpw⟩ := TopologicalSort_acyclic g hacyc hc fuel hfuel
  refine ⟨po.reverse, hsort, ?_⟩
  intro u v huv
  have hu : u ∈ po.reverse := List.mem_reverse.2 ((hmem u).2 (hc u v huv).1)
  have hv : v ∈ po.reverse := List.mem_reverse.2 ((hmem v).2 (hc u v huv).2)
  have hne : u ≠ v := by
    rintro rfl
    exact hacyc u (Relation.TransGen.single huv)
  have hrev : po.reverse.Pairwise (fun a b => ¬ g.Edge b a) := List.pairwise_reverse.2 hpw
  exact ⟨hu, hv, indexOf_lt_of_no_backward po.reverse hrev u v hu hv huv hne⟩

/-- Witness of C1 on the graph of `SimpleTest`. -/
theorem TopologicalSort_edges_forward_witness :
    simpleGraph.Acyclic ∧ simpleGraph.EdgeClosed ∧ simpleGraph.NumVertices ≤ 3 ∧
      ∃ order, TopologicalSort 3 simpleGraph = .ok order ∧
        ∀ u v, simpleGraph.HasEdge u v = true →
          u ∈ order ∧ v ∈ order ∧ order.indexOf u < order.indexOf v :=
  ⟨simpleGraph_acyclic, simpleGraph_edgeClosed, by decide,
    TopologicalSort_edges_forward simpleGraph simpleGraph_acyclic simpleGraph_edgeClosed 3
      (by decide)⟩

/-- C3: on every `OrientedGraph` without directed cycle whose edge endpoints all
satisfy `HasVertex`, the sequence returned by `TopologicalSort` contains every vertex
exactly once and nothing else; its length is `NumVertices`, and it is empty only when
the graph has no vertices. -/
theorem TopologicalSort_linear_order (g : OrientedGraph) (hk : g.DistinctKeys)
    (hacyc : g.Acyclic) (hc : g.EdgeClosed) (fuel : Nat) (hfuel : g.NumVertices ≤ fuel) :
    ∃ order, TopologicalSort fuel g = .ok order ∧ order.Nodup ∧
      (∀ x, x ∈ order ↔ g.HasVertex x = true) ∧ order.Perm g.Vertices ∧
      order.length = g.NumVertices ∧ (order = [] → g.NumVertices = 0) := by
  obtain ⟨po, hsort, hnd, hmem, -⟩ := TopologicalSort_acyclic g hacyc hc fuel hfuel
  have hnd2 : po.reverse.Nodup := List.nodup_reverse.2 hnd
  have hmem2 : ∀ x, x ∈ po.reverse ↔ g.HasVertex x = true :=
    fun x => List.mem_reverse.trans (hmem x)
  have hperm : po.reverse.Perm g.Vertices :=
    (List.perm_ext_iff_of_nodup hnd2 hk).2
      (fun x => (hmem2 x).trans (g.hasVertex_iff_mem_Vertices x))
  have hlen : po.reverse.length = g.NumVertices := by
    rw [hperm.length_eq]
    simp [OrientedGraph.Vertices, OrientedGraph.NumVertices, AdjMap.keys]
  refine ⟨po.reverse, hsort, hnd2, hmem2, hperm, hlen, ?_⟩
  intro hnil
  rw [← hlen, hnil]
  rfl

/-- Witness of C3 on a diamond-shaped graph. -/
theorem TopologicalSort_linear_order_witness :
    diamondGraph.DistinctKeys ∧ diamondGraph.Acyclic ∧ diamondGraph.EdgeClosed ∧
      diamondGraph.NumVertices ≤ 4 ∧
      ∃ order, TopologicalSort 4 diamondGraph = .ok order ∧ order.Nodup ∧
        (∀ x, x ∈ order ↔ diamondGraph.HasVertex x = true) ∧
        order.Perm diamondGraph.Vertices ∧
        order.length = diamondGraph.NumVertices ∧
        (order = [] → diamondGraph.NumVertices = 0) :=
  ⟨by decide, diamondGraph_acyclic, diamondGraph_edgeClosed, by decide,
    TopologicalSort_linear_order diamondGraph (by decide) diamondGraph_acyclic
      diamondGraph_edgeClosed 4 (by decide)⟩

/-- C7: `TopologicalSort` applied to the empty `OrientedGraph` returns the empty
sequence. -/
theorem TopologicalSort_empty (fuel : Nat) :
    TopologicalSort fuel OrientedGraph.empty = .ok [] := by
  rfl

/-- C2, failing input: the graph with vertices 1, 2 (iterated in this order) and
the self-loop 2 → 2 contains a directed cycle, yet `TopologicalSort` returns `[1]`.
For a container that iterates 2 before 1, the same happens with the self-loop 1 → 1:
the result is `[2]`. -/
theorem TopologicalSort_selfLoopLast (fuel : Nat) :
    (selfLoopLastGraph.HasEdge 2 2 = true ∧ selfLoopLastGraph.EdgeClosed ∧
      selfLoopLastGraph.Vertices = [1, 2] ∧
      TopologicalSort (fuel + 1) selfLoopLastGraph = .ok [1]) ∧
    (selfLoopLastGraphMirror.HasEdge 1 1 = true ∧ selfLoopLastGraphMirror.EdgeClosed ∧
      selfLoopLastGraphMirror.Vertices = [2, 1] ∧
      TopologicalSort (fuel + 1) selfLoopLastGraphMirror = .ok [2]) :=
  ⟨⟨by decide, selfLoopLastGraph.edgeClosed_of_edgeList (by decide), by decide, rfl⟩,
    ⟨by decide, selfLoopLastGraphMirror.edgeClosed_of_edgeList (by decide), by decide, rfl⟩⟩

/-- C4, failing input: after the single call `AddEdge(1, 2)` on the empty graph,
`TopologicalSort` ends with `std::out_of_range`, raised by `graph.Edges(2)` in `dfs`. -/
theorem TopologicalSort_danglingEdge (fuel : Nat) :
    danglingEdgeGraph.HasVertex 2 = false ∧ danglingEdgeGraph.Edges 2 = none ∧
      TopologicalSort (fuel + 2) danglingEdgeGraph = .out_of_range :=
  ⟨by decide, by decide, rfl⟩

/-- C5: for every list `vs` of pairwise distinct ids, every graph with the contents
of the graph built by `AddVertex` on each id and `AddEdge(vi, vi+1)` for each
consecutive pair, whatever its iteration order, is sorted to exactly `vs`. -/
theorem TopologicalSort_chain (vs : List Nat) (hvs : vs.Nodup) (g : OrientedGraph)
    (hsame : g.SameContents (chainGraph vs)) (fuel : Nat) (hfuel : g.NumVertices ≤ fuel) :
    TopologicalSort fuel g = .ok vs := by
  apply TopologicalSort_of_chain_contents vs hvs g _ _ fuel hfuel
  · intro x
    rw [hsame.1 x]
    exact chainGraph_hasVertex vs x
  · intro a b
    rw [hsame.2 a b]
    exact chainGraph_hasEdge vs a b

/-- Witness of C5: the three chains of the tests, and the graph of `SimpleTest`, which
stores the chain 2 → 1 → 3 with the vertices in the order 1, 2, 3. -/
theorem TopologicalSort_chain_witness :
    TopologicalSort 3 (chainGraph [2, 1, 3]) = .ok [2, 1, 3] ∧
      TopologicalSort 4 (chainGraph [1, 2, 3, 4]) = .ok [1, 2, 3, 4] ∧
      TopologicalSort 4 (chainGraph [4, 3, 2, 1]) = .ok [4, 3, 2, 1] ∧
      simpleGraph.Vertices = [1, 2, 3] ∧
      TopologicalSort 3 simpleGraph = .ok [2, 1, 3] :=
  ⟨TopologicalSort_chain [2, 1, 3] (by decide) _ (OrientedGraph.sameContents_self _) 3
      (by decide),
    TopologicalSort_chain [1, 2, 3, 4] (by decide) _ (OrientedGraph.sameContents_self _) 4
      (by decide),
    TopologicalSort_chain [4, 3, 2, 1] (by decide) _ (OrientedGraph.sameContents_self _) 4
      (by decide),
    by decide,
    TopologicalSort_chain [2, 1, 3] (by decide) simpleGraph simpleGraph_same_as_chain 3
      (by decide)⟩

/-- C6: for every non-empty list `vs` of pairwise distinct ids, every graph whose
vertices are the ids of `vs` and whose edges are exactly those of the directed cycle
`v1 → v2 → ... → vn → v1`, whatever its iteration order, is sorted to the empty
sequence. -/
theorem TopologicalSort_single_cycle (vs : List Nat) (_hne : vs ≠ []) (_hvs : vs.Nodup)
    (g : OrientedGraph) (hV : ∀ x, g.HasVertex x = true ↔ x ∈ vs)
    (hE : ∀ a b, g.HasEdge a b = true ↔ (a, b) ∈ vs.zip (vs.rotate 1))
    (fuel : Nat) (hfuel : g.NumVertices ≤ fuel) : TopologicalSort fuel g = .ok [] := by
  apply TopologicalSort_noSink g _ _ fuel hfuel
  · intro a b hab
    have hm := List.of_mem_zip ((hE a b).1 hab)
    exact ⟨(hV a).2 hm.1, (hV b).2 (List.mem_rotate.1 hm.2)⟩
  · intro v ds hds hnil
    have hv : v ∈ vs := (hV v).1 (OrientedGraph.hasVertex_of_Edges hds)
    obtain ⟨b, hb⟩ := exists_mem_zip_of_mem vs (vs.rotate 1)
      (le_of_eq (List.length_rotate vs 1).symm) v hv
    have hmem : b ∈ ds := (OrientedGraph.edge_iff_of_Edges hds b).1 ((hE v b).2 hb)
    rw [hnil] at hmem
    cases hmem

/-- Witness of C6: the cycle 1 → 2 → 3 → 1 of `CyclicTest`. -/
theorem TopologicalSort_single_cycle_witness :
    (cycleGraph [1, 2, 3]).HasEdge 3 1 = true ∧
      (cycleGraph [1, 2, 3]).NumVertices ≤ 3 ∧
      TopologicalSort 3 (cycleGraph [1, 2, 3]) = .ok [] :=
  ⟨by decide, by decide,
    TopologicalSort_single_cycle [1, 2, 3] (by decide) (by decide) (cycleGraph [1, 2, 3])
      (cycleGraph_hasVertex _) (cycleGraph_hasEdge _) 3 (by decide)⟩

/-! ## `OrientedGraph::AddEdge`: statements of the claims -/

/-- C11, failing input: after `AddEdge(1, 2)` on the empty `OrientedGraph` the
source 1 satisfies `HasVertex` but the target 2 does not, although the edge 1 → 2 is
stored and 2 has an entry in `incomingEdges`. -/
theorem OrientedGraph.AddEdge_target_not_vertex :
    (OrientedGraph.empty.AddEdge 1 2).HasVertex 1 = true ∧
      (OrientedGraph.empty.AddEdge 1 2).HasVertex 2 = false ∧
      (OrientedGraph.empty.AddEdge 1 2).HasEdge 1 2 = true ∧
      (OrientedGraph.empty.AddEdge 1 2).IncomingEdges 2 = some [1] :=
  ⟨by decide, by decide, by decide, by decide⟩

/-- C12: for every `OrientedGraph` state and all ids `src ≠ dst`, after
`AddEdge(src, dst)` the edge `(src, dst)` is present, `HasEdge(dst, src)` has the same
value as before, and `HasEdge(c, d)` is unchanged for every other ordered pair. -/
theorem OrientedGraph.AddEdge_frame (g : OrientedGraph) (src dst : Nat) (hne : src ≠ dst) :
    (g.AddEdge src dst).HasEdge src dst = true ∧
      (g.AddEdge src dst).HasEdge dst src = g.HasEdge dst src ∧
      ∀ c d, (c, d) ≠ (src, dst) → (g.AddEdge src dst).HasEdge c d = g.HasEdge c d := by
  have key : ∀ c d, (g.AddEdge src dst).HasEdge c d = true ↔
      (g.HasEdge c d = true ∨ (c = src ∧ d = dst)) := by
    intro c d
    rw [OrientedGraph.oriented_hasEdge_iff, OrientedGraph.oriented_hasEdge_iff]
    exact AdjMap.rel_insertAt g.edges src dst c d
  refine ⟨(key src dst).2 (Or.inr ⟨rfl, rfl⟩), ?_, ?_⟩
  · rw [Bool.eq_iff_iff, key]
    constructor
    · rintro (h | ⟨h1, -⟩)
      · exact h
      · exact absurd h1.symm hne
    · exact Or.inl
  · intro c d hcd
    rw [Bool.eq_iff_iff, key]
    constructor
    · rintro (h | ⟨h1, h2⟩)
      · exact h
      · exact absurd (by rw [h1, h2]) hcd
    · exact Or.inl

/-- Witness of C12: adding 3 → 2 to the graph of `SimpleTest` (edges 2 → 1, 1 → 3). -/
theorem OrientedGraph.AddEdge_frame_witness :
    (3 : Nat) ≠ 2 ∧ (simpleGraph.AddEdge 3 2).HasEdge 3 2 = true ∧
      (simpleGraph.AddEdge 3 2).HasEdge 2 3 = simpleGraph.HasEdge 2 3 ∧
      (simpleGraph.AddEdge 3 2).HasEdge 2 1 = simpleGraph.HasEdge 2 1 :=
  ⟨by decide, (OrientedGraph.AddEdge_frame simpleGraph 3 2 (by decide)).1,
    (OrientedGraph.AddEdge_frame simpleGraph 3 2 (by decide)).2.1,
    (OrientedGraph.AddEdge_frame simpleGraph 3 2 (by decide)).2.2 2 1 (by decide)⟩

/-! ## Operations of `OrientedGraph` on a half-registered vertex -/

/-- C16, failing input: in the state left by `AddEdge(1, 2)` the id 2 is absent
(`HasVertex(2)` is false), yet `RemoveVertex(2)` changes both maps: the edge 1 → 2
disappears and the entry of 2 in `incomingEdges` is dropped. -/
theorem OrientedGraph.RemoveVertex_absent_changes :
    danglingEdgeGraph.HasVertex 2 = false ∧
      danglingEdgeGraph.HasEdge 1 2 = true ∧
      (danglingEdgeGraph.RemoveVertex 2).HasEdge 1 2 = false ∧
      danglingEdgeGraph.edges = [(1, [2])] ∧
      (danglingEdgeGraph.RemoveVertex 2).edges = [(1, [])] ∧
      danglingEdgeGraph.incomingEdges = [(2, [1])] ∧
      (danglingEdgeGraph.RemoveVertex 2).incomingEdges = [] :=
  ⟨by decide, by decide, by decide, by decide, by decide, by decide, by decide⟩

/-- C19, failing input: in the state left by `AddEdge(1, 2)` the id 1 is present
(`HasVertex(1)` is true), yet `AddVertex(1)` changes `incomingEdges`: before the call
`IncomingEdges(1)` fails with `std::out_of_range`, after it the empty set is returned. -/
theorem OrientedGraph.AddVertex_present_changes :
    danglingEdgeGraph.HasVertex 1 = true ∧
      danglingEdgeGraph.IncomingEdges 1 = none ∧
      (danglingEdgeGraph.AddVertex 1).IncomingEdges 1 = some [] ∧
      danglingEdgeGraph.incomingEdges = [(2, [1])] ∧
      (danglingEdgeGraph.AddVertex 1).incomingEdges = [(2, [1]), (1, [])] :=
  ⟨by decide, by decide, by decide, by decide, by decide⟩

/-! ## Removal in `Graph`: statements of the claims -/

/-- C13: in every reachable state of the undirected `Graph` and for every id `v`,
after `RemoveVertex(v)`: `HasVertex(v)` is false, `Edges(v)` fails with
`std::out_of_range`, and `HasEdge(v, x)` and `HasEdge(x, v)` are false for every `x`. -/
theorem Graph.RemoveVertex_removes (ops : List Op) (v : Nat) :
    ((Graph.run ops).RemoveVertex v).HasVertex v = false ∧
      ((Graph.run ops).RemoveVertex v).Edges v = none ∧
      ∀ x, ((Graph.run ops).RemoveVertex v).HasEdge v x = false ∧
        ((Graph.run ops).RemoveVertex v).HasEdge x v = false := by
  have hi := Graph.inv_run ops
  have hv : ((Graph.run ops).RemoveVertex v).HasVertex v = false := by
    rw [Bool.eq_false_iff]
    intro h
    rw [Graph.hasVertex_iff_has, Graph.has_RemoveVertex] at h
    obtain ⟨h1 | h1, h2⟩ := h
    · exact h2 h1 rfl
    · exact h2 (AdjMap.has_of_rel h1) rfl
  refine ⟨hv, ?_, ?_⟩
  · unfold Graph.HasVertex at hv
    unfold Graph.Edges
    cases hf : AdjMap.find ((Graph.run ops).RemoveVertex v).edges v with
    | none => rfl
    | some s => rw [hf] at hv; cases hv
  · intro x
    constructor
    · rw [Bool.eq_false_iff]
      intro h
      rw [Graph.hasEdge_iff_rel, Graph.rel_RemoveVertex] at h
      exact h.2.1 rfl
    · rw [Bool.eq_false_iff]
      intro h
      rw [Graph.hasEdge_iff_rel, Graph.rel_RemoveVertex] at h
      exact h.2.2 ⟨hi.symm x v h.1, rfl⟩

/-- Witness of C13: vertices 1, 2, 3, edge (1, 2), then vertex 2 removed. -/
theorem Graph.RemoveVertex_removes_witness :
    (Graph.run removalScenarioOps).HasEdge 1 2 = true ∧
      ((Graph.run removalScenarioOps).RemoveVertex 2).HasVertex 2 = false ∧
      ((Graph.run removalScenarioOps).RemoveVertex 2).HasEdge 1 2 = false ∧
      ((Graph.run removalScenarioOps).RemoveVertex 2).HasEdge 2 1 = false ∧
      ((Graph.run removalScenarioOps).RemoveVertex 2).HasVertex 1 = true :=
  ⟨by decide, (Graph.RemoveVertex_removes removalScenarioOps 2).1,
    ((Graph.RemoveVertex_removes removalScenarioOps 2).2.2 1).2,
    ((Graph.RemoveVertex_removes removalScenarioOps 2).2.2 1).1, by decide⟩

/-- C14: in every reachable state of the undirected `Graph` and for every id `v`,
`RemoveVertex(v)` leaves `HasVertex(u)` unchanged for every `u ≠ v` and `HasEdge(a, b)`
unchanged for all `a`, `b` different from `v`; in particular no vertex is created. -/
theorem Graph.RemoveVertex_frame (ops : List Op) (v : Nat) :
    (∀ u, u ≠ v →
        ((Graph.run ops).RemoveVertex v).HasVertex u = (Graph.run ops).HasVertex u) ∧
      (∀ a b, a ≠ v → b ≠ v →
        ((Graph.run ops).RemoveVertex v).HasEdge a b = (Graph.run ops).HasEdge a b) ∧
      (∀ u, ((Graph.run ops).RemoveVertex v).HasVertex u = true →
        (Graph.run ops).HasVertex u = true) := by
  have hi := Graph.inv_run ops
  refine ⟨?_, ?_, ?_⟩
  · intro u hu
    rw [Bool.eq_iff_iff, Graph.hasVertex_iff_has, Graph.hasVertex_iff_has,
      Graph.has_RemoveVertex]
    constructor
    · rintro ⟨h1 | h1, -⟩
      · exact h1
      · exact hi.closed v u h1
    · exact fun h => ⟨Or.inl h, fun _ => hu⟩
  · intro a b ha hb
    rw [Bool.eq_iff_iff, Graph.hasEdge_iff_rel, Graph.hasEdge_iff_rel,
      Graph.rel_RemoveVertex]
    constructor
    · exact fun h => h.1
    · exact fun h => ⟨h, ha, fun h2 => hb h2.2⟩
  · intro u
    rw [Graph.hasVertex_iff_has, Graph.hasVertex_iff_has, Graph.has_RemoveVertex]
    rintro ⟨h1 | h1, -⟩
    · exact h1
    · exact hi.closed v u h1

/-- Witness of C14: vertices 1, 2, 3, edge (1, 2), then vertex 3 removed. -/
theorem Graph.RemoveVertex_frame_witness :
    ((Graph.run removalScenarioOps).RemoveVertex 3).HasVertex 1 =
        (Graph.run removalScenarioOps).HasVertex 1 ∧
      ((Graph.run removalScenarioOps).RemoveVertex 3).HasEdge 1 2 =
        (Graph.run removalScenarioOps).HasEdge 1 2 ∧
      (Graph.run removalScenarioOps).HasEdge 1 2 = true ∧
      ((Graph.run removalScenarioOps).RemoveVertex 3).HasVertex 2 = true ∧
      (Graph.run removalScenarioOps).HasVertex 2 = true :=
  ⟨(Graph.RemoveVertex_frame removalScenarioOps 3).1 1 (by decide),
    (Graph.RemoveVertex_frame removalScenarioOps 3).2.1 1 2 (by decide) (by decide),
    by decide, by decide,
    (Graph.RemoveVertex_frame removalScenarioOps 3).2.2 2 (by decide)⟩

/-- C17: in every state of the undirected `Graph` (reachable or not) and for all ids
`a`, `b`, after `RemoveEdge(a, b)`: `HasEdge(a, b)` and `HasEdge(b, a)` are false,
`HasVertex` is unchanged for every id, and `HasEdge(c, d)` is unchanged for every pair
other than `(a, b)` and `(b, a)`. -/
theorem Graph.RemoveEdge_effect (g : Graph) (a b : Nat) :
    (g.RemoveEdge a b).HasEdge a b = false ∧ (g.RemoveEdge a b).HasEdge b a = false ∧
      (∀ x, (g.RemoveEdge a b).HasVertex x = g.HasVertex x) ∧
      (∀ c d, (c, d) ≠ (a, b) → (c, d) ≠ (b, a) →
        (g.RemoveEdge a b).HasEdge c d = g.HasEdge c d) := by
  refine ⟨?_, ?_, ?_, ?_⟩
  · rw [Bool.eq_false_iff]
    intro h
    rw [Graph.hasEdge_iff_rel, Graph.rel_RemoveEdge] at h
    exact h.2.1 ⟨rfl, rfl⟩
  · rw [Bool.eq_false_iff]
    intro h
    rw [Graph.hasEdge_iff_rel, Graph.rel_RemoveEdge] at h
    exact h.2.2 ⟨rfl, rfl⟩
  · intro x
    rw [Bool.eq_iff_iff, Graph.hasVertex_iff_has, Graph.hasVertex_iff_has,
      Graph.has_RemoveEdge]
  · intro c d h1 h2
    rw [Bool.eq_iff_iff, Graph.hasEdge_iff_rel, Graph.hasEdge_iff_rel, Graph.rel_RemoveEdge]
    constructor
    · exact fun h => h.1
    · intro h
      refine ⟨h, ?_, ?_⟩
      · rintro ⟨hc, hd⟩
        exact h1 (by rw [hc, hd])
      · rintro ⟨hc, hd⟩
        exact h2 (by rw [hc, hd])

/-- Witness of C17: vertices 1, 2, 3 and edges (1, 2), (2, 3); the edge (1, 2) is
removed, the edge (2, 3) and the vertices stay. -/
theorem Graph.RemoveEdge_effect_witness :
    ((Graph.run removalScenarioOps).AddEdge 2 3).HasEdge 1 2 = true ∧
      (((Graph.run removalScenarioOps).AddEdge 2 3).RemoveEdge 1 2).HasEdge 1 2 = false ∧
      (((Graph.run removalScenarioOps).AddEdge 2 3).RemoveEdge 1 2).HasEdge 2 1 = false ∧
      (((Graph.run removalScenarioOps).AddEdge 2 3).RemoveEdge 1 2).HasVertex 1 =
        ((Graph.run removalScenarioOps).AddEdge 2 3).HasVertex 1 ∧
      (((Graph.run removalScenarioOps).AddEdge 2 3).RemoveEdge 1 2).HasEdge 2 3 =
        ((Graph.run removalScenarioOps).AddEdge 2 3).HasEdge 2 3 ∧
      ((Graph.run removalScenarioOps).AddEdge 2 3).HasEdge 2 3 = true :=
  ⟨by decide,
    (Graph.RemoveEdge_effect ((Graph.run removalScenarioOps).AddEdge 2 3) 1 2).1,
    (Graph.RemoveEdge_effect ((Graph.run removalScenarioOps).AddEdge 2 3) 1 2).2.1,
    (Graph.RemoveEdge_effect ((Graph.run removalScenarioOps).AddEdge 2 3) 1 2).2.2.1 1,
    (Graph.RemoveEdge_effect ((Graph.run removalScenarioOps).AddEdge 2 3) 1 2).2.2.2 2 3
      (by decide) (by decide),
    by decide⟩

/-! ## `OrientedGraph::RemoveVertex` on a graph with mirrored maps -/

theorem OrientedGraph.hasOut_removeOutgoing (g : OrientedGraph) (x k : Nat) :
    AdjMap.has (g.removeOutgoing x).edges k ↔ AdjMap.has g.edges k ∧ k ≠ x := by
  unfold OrientedGraph.removeOutgoing
  cases hf : AdjMap.find g.edges x with
  | none =>
    constructor
    · intro h
      refine ⟨h, ?_⟩
      rintro rfl
      simp [AdjMap.has, hf] at h
    · exact fun h => h.1
  | some s => simp only [AdjMap.has_eraseKey]

theorem OrientedGraph.hasIn_removeOutgoing (g : OrientedGraph) (x k : Nat) :
    AdjMap.has (g.removeOutgoing x).incomingEdges k ↔
      AdjMap.has g.incomingEdges k ∨ (AdjMap.rel g.edges x k ∧ k ≠ x) := by
  unfold OrientedGraph.removeOutgoing
  cases hf : AdjMap.find g.edges x with
  | none =>
    have hx : ∀ c, ¬ AdjMap.rel g.edges x c := by
      rintro c ⟨s, hs, -⟩
      rw [hf] at hs
      cases hs
    simp [hx]
  | some s =>
    have hs : ∀ c, AdjMap.rel g.edges x c ↔ c ∈ s := by
      intro c
      simp [AdjMap.rel, hf]
    simp only [AdjMap.has_eraseBackRefs, hs]

theorem OrientedGraph.hasIn_removeIncoming (g : OrientedGraph) (x k : Nat) :
    AdjMap.has (g.removeIncoming x).incomingEdges k ↔
      AdjMap.has g.incomingEdges k ∧ k ≠ x := by
  unfold OrientedGraph.removeIncoming
  cases hf : AdjMap.find g.incomingEdges x with
  | none =>
    constructor
    · intro h
      refine ⟨h, ?_⟩
      rintro rfl
      simp [AdjMap.has, hf] at h
    · exact fun h => h.1
  | some s => simp only [AdjMap.has_eraseKey]

theorem OrientedGraph.hasOut_removeIncoming (g : OrientedGraph) (x k : Nat) :
    AdjMap.has (g.removeIncoming x).edges k ↔
      AdjMap.has g.edges k ∨ (AdjMap.rel g.incomingEdges x k ∧ k ≠ x) := by
  unfold OrientedGraph.removeIncoming
  cases hf : AdjMap.find g.incomingEdges x with
  | none =>
    have hx : ∀ c, ¬ AdjMap.rel g.incomingEdges x c := by
      rintro c ⟨s, hs, -⟩
      rw [hf] at hs
      cases hs
    simp [hx]
  | some s =>
    have hs : ∀ c, AdjMap.rel g.incomingEdges x c ↔ c ∈ s := by
      intro c
      simp [AdjMap.rel, hf]
    simp only [AdjMap.has_eraseBackRefs, hs]

theorem OrientedGraph.relOut_RemoveVertex (g : OrientedGraph) (hm : g.Mirror)
    (v a b : Nat) :
    AdjMap.rel (g.RemoveVertex v).edges a b ↔ AdjMap.rel g.edges a b ∧ a ≠ v ∧ b ≠ v := by
  simp only [OrientedGraph.RemoveVertex, OrientedGraph.out_removeIncoming,
    OrientedGraph.in_removeOutgoing, OrientedGraph.out_removeOutgoing]
  constructor
  · rintro ⟨⟨h1, h2⟩, h3⟩
    refine ⟨h1, h2, ?_⟩
    intro hb
    subst hb
    exact h3 ⟨⟨(hm a b).1 h1, fun h5 => h5.2.1 rfl⟩, h2, rfl⟩
  · rintro ⟨h1, h2, h3⟩
    exact ⟨⟨h1, h2⟩, fun h4 => h3 h4.2.2⟩

theorem OrientedGraph.relIn_RemoveVertex (g : OrientedGraph) (hm : g.Mirror)
    (v a b : Nat) :
    AdjMap.rel (g.RemoveVertex v).incomingEdges a b ↔
      AdjMap.rel g.incomingEdges a b ∧ a ≠ v ∧ b ≠ v := by
  simp only [OrientedGraph.RemoveVertex, OrientedGraph.in_removeIncoming,
    OrientedGraph.in_removeOutgoing]
  constructor
  · rintro ⟨⟨h1, h2⟩, h3⟩
    refine ⟨h1, h3, ?_⟩
    intro hb
    subst hb
    exact h2 ⟨(hm b a).2 h1, h3, rfl⟩
  · rintro ⟨h1, h2, h3⟩
    exact ⟨⟨h1, fun h4 => h3 h4.2.2⟩, h2⟩

theorem OrientedGraph.hasOut_RemoveVertex (g : OrientedGraph) (hm : g.Mirror)
    (v k : Nat) :
    AdjMap.has (g.RemoveVertex v).edges k ↔ AdjMap.has g.edges k ∧ k ≠ v := by
  simp only [OrientedGraph.RemoveVertex, OrientedGraph.hasOut_removeIncoming,
    OrientedGraph.in_removeOutgoing, OrientedGraph.hasOut_removeOutgoing]
  constructor
  · rintro (h | ⟨⟨h1, -⟩, h2⟩)
    · exact h
    · exact ⟨AdjMap.has_of_rel ((hm k v).2 h1), h2⟩
  · exact Or.inl

theorem OrientedGraph.hasIn_RemoveVertex (g : OrientedGraph) (hm : g.Mirror)
    (v k : Nat) :
    AdjMap.has (g.RemoveVertex v).incomingEdges k ↔
      AdjMap.has g.incomingEdges k ∧ k ≠ v := by
  simp only [OrientedGraph.RemoveVertex, OrientedGraph.hasIn_removeIncoming,
    OrientedGraph.hasIn_removeOutgoing]
  constructor
  · rintro ⟨h | ⟨h1, -⟩, h2⟩
    · exact ⟨h, h2⟩
    · exact ⟨AdjMap.has_of_rel ((hm v k).1 h1), h2⟩
  · rintro ⟨h1, h2⟩
    exact ⟨Or.inl h1, h2⟩

theorem AdjMap.not_mem_of_not_rel {m : AdjMap} {v : Nat} (h : ∀ k, ¬ AdjMap.rel m k v)
    (k : Nat) (s : IdSet) (hs : AdjMap.find m k = some s) : v ∉ s :=
  fun hv => h k ⟨s, hs, hv⟩

theorem AdjMap.find_eq_none_of_not_has {m : AdjMap} {k : Nat} (h : ¬ AdjMap.has m k) :
    AdjMap.find m k = none := by
  cases hf : AdjMap.find m k with
  | none => rfl
  | some s => exact absurd (by simp [AdjMap.has, hf]) h

/-- C15: in every reachable `OrientedGraph` state and for every id `v` with
`HasVertex(v)`, after `RemoveVertex(v)`: `HasVertex(v)` is false, `HasEdge(v, x)` and
`HasEdge(x, v)` are false for every `x`, `v` occurs in no outgoing and in no incoming
set, `v` has no entry in either map, and `HasEdge(a, b)` is unchanged for all `a`, `b`
different from `v`. -/
theorem OrientedGraph.RemoveVertex_removes_present (ops : List Op) (v : Nat)
    (_hv : (OrientedGraph.run ops).HasVertex v = true) :
    ((OrientedGraph.run ops).RemoveVertex v).HasVertex v = false ∧
      (∀ x, ((OrientedGraph.run ops).RemoveVertex v).HasEdge v x = false ∧
        ((OrientedGraph.run ops).RemoveVertex v).HasEdge x v = false) ∧
      (∀ k s, ((OrientedGraph.run ops).RemoveVertex v).Edges k = some s → v ∉ s) ∧
      (∀ k s, ((OrientedGraph.run ops).RemoveVertex v).IncomingEdges k = some s → v ∉ s) ∧
      ((OrientedGraph.run ops).RemoveVertex v).Edges v = none ∧
      ((OrientedGraph.run ops).RemoveVertex v).IncomingEdges v = none ∧
      (∀ a b, a ≠ v → b ≠ v →
        ((OrientedGraph.run ops).RemoveVertex v).HasEdge a b =
          (OrientedGraph.run ops).HasEdge a b) := by
  have hm := OrientedGraph.mirror_run ops
  have hout : ∀ a b, ¬ (a ≠ v ∧ b ≠ v) →
      ¬ AdjMap.rel ((OrientedGraph.run ops).RemoveVertex v).edges a b := by
    intro a b hab h
    rw [OrientedGraph.relOut_RemoveVertex _ hm] at h
    exact hab h.2
  have hin : ∀ a b, ¬ (a ≠ v ∧ b ≠ v) →
      ¬ AdjMap.rel ((OrientedGraph.run ops).RemoveVertex v).incomingEdges a b := by
    intro a b hab h
    rw [OrientedGraph.relIn_RemoveVertex _ hm] at h
    exact hab h.2
  have hnoOut : ¬ AdjMap.has ((OrientedGraph.run ops).RemoveVertex v).edges v := by
    rw [OrientedGraph.hasOut_RemoveVertex _ hm]
    exact fun h => h.2 rfl
  have hnoIn : ¬ AdjMap.has ((OrientedGraph.run ops).RemoveVertex v).incomingEdges v := by
    rw [OrientedGraph.hasIn_RemoveVertex _ hm]
    exact fun h => h.2 rfl
  refine ⟨?_, ?_, ?_, ?_, ?_, ?_, ?_⟩
  · rw [Bool.eq_false_iff]
    exact fun h => hnoOut ((OrientedGraph.oriented_hasVertex_iff _ _).1 h)
  · intro x
    constructor
    · rw [Bool.eq_false_iff]
      exact fun h => hout v x (fun h2 => h2.1 rfl) ((OrientedGraph.oriented_hasEdge_iff _ _ _).1 h)
    · rw [Bool.eq_false_iff]
      exact fun h => hout x v (fun h2 => h2.2 rfl) ((OrientedGraph.oriented_hasEdge_iff _ _ _).1 h)
  · exact AdjMap.not_mem_of_not_rel (fun k => hout k v (fun h2 => h2.2 rfl))
  · exact AdjMap.not_mem_of_not_rel (fun k => hin k v (fun h2 => h2.2 rfl))
  · exact AdjMap.find_eq_none_of_not_has hnoOut
  · exact AdjMap.find_eq_none_of_not_has hnoIn
  · intro a b ha hb
    rw [Bool.eq_iff_iff, OrientedGraph.oriented_hasEdge_iff, OrientedGraph.oriented_hasEdge_iff,
      OrientedGraph.relOut_RemoveVertex _ hm]
    exact ⟨fun h => h.1, fun h => ⟨h, ha, hb⟩⟩

/-- Witness of C15: `AnotherSimpleTest`, vertices 1, 2 and edge 1 → 2, then vertex 2
removed. -/
theorem OrientedGraph.RemoveVertex_removes_present_witness :
    (OrientedGraph.run anotherSimpleOps).HasVertex 2 = true ∧
      (OrientedGraph.run anotherSimpleOps).HasEdge 1 2 = true ∧
      ((OrientedGraph.run anotherSimpleOps).RemoveVertex 2).HasVertex 2 = false ∧
      ((OrientedGraph.run anotherSimpleOps).RemoveVertex 2).HasEdge 1 2 = false ∧
      ((OrientedGraph.run anotherSimpleOps).RemoveVertex 2).IncomingEdges 2 = none :=
  ⟨by decide, by decide,
    (OrientedGraph.RemoveVertex_removes_present anotherSimpleOps 2 (by decide)).1,
    ((OrientedGraph.RemoveVertex_removes_present anotherSimpleOps 2 (by decide)).2.1 1).2,
    (OrientedGraph.RemoveVertex_removes_present anotherSimpleOps 2
      (by decide)).2.2.2.2.2.1⟩

/-! ## Container operations that leave the container as it is -/

theorem IdSet.insert_eq_self {s : IdSet} {x : Nat} (h : x ∈ s) : IdSet.insert s x = s := by
  unfold IdSet.insert
  rw [if_pos h]

theorem IdSet.erase_eq_self {s : IdSet} {x : Nat} (h : x ∉ s) : IdSet.erase s x = s := by
  unfold IdSet.erase
  rw [List.filter_eq_self]
  intro a ha
  simp only [ne_eq, decide_eq_true_eq]
  rintro rfl
  exact h ha

theorem AdjMap.touch_eq_self {m : AdjMap} {id : Nat} (h : AdjMap.has m id) :
    AdjMap.touch m id = m := by
  unfold AdjMap.touch
  obtain ⟨s, hs⟩ := (AdjMap.has_iff m id).1 h
  rw [hs]

theorem AdjMap.mem_touch {m : AdjMap} {id : Nat} {p : Nat × IdSet}
    (h : p ∈ AdjMap.touch m id) : p ∈ m ∨ p = (id, []) := by
  unfold AdjMap.touch at h
  cases hf : AdjMap.find m id with
  | some s =>
    rw [hf] at h
    exact Or.inl h
  | none =>
    rw [hf] at h
    simp only [List.mem_append, List.mem_singleton] at h
    exact h

theorem AdjMap.mem_modify {m : AdjMap} {id : Nat} {f : IdSet → IdSet} {p : Nat × IdSet}
    (h : p ∈ AdjMap.modify m id f) :
    ∃ q ∈ m, p = if q.1 = id then (q.1, f q.2) else q := by
  unfold AdjMap.modify at h
  obtain ⟨q, hq, hp⟩ := List.mem_map.1 h
  exact ⟨q, hq, hp.symm⟩

theorem AdjMap.modify_eq_self {m : AdjMap} {id : Nat} {f : IdSet → IdSet}
    (h : ∀ p ∈ m, p.1 = id → f p.2 = p.2) : AdjMap.modify m id f = m := by
  unfold AdjMap.modify
  conv_rhs => rw [← List.map_id m]
  apply List.map_congr_left
  intro p hp
  by_cases hpi : p.1 = id
  · rw [if_pos hpi, h p hp hpi]
    rfl
  · rw [if_neg hpi]
    rfl

theorem AdjMap.insertAt_eq_self {m : AdjMap} {id x : Nat} (hh : AdjMap.has m id)
    (ha : AdjMap.AllAt m id x) : AdjMap.insertAt m id x = m := by
  unfold AdjMap.insertAt
  rw [AdjMap.touch_eq_self hh]
  exact AdjMap.modify_eq_self (fun p hp hpi => IdSet.insert_eq_self (ha p hp hpi))

theorem AdjMap.eraseAt_eq_self {m : AdjMap} {id x : Nat} (hh : AdjMap.has m id)
    (hn : AdjMap.NoneAt m id x) : AdjMap.eraseAt m id x = m := by
  unfold AdjMap.eraseAt
  rw [AdjMap.touch_eq_self hh]
  exact AdjMap.modify_eq_self (fun p hp hpi => IdSet.erase_eq_self (hn p hp hpi))

theorem AdjMap.allAt_insertAt_self (m : AdjMap) (id x : Nat) :
    AdjMap.AllAt (AdjMap.insertAt m id x) id x := by
  intro p hp hpi
  obtain ⟨q, -, hq⟩ := AdjMap.mem_modify hp
  by_cases hqi : q.1 = id
  · rw [if_pos hqi] at hq
    rw [hq]
    exact (IdSet.mem_insert _ _ _).2 (Or.inr rfl)
  · rw [if_neg hqi] at hq
    rw [hq] at hpi
    exact absurd hpi hqi

theorem AdjMap.allAt_insertAt_of {m : AdjMap} {id x : Nat} (h : AdjMap.AllAt m id x)
    (id2 x2 : Nat) (hcase : id2 ≠ id ∨ x2 = x) :
    AdjMap.AllAt (AdjMap.insertAt m id2 x2) id x := by
  intro p hp hpi
  obtain ⟨q, hqm, hq⟩ := AdjMap.mem_modify hp
  by_cases hqi : q.1 = id2
  · rw [if_pos hqi] at hq
    rw [hq] at hpi ⊢
    simp only at hpi ⊢
    rcases hcase with hc | hc
    · exact absurd (hqi.symm.trans hpi) hc
    · rw [hc]
      exact (IdSet.mem_insert _ _ _).2 (Or.inr rfl)
  · rw [if_neg hqi] at hq
    rw [hq] at hpi ⊢
    rcases AdjMap.mem_touch hqm with hq2 | hq2
    · exact h q hq2 hpi
    · rw [hq2] at hqi
      exact absurd rfl hqi

theorem AdjMap.eq_of_mem_of_find {m : AdjMap} (hk : (AdjMap.keys m).Nodup) {id : Nat}
    {s : IdSet} (hf : AdjMap.find m id = some s) :
    ∀ p ∈ m, p.1 = id → p.2 = s := by
  induction m with
  | nil => intro p hp; cases hp
  | cons e rest ih =>
    obtain ⟨k, t⟩ := e
    simp only [AdjMap.keys, List.map_cons, List.nodup_cons] at hk
    intro p hp hpi
    by_cases hki : k = id
    · simp only [AdjMap.find, hki, if_true, Option.some.injEq] at hf
      rcases List.mem_cons.1 hp with h | h
      · rw [h]
        exact hf
      · exfalso
        apply hk.1
        rw [hki, ← hpi]
        exact List.mem_map.2 ⟨p, h, rfl⟩
    · simp only [AdjMap.find, hki, if_false] at hf
      rcases List.mem_cons.1 hp with h | h
      · rw [h] at hpi
        exact absurd hpi hki
      · exact ih hk.2 hf p h hpi

theorem AdjMap.allAt_of_rel {m : AdjMap} (hk : (AdjMap.keys m).Nodup) {id x : Nat}
    (h : AdjMap.rel m id x) : AdjMap.AllAt m id x := by
  obtain ⟨s, hs, hx⟩ := h
  intro p hp hpi
  rw [AdjMap.eq_of_mem_of_find hk hs p hp hpi]
  exact hx

theorem AdjMap.noneAt_of_not_rel {m : AdjMap} (hk : (AdjMap.keys m).Nodup) {id x : Nat}
    (h : ¬ AdjMap.rel m id x) : AdjMap.NoneAt m id x := by
  intro p hp hpi hx
  cases hf : AdjMap.find m id with
  | none =>
    have hmem : id ∈ AdjMap.keys m := List.mem_map.2 ⟨p, hp, hpi⟩
    have := (AdjMap.find_isSome_iff_mem_keys m id).2 hmem
    rw [hf] at this
    cases this
  | some s =>
    apply h
    refine ⟨s, hf, ?_⟩
    rw [← AdjMap.eq_of_mem_of_find hk hf p hp hpi]
    exact hx

/-! ## The keys of a reachable `Graph` are pairwise distinct -/

theorem Graph.keys_nodup_step (g : Graph) (op : Op) (h : g.DistinctKeys) :
    (g.step op).DistinctKeys := by
  unfold Graph.DistinctKeys at h ⊢
  cases op with
  | AddVertex x => exact AdjMap.keys_touch_nodup _ _ h
  | AddEdge x y =>
    exact AdjMap.keys_insertAt_nodup _ _ _ (AdjMap.keys_insertAt_nodup _ _ _ h)
  | RemoveVertex x =>
    show (AdjMap.keys (g.RemoveVertex x).edges).Nodup
    unfold Graph.RemoveVertex
    cases hf : AdjMap.find g.edges x with
    | none => exact h
    | some s =>
      exact AdjMap.keys_eraseKey_nodup _ _ (AdjMap.keys_eraseBackRefs_nodup _ _ _ h)
  | RemoveEdge x y =>
    have key : ∀ (m : AdjMap) (u v : Nat), (AdjMap.keys m).Nodup →
        (AdjMap.keys (if (AdjMap.find m u).isSome then AdjMap.eraseAt m u v else m)).Nodup := by
      intro m u v hm
      by_cases hu : (AdjMap.find m u).isSome = true
      · rw [if_pos hu]
        exact AdjMap.keys_eraseAt_nodup _ _ _ hm
      · rw [if_neg hu]
        exact hm
    exact key _ y x (key _ x y h)

theorem Graph.keys_nodup_foldl (ops : List Op) (g : Graph) (h : g.DistinctKeys) :
    (ops.foldl Graph.step g).DistinctKeys := by
  induction ops generalizing g with
  | nil => exact h
  | cons op ops ih => exact ih _ (Graph.keys_nodup_step g op h)

/-- Every `Graph` obtained from the empty graph by calls of the public operations has
pairwise distinct keys. -/
theorem Graph.keys_nodup_run (ops : List Op) : (Graph.run ops).DistinctKeys :=
  Graph.keys_nodup_foldl ops _ List.nodup_nil

/-! ## No-op conditions of `Graph` -/

theorem Graph.AddVertex_eq_self (g : Graph) (x : Nat) (h : g.HasVertex x = true) :
    g.AddVertex x = g := by
  unfold Graph.AddVertex
  rw [AdjMap.touch_eq_self ((g.hasVertex_iff_has x).1 h)]

theorem Graph.AddEdge_eq_self (g : Graph) (hk : g.DistinctKeys) (hi : g.Inv) (a b : Nat)
    (h : g.HasEdge a b = true) : g.AddEdge a b = g := by
  have hab : AdjMap.rel g.edges a b := (g.hasEdge_iff_rel a b).1 h
  have hba : AdjMap.rel g.edges b a := hi.symm a b hab
  unfold Graph.AddEdge
  rw [AdjMap.insertAt_eq_self (AdjMap.has_of_rel hab) (AdjMap.allAt_of_rel hk hab),
    AdjMap.insertAt_eq_self (AdjMap.has_of_rel hba) (AdjMap.allAt_of_rel hk hba)]

theorem Graph.RemoveVertex_eq_self (g : Graph) (x : Nat) (h : g.HasVertex x = false) :
    g.RemoveVertex x = g := by
  unfold Graph.HasVertex at h
  unfold Graph.RemoveVertex
  cases hf : AdjMap.find g.edges x with
  | none => rfl
  | some s => rw [hf] at h; cases h

theorem AdjMap.guarded_eraseAt_eq_self (m : AdjMap) (hk : (AdjMap.keys m).Nodup)
    (u v : Nat) (h : ¬ AdjMap.rel m u v) :
    (if (AdjMap.find m u).isSome then AdjMap.eraseAt m u v else m) = m := by
  by_cases hu : (AdjMap.find m u).isSome = true
  · rw [if_pos hu]
    exact AdjMap.eraseAt_eq_self hu (AdjMap.noneAt_of_not_rel hk h)
  · rw [if_neg hu]

theorem Graph.RemoveEdge_eq_self (g : Graph) (hk : g.DistinctKeys) (hi : g.Inv) (a b : Nat)
    (h : g.HasEdge a b = false) : g.RemoveEdge a b = g := by
  have hab : ¬ AdjMap.rel g.edges a b := by
    intro hr
    rw [(g.hasEdge_iff_rel a b).2 hr] at h
    cases h
  have hba : ¬ AdjMap.rel g.edges b a := fun hr => hab (hi.symm b a hr)
  unfold Graph.RemoveEdge
  simp only
  rw [AdjMap.guarded_eraseAt_eq_self g.edges hk a b hab,
    AdjMap.guarded_eraseAt_eq_self g.edges hk b a hba]

/-- C18: in every reachable state of the undirected `Graph` each no-op condition
leaves the state exactly unchanged: `AddVertex(x)` when `HasVertex(x)`, `AddEdge(a, b)`
when `HasEdge(a, b)`, `RemoveVertex(x)` when not `HasVertex(x)`, and `RemoveEdge(a, b)`
when not `HasEdge(a, b)`.  The four operations are total functions of the state, so
nothing is raised. -/
theorem Graph.noop_conditions (ops : List Op) :
    (∀ x, (Graph.run ops).HasVertex x = true →
        (Graph.run ops).AddVertex x = Graph.run ops) ∧
      (∀ a b, (Graph.run ops).HasEdge a b = true →
        (Graph.run ops).AddEdge a b = Graph.run ops) ∧
      (∀ x, (Graph.run ops).HasVertex x = false →
        (Graph.run ops).RemoveVertex x = Graph.run ops) ∧
      (∀ a b, (Graph.run ops).HasEdge a b = false →
        (Graph.run ops).RemoveEdge a b = Graph.run ops) :=
  ⟨fun x h => Graph.AddVertex_eq_self _ x h,
    fun a b h => Graph.AddEdge_eq_self _ (Graph.keys_nodup_run ops) (Graph.inv_run ops) a b h,
    fun x h => Graph.RemoveVertex_eq_self _ x h,
    fun a b h =>
      Graph.RemoveEdge_eq_self _ (Graph.keys_nodup_run ops) (Graph.inv_run ops) a b h⟩

/-- Witness of C18 in the state with vertices 1, 2, 3 and the edge (1, 2). -/
theorem Graph.noop_conditions_witness :
    (Graph.run removalScenarioOps).AddVertex 3 = Graph.run removalScenarioOps ∧
      (Graph.run removalScenarioOps).AddEdge 2 1 = Graph.run removalScenarioOps ∧
      (Graph.run removalScenarioOps).RemoveVertex 7 = Graph.run removalScenarioOps ∧
      (Graph.run removalScenarioOps).RemoveEdge 1 3 = Graph.run removalScenarioOps :=
  ⟨(Graph.noop_conditions removalScenarioOps).1 3 (by decide),
    (Graph.noop_conditions removalScenarioOps).2.1 2 1 (by decide),
    (Graph.noop_conditions removalScenarioOps).2.2.1 7 (by decide),
    (Graph.noop_conditions removalScenarioOps).2.2.2 1 3 (by decide)⟩

/-! ## Idempotence of insertion -/

theorem AdjMap.touch_touch (m : AdjMap) (id : Nat) :
    AdjMap.touch (AdjMap.touch m id) id = AdjMap.touch m id :=
  AdjMap.touch_eq_self ((AdjMap.has_touch m id id).2 (Or.inr rfl))

theorem AdjMap.insertAt_insertAt (m : AdjMap) (id x : Nat) :
    AdjMap.insertAt (AdjMap.insertAt m id x) id x = AdjMap.insertAt m id x :=
  AdjMap.insertAt_eq_self ((AdjMap.has_insertAt m id x id).2 (Or.inr rfl))
    (AdjMap.allAt_insertAt_self m id x)

theorem Graph.AddEdge_AddEdge (g : Graph) (a b : Nat) :
    (g.AddEdge a b).AddEdge a b = g.AddEdge a b := by
  have h1 : AdjMap.insertAt ((g.edges.insertAt a b).insertAt b a) a b =
      (g.edges.insertAt a b).insertAt b a := by
    apply AdjMap.insertAt_eq_self
    · rw [AdjMap.has_insertAt, AdjMap.has_insertAt]
      exact Or.inl (Or.inr rfl)
    · apply AdjMap.allAt_insertAt_of (AdjMap.allAt_insertAt_self g.edges a b)
      by_cases hab : b = a
      · exact Or.inr hab.symm
      · exact Or.inl hab
  have h2 : AdjMap.insertAt ((g.edges.insertAt a b).insertAt b a) b a =
      (g.edges.insertAt a b).insertAt b a :=
    AdjMap.insertAt_insertAt _ b a
  show Graph.mk (AdjMap.insertAt (AdjMap.insertAt ((g.edges.insertAt a b).insertAt b a) a b)
    b a) = Graph.mk ((g.edges.insertAt a b).insertAt b a)
  rw [h1, h2]

/-- C20: insertion is idempotent in `Graph` and in `OrientedGraph`, for every state
and all ids: a second `AddVertex(x)` and a second `AddEdge(a, b)` leave the state as
the first call left it. -/
theorem insertion_idempotent (g : Graph) (h : OrientedGraph) (x a b : Nat) :
    (g.AddVertex x).AddVertex x = g.AddVertex x ∧
      (g.AddEdge a b).AddEdge a b = g.AddEdge a b ∧
      (h.AddVertex x).AddVertex x = h.AddVertex x ∧
      (h.AddEdge a b).AddEdge a b = h.AddEdge a b := by
  refine ⟨?_, Graph.AddEdge_AddEdge g a b, ?_, ?_⟩
  · show Graph.mk (AdjMap.touch (AdjMap.touch g.edges x) x) = Graph.mk (AdjMap.touch g.edges x)
    rw [AdjMap.touch_touch]
  · show OrientedGraph.mk (AdjMap.touch (AdjMap.touch h.edges x) x)
        (AdjMap.touch (AdjMap.touch h.incomingEdges x) x) =
      OrientedGraph.mk (AdjMap.touch h.edges x) (AdjMap.touch h.incomingEdges x)
    rw [AdjMap.touch_touch, AdjMap.touch_touch]
  · show OrientedGraph.mk (AdjMap.insertAt (AdjMap.insertAt h.edges a b) a b)
        (AdjMap.insertAt (AdjMap.insertAt h.incomingEdges b a) b a) =
      OrientedGraph.mk (AdjMap.insertAt h.edges a b) (AdjMap.insertAt h.incomingEdges b a)
    rw [AdjMap.insertAt_insertAt, AdjMap.insertAt_insertAt]

/-! ## The adjacency accessors: statements of the claims -/

/-- C21: in every state of the undirected `Graph` and for every id, `Edges(id)` and
`IncomingEdges(id)` fail with `std::out_of_range` if and only if `HasVertex(id)` is
false; otherwise both return the same set, whose members are exactly the `b` with
`HasEdge(id, b)`. -/
theorem Graph.Edges_iff_hasVertex (g : Graph) (id : Nat) :
    (g.Edges id = none ↔ g.HasVertex id = false) ∧
      (g.IncomingEdges id = none ↔ g.HasVertex id = false) ∧
      g.IncomingEdges id = g.Edges id ∧
      (∀ s, g.Edges id = some s → ∀ b, b ∈ s ↔ g.HasEdge id b = true) := by
  unfold Graph.Edges Graph.IncomingEdges Graph.HasVertex Graph.HasEdge
  cases hf : AdjMap.find g.edges id with
  | none => simp
  | some t => simp

/-- Witness of C21 in the state with vertices 1, 2, 3 and the edge (1, 2): vertex 3 is
isolated, the id 7 is absent. -/
theorem Graph.Edges_iff_hasVertex_witness :
    (Graph.run removalScenarioOps).Edges 1 = some [2] ∧
      (Graph.run removalScenarioOps).HasEdge 1 2 = true ∧
      (Graph.run removalScenarioOps).Edges 3 = some [] ∧
      (Graph.run removalScenarioOps).HasVertex 7 = false ∧
      (Graph.run removalScenarioOps).Edges 7 = none :=
  ⟨by decide,
    ((Graph.Edges_iff_hasVertex (Graph.run removalScenarioOps) 1).2.2.2 [2] (by decide) 2).1
      (by decide),
    by decide, by decide,
    (Graph.Edges_iff_hasVertex (Graph.run removalScenarioOps) 7).1.2 (by decide)⟩

/-- C22, failing input: in the state left by `AddEdge(1, 2)` on the empty
`OrientedGraph` the id 2 is absent (`HasVertex(2)` is false) and `Edges(2)` fails, but
`IncomingEdges(2)` succeeds and returns the set holding 1. -/
theorem OrientedGraph.IncomingEdges_of_absent :
    danglingEdgeGraph.HasVertex 2 = false ∧ danglingEdgeGraph.Edges 2 = none ∧
      danglingEdgeGraph.IncomingEdges 2 = some [1] :=
  ⟨by decide, by decide, by decide⟩

/-- In every state, `Edges(id)` of a present id returns exactly the targets of the
edges leaving `id`; with mirrored maps, `IncomingEdges(id)` returns, when it succeeds,
exactly the sources of the edges entering `id`. -/
theorem OrientedGraph.accessors_when_found (g : OrientedGraph) (hm : g.Mirror) (id : Nat) :
    (g.HasVertex id = true → ∃ s, g.Edges id = some s ∧ ∀ v, v ∈ s ↔ g.HasEdge id v = true) ∧
      (∀ s, g.IncomingEdges id = some s → ∀ v, v ∈ s ↔ g.HasEdge v id = true) := by
  constructor
  · intro h
    obtain ⟨s, hs⟩ := OrientedGraph.Edges_of_hasVertex h
    exact ⟨s, hs, fun v => ((OrientedGraph.edge_iff_of_Edges hs v)).symm⟩
  · intro s hs v
    rw [OrientedGraph.oriented_hasEdge_iff, hm v id]
    unfold OrientedGraph.IncomingEdges at hs
    simp [AdjMap.rel, hs]

/-- C23, failing input: in the state left by `AddEdge(1, 2)` on the empty
`OrientedGraph` the id 1 is present (`HasVertex(1)` is true) and `Edges(1)` returns the
set holding 2, but `IncomingEdges(1)` fails with `std::out_of_range`. -/
theorem OrientedGraph.IncomingEdges_of_present :
    danglingEdgeGraph.HasVertex 1 = true ∧ danglingEdgeGraph.Edges 1 = some [2] ∧
      danglingEdgeGraph.IncomingEdges 1 = none :=
  ⟨by decide, by decide, by decide⟩

/-! ## Lemmas on the weight map -/

theorem WeightMap.find_append_weights {W : Type} (m m2 : WeightMap W) (k : Nat × Nat) :
    WeightMap.find (m ++ m2) k =
      match WeightMap.find m k with
      | some w => some w
      | none => WeightMap.find m2 k := by
  induction m with
  | nil => simp [WeightMap.find]
  | cons p rest ih =>
    obtain ⟨a, w⟩ := p
    by_cases h : a = k
    · simp [WeightMap.find, h]
    · simp [WeightMap.find, h, ih]

theorem WeightMap.update_cons {W : Type} (a : Nat × Nat) (v : W) (rest : WeightMap W)
    (k : Nat × Nat) (w : W) :
    WeightMap.update ((a, v) :: rest) k w =
      (if a = k then (a, w) else (a, v)) :: WeightMap.update rest k w := rfl

theorem WeightMap.find_update {W : Type} (m : WeightMap W) (k : Nat × Nat) (w : W)
    (k2 : Nat × Nat) :
    WeightMap.find (WeightMap.update m k w) k2 =
      if k2 = k then (WeightMap.find m k).map (fun _ => w) else WeightMap.find m k2 := by
  induction m with
  | nil => simp [WeightMap.update, WeightMap.find]
  | cons p rest ih =>
    obtain ⟨a, v⟩ := p
    rw [WeightMap.update_cons]
    by_cases ha : a = k
    · rw [if_pos ha]
      subst ha
      by_cases hk : k2 = a
      · subst hk; simp [WeightMap.find]
      · have hk2 : ¬ a = k2 := fun e => hk e.symm
        simp [WeightMap.find, hk, hk2, ih]
    · rw [if_neg ha]
      by_cases hk : k2 = k
      · subst hk; simp [WeightMap.find, ha, ih]
      · by_cases hak : a = k2
        · subst hak; simp [WeightMap.find, hk]
        · simp [WeightMap.find, hk, hak, ih]

theorem WeightMap.find_assign {W : Type} (m : WeightMap W) (k : Nat × Nat) (w : W)
    (k2 : Nat × Nat) :
    WeightMap.find (WeightMap.assign m k w) k2 =
      if k2 = k then some w else WeightMap.find m k2 := by
  unfold WeightMap.assign
  cases hf : WeightMap.find m k with
  | some v =>
    simp only [WeightMap.find_update, hf, Option.map_some']
  | none =>
    simp only [WeightMap.find_append_weights]
    by_cases h : k2 = k
    · subst h; simp [hf, WeightMap.find]
    · have h2 : ¬ k = k2 := fun e => h e.symm
      cases hk : WeightMap.find m k2 <;> simp [WeightMap.find, h, h2]

theorem WeightMap.eraseKey_cons_weights {W : Type} (a : Nat × Nat) (v : W)
    (rest : WeightMap W) (k : Nat × Nat) :
    WeightMap.eraseKey ((a, v) :: rest) k =
      if a = k then WeightMap.eraseKey rest k else (a, v) :: WeightMap.eraseKey rest k := by
  by_cases h : a = k <;> simp [WeightMap.eraseKey, List.filter_cons, h]

theorem WeightMap.find_eraseKey_weights {W : Type} (m : WeightMap W) (k k2 : Nat × Nat) :
    WeightMap.find (WeightMap.eraseKey m k) k2 =
      if k2 = k then none else WeightMap.find m k2 := by
  induction m with
  | nil => simp [WeightMap.eraseKey, WeightMap.find]
  | cons p rest ih =>
    obtain ⟨a, v⟩ := p
    rw [WeightMap.eraseKey_cons_weights]
    by_cases ha : a = k
    · rw [if_pos ha]
      subst ha
      by_cases hk : k2 = a
      · subst hk; simpa using ih
      · have hk2 : ¬ a = k2 := fun e => hk e.symm
        simp [WeightMap.find, hk, hk2, ih]
    · rw [if_neg ha]
      by_cases hk : k2 = k
      · subst hk; simpa [WeightMap.find, ha] using ih
      · by_cases hak : a = k2
        · subst hak; simp [WeightMap.find, hk]
        · simp [WeightMap.find, hk, hak, ih]

theorem WeightedGraph.MakeEdgeId_comm (a b : Nat) :
    WeightedGraph.MakeEdgeId a b = WeightedGraph.MakeEdgeId b a := by
  unfold WeightedGraph.MakeEdgeId
  rcases Nat.lt_trichotomy a b with h | h | h
  · rw [if_pos h, if_neg (Nat.lt_asymm h)]
  · subst h; rfl
  · rw [if_neg (Nat.lt_asymm h), if_pos h]

theorem WeightedGraph.MakeEdgeId_eq_iff (a b c d : Nat) :
    WeightedGraph.MakeEdgeId c d = WeightedGraph.MakeEdgeId a b ↔
      (c = a ∧ d = b) ∨ (c = b ∧ d = a) := by
  unfold WeightedGraph.MakeEdgeId
  by_cases h1 : c < d <;> by_cases h2 : a < b <;>
    simp only [h1, h2, if_true, if_false, Prod.mk.injEq] <;> omega

/-! ## Queries of the weighted graphs in relational form -/

theorem WeightedGraph.wg_hasEdge_iff {W : Type} (g : WeightedGraph W) (a b : Nat) :
    g.HasEdge a b = true ↔ AdjMap.rel g.edges a b := by
  unfold WeightedGraph.HasEdge AdjMap.rel
  cases hf : AdjMap.find g.edges a <;> simp

theorem WeightedOrientedGraph.wog_hasEdge_iff {W : Type} (g : WeightedOrientedGraph W)
    (a b : Nat) : g.HasEdge a b = true ↔ AdjMap.rel g.edges a b := by
  unfold WeightedOrientedGraph.HasEdge AdjMap.rel
  cases hf : AdjMap.find g.edges a <;> simp

/-! ## `AddEdge` and `EdgeWeight` of the weighted graphs: statements of the claims -/

/-- C26: in both weighted variants, for every state, all ids `a`, `b` and every weight
`w`, after `AddEdge(a, b, w)` the edge is present and `EdgeWeight(a, b)` returns `w`,
whatever was stored before. -/
theorem weighted_AddEdge_sets_weight {W : Type} (g : WeightedGraph W)
    (h : WeightedOrientedGraph W) (a b : Nat) (w : W) :
    (g.AddEdge a b w).HasEdge a b = true ∧ (g.AddEdge a b w).EdgeWeight a b = some w ∧
      (h.AddEdge a b w).HasEdge a b = true ∧ (h.AddEdge a b w).EdgeWeight a b = some w := by
  refine ⟨?_, ?_, ?_, ?_⟩
  · rw [WeightedGraph.wg_hasEdge_iff]
    show AdjMap.rel ((g.edges.insertAt a b).insertAt b a) a b
    rw [AdjMap.rel_insertAt, AdjMap.rel_insertAt]
    exact Or.inl (Or.inr ⟨rfl, rfl⟩)
  · show WeightMap.find (WeightMap.assign g.weights (WeightedGraph.MakeEdgeId a b) w)
      (WeightedGraph.MakeEdgeId a b) = some w
    rw [WeightMap.find_assign, if_pos rfl]
  · rw [WeightedOrientedGraph.wog_hasEdge_iff]
    show AdjMap.rel (h.edges.insertAt a b) a b
    rw [AdjMap.rel_insertAt]
    exact Or.inr ⟨rfl, rfl⟩
  · show WeightMap.find (WeightMap.assign h.weights (a, b) w) (a, b) = some w
    rw [WeightMap.find_assign, if_pos rfl]

/-- Witness of C26: the edge (1, 2) of weight 5 is added again with weight 7, in both
variants. -/
theorem weighted_AddEdge_sets_weight_witness :
    weightedEdgeGraph.EdgeWeight 1 2 = some 5 ∧
      (weightedEdgeGraph.AddEdge 1 2 7).HasEdge 1 2 = true ∧
      (weightedEdgeGraph.AddEdge 1 2 7).EdgeWeight 1 2 = some 7 ∧
      (weightedTwoWayGraph.AddEdge 1 2 7).EdgeWeight 1 2 = some 7 :=
  ⟨by decide,
    (weighted_AddEdge_sets_weight weightedEdgeGraph weightedTwoWayGraph 1 2 7).1,
    (weighted_AddEdge_sets_weight weightedEdgeGraph weightedTwoWayGraph 1 2 7).2.1,
    (weighted_AddEdge_sets_weight weightedEdgeGraph weightedTwoWayGraph 1 2 7).2.2.2⟩

/-- C27, failing input: the state holding the edge (1, 2) with weight 5 is reachable
and has `HasEdge(1, 2)`; `AddEdge(1, 2, 7)` changes it: `EdgeWeight(1, 2)` returns 5
before the call and 7 after it.  The oriented variant behaves the same way. -/
theorem weighted_AddEdge_overwrites :
    weightedEdgeGraph.HasEdge 1 2 = true ∧
      weightedEdgeGraph.EdgeWeight 1 2 = some 5 ∧
      (weightedEdgeGraph.AddEdge 1 2 7).EdgeWeight 1 2 = some 7 ∧
      weightedEdgeGraph.weights = [((1, 2), 5)] ∧
      (weightedEdgeGraph.AddEdge 1 2 7).weights = [((1, 2), 7)] ∧
      weightedTwoWayGraph.HasEdge 1 2 = true ∧
      weightedTwoWayGraph.EdgeWeight 1 2 = some 5 ∧
      (weightedTwoWayGraph.AddEdge 1 2 7).EdgeWeight 1 2 = some 7 :=
  ⟨by decide, by decide, by decide, by decide, by decide, by decide, by decide, by decide⟩

/-- C28: in every `WeightedGraph` state and for all ids `a`, `b`, `EdgeWeight(a, b)` and
`EdgeWeight(b, a)` give the same result (both `std::out_of_range` or the same value);
after `AddEdge(a, b, w)`, `EdgeWeight(b, a)` returns `w`; and a successful write of `w`
through `EdgeWeight(a, b)` is read back by `EdgeWeight(b, a)`. -/
theorem WeightedGraph.EdgeWeight_symmetric {W : Type} (g : WeightedGraph W) (a b : Nat)
    (w : W) :
    g.EdgeWeight a b = g.EdgeWeight b a ∧
      (g.AddEdge a b w).EdgeWeight b a = some w ∧
      (∀ g2, g.WriteEdgeWeight a b w = some g2 →
        g2.EdgeWeight b a = some w ∧ g2.EdgeWeight a b = some w) := by
  refine ⟨?_, ?_, ?_⟩
  · unfold WeightedGraph.EdgeWeight
    rw [WeightedGraph.MakeEdgeId_comm]
  · show WeightMap.find (WeightMap.assign g.weights (WeightedGraph.MakeEdgeId a b) w)
      (WeightedGraph.MakeEdgeId b a) = some w
    rw [WeightMap.find_assign, if_pos (WeightedGraph.MakeEdgeId_comm b a)]
  · intro g2 hw
    unfold WeightedGraph.WriteEdgeWeight at hw
    cases hf : WeightMap.find g.weights (WeightedGraph.MakeEdgeId a b) with
    | none => rw [hf] at hw; cases hw
    | some v =>
      rw [hf] at hw
      simp only [Option.some.injEq] at hw
      subst hw
      unfold WeightedGraph.EdgeWeight
      simp only
      rw [WeightMap.find_update, WeightMap.find_update,
        if_pos (WeightedGraph.MakeEdgeId_comm b a), if_pos rfl, hf]
      exact ⟨rfl, rfl⟩

/-- Witness of C28: the weight of the edge (1, 2) is written as 9 through
`EdgeWeight(2, 1)` and read back through `EdgeWeight(1, 2)`. -/
theorem WeightedGraph.EdgeWeight_symmetric_witness :
    weightedEdgeGraph.EdgeWeight 2 1 = some 5 ∧
      ∃ g2, weightedEdgeGraph.WriteEdgeWeight 2 1 9 = some g2 ∧
        g2.EdgeWeight 1 2 = some 9 :=
  ⟨by decide, _, rfl,
    ((WeightedGraph.EdgeWeight_symmetric weightedEdgeGraph 2 1 9).2.2 _ rfl).1⟩

/-- C29: in every `WeightedOrientedGraph` state, for all ids `a ≠ b` and every weight
`w`, neither `AddEdge(a, b, w)` nor `RemoveEdge(a, b)` changes the result of
`EdgeWeight(b, a)` or of `HasEdge(b, a)`. -/
theorem WeightedOrientedGraph.reverse_edge_untouched {W : Type}
    (g : WeightedOrientedGraph W) (a b : Nat) (hne : a ≠ b) (w : W) :
    (g.AddEdge a b w).EdgeWeight b a = g.EdgeWeight b a ∧
      (g.AddEdge a b w).HasEdge b a = g.HasEdge b a ∧
      (g.RemoveEdge a b).EdgeWeight b a = g.EdgeWeight b a ∧
      (g.RemoveEdge a b).HasEdge b a = g.HasEdge b a := by
  have hkey : ¬ ((b, a) : Nat × Nat) = (a, b) := by
    intro h
    exact hne (Prod.mk.inj h).2
  refine ⟨?_, ?_, ?_, ?_⟩
  · show WeightMap.find (WeightMap.assign g.weights (a, b) w) (b, a) =
      WeightMap.find g.weights (b, a)
    rw [WeightMap.find_assign, if_neg hkey]
  · rw [Bool.eq_iff_iff, WeightedOrientedGraph.wog_hasEdge_iff,
      WeightedOrientedGraph.wog_hasEdge_iff]
    show AdjMap.rel (g.edges.insertAt a b) b a ↔ _
    rw [AdjMap.rel_insertAt]
    constructor
    · rintro (h | ⟨h1, -⟩)
      · exact h
      · exact absurd h1.symm hne
    · exact Or.inl
  · show WeightMap.find (WeightMap.eraseKey g.weights (a, b)) (b, a) =
      WeightMap.find g.weights (b, a)
    rw [WeightMap.find_eraseKey_weights, if_neg hkey]
  · rw [Bool.eq_iff_iff, WeightedOrientedGraph.wog_hasEdge_iff,
      WeightedOrientedGraph.wog_hasEdge_iff]
    show AdjMap.rel (if (AdjMap.find g.edges a).isSome then AdjMap.eraseAt g.edges a b
      else g.edges) b a ↔ _
    rw [AdjMap.rel_guarded_eraseAt]
    constructor
    · exact fun h => h.1
    · exact fun h => ⟨h, fun h2 => hne h2.1.symm⟩

/-- Witness of C29 on the graph with the edges 1 → 2 (weight 5) and 2 → 1 (weight 8). -/
theorem WeightedOrientedGraph.reverse_edge_untouched_witness :
    (1 : Nat) ≠ 2 ∧ weightedTwoWayGraph.EdgeWeight 2 1 = some 8 ∧
      (weightedTwoWayGraph.AddEdge 1 2 7).EdgeWeight 2 1 = weightedTwoWayGraph.EdgeWeight 2 1 ∧
      (weightedTwoWayGraph.RemoveEdge 1 2).EdgeWeight 2 1 =
        weightedTwoWayGraph.EdgeWeight 2 1 ∧
      (weightedTwoWayGraph.RemoveEdge 1 2).HasEdge 2 1 = weightedTwoWayGraph.HasEdge 2 1 :=
  ⟨by decide, by decide,
    (WeightedOrientedGraph.reverse_edge_untouched weightedTwoWayGraph 1 2 (by decide) 7).1,
    (WeightedOrientedGraph.reverse_edge_untouched weightedTwoWayGraph 1 2 (by decide) 7).2.2.1,
    (WeightedOrientedGraph.reverse_edge_untouched weightedTwoWayGraph 1 2 (by decide) 7).2.2.2⟩

/-! ## Presence of a weight after each weight map operation -/

theorem WeightMap.isSome_assign {W : Type} (m : WeightMap W) (k : Nat × Nat) (w : W)
    (k2 : Nat × Nat) :
    (WeightMap.find (WeightMap.assign m k w) k2).isSome = true ↔
      k2 = k ∨ (WeightMap.find m k2).isSome = true := by
  rw [WeightMap.find_assign]
  by_cases h : k2 = k <;> simp [h]

theorem WeightMap.isSome_update {W : Type} (m : WeightMap W) (k : Nat × Nat) (w : W)
    (k2 : Nat × Nat) :
    (WeightMap.find (WeightMap.update m k w) k2).isSome = true ↔
      (WeightMap.find m k2).isSome = true := by
  rw [WeightMap.find_update]
  by_cases h : k2 = k
  · subst h
    cases hf : WeightMap.find m k2 <;> simp
  · simp [h]

theorem WeightMap.isSome_eraseKey {W : Type} (m : WeightMap W) (k k2 : Nat × Nat) :
    (WeightMap.find (WeightMap.eraseKey m k) k2).isSome = true ↔
      (WeightMap.find m k2).isSome = true ∧ k2 ≠ k := by
  rw [WeightMap.find_eraseKey_weights]
  by_cases h : k2 = k <;> simp [h]

/-! ## The removal loop of the weighted classes -/

theorem eraseRefsAndWeights_fst {W : Type} (id : Nat) (key : Nat → Nat × Nat)
    (ns : List Nat) (st : AdjMap × WeightMap W) :
    (eraseRefsAndWeights id key ns st).1 = AdjMap.eraseBackRefs id ns st.1 := by
  induction ns generalizing st with
  | nil => rfl
  | cons n rest ih =>
    rw [eraseRefsAndWeights, ih, AdjMap.eraseBackRefs]
    by_cases h : id = n
    · rw [if_neg (not_not.2 h), if_neg (not_not.2 h)]
    · rw [if_pos h, if_pos h]

theorem eraseRefsAndWeights_isSome {W : Type} (id : Nat) (key : Nat → Nat × Nat)
    (ns : List Nat) (st : AdjMap × WeightMap W) (k : Nat × Nat) :
    (WeightMap.find (eraseRefsAndWeights id key ns st).2 k).isSome = true ↔
      (WeightMap.find st.2 k).isSome = true ∧ ∀ n ∈ ns, key n ≠ k := by
  induction ns generalizing st with
  | nil => simp [eraseRefsAndWeights]
  | cons n rest ih =>
    rw [eraseRefsAndWeights, ih]
    simp only [WeightMap.isSome_eraseKey, List.mem_cons, forall_eq_or_imp]
    constructor
    · rintro ⟨⟨h1, h2⟩, h3⟩
      exact ⟨h1, fun e => h2 e.symm, h3⟩
    · rintro ⟨h1, h2, h3⟩
      exact ⟨⟨h1, fun e => h2 e.symm⟩, h3⟩

/-! ## `WeightedGraph`: adjacency part and weight part of each operation -/

theorem WeightedGraph.toGraph_RemoveVertex {W : Type} (g : WeightedGraph W) (id : Nat) :
    (g.RemoveVertex id).toGraph = g.toGraph.RemoveVertex id := by
  unfold WeightedGraph.RemoveVertex Graph.RemoveVertex WeightedGraph.toGraph
  cases hf : AdjMap.find g.edges id with
  | none => rfl
  | some s =>
    simp only
    rw [eraseRefsAndWeights_fst]

theorem WeightedGraph.toGraph_step {W : Type} (g : WeightedGraph W) (op : WOp W) :
    (g.step op).toGraph = g.toGraph ∨ ∃ op2 : Op, (g.step op).toGraph = g.toGraph.step op2 := by
  cases op with
  | AddVertex id => exact Or.inr ⟨Op.AddVertex id, rfl⟩
  | AddEdge a b w => exact Or.inr ⟨Op.AddEdge a b, rfl⟩
  | RemoveVertex id => exact Or.inr ⟨Op.RemoveVertex id, g.toGraph_RemoveVertex id⟩
  | RemoveEdge a b => exact Or.inr ⟨Op.RemoveEdge a b, rfl⟩
  | WriteWeight a b w =>
    left
    show ((g.WriteEdgeWeight a b w).getD g).toGraph = g.toGraph
    unfold WeightedGraph.WriteEdgeWeight
    cases hf : WeightMap.find g.weights (WeightedGraph.MakeEdgeId a b) <;> rfl

theorem WeightedGraph.isSome_weights_RemoveVertex {W : Type} (g : WeightedGraph W)
    (id : Nat) (k : Nat × Nat) :
    (WeightMap.find (g.RemoveVertex id).weights k).isSome = true ↔
      (WeightMap.find g.weights k).isSome = true ∧
        ∀ n, AdjMap.rel g.edges id n → WeightedGraph.MakeEdgeId id n ≠ k := by
  unfold WeightedGraph.RemoveVertex
  cases hf : AdjMap.find g.edges id with
  | none =>
    have hx : ∀ c, ¬ AdjMap.rel g.edges id c := by
      rintro c ⟨s, hs, -⟩
      rw [hf] at hs
      cases hs
    simp only
    exact ⟨fun h => ⟨h, fun n hn => absurd hn (hx n)⟩, fun h => h.1⟩
  | some s =>
    have hs : ∀ c, AdjMap.rel g.edges id c ↔ c ∈ s := by
      intro c
      simp [AdjMap.rel, hf]
    simp only [eraseRefsAndWeights_isSome, hs]

theorem WeightedGraph.winv_empty {W : Type} :
    WeightedGraph.WInv (WeightedGraph.empty : WeightedGraph W) := by
  refine ⟨Graph.inv_empty, ?_⟩
  intro a b
  simp [WeightedGraph.empty, WeightMap.find, AdjMap.rel, AdjMap.find]

theorem WeightedGraph.winv_step {W : Type} (g : WeightedGraph W) (op : WOp W)
    (h : g.WInv) : (g.step op).WInv := by
  obtain ⟨hadj, hw⟩ := h
  have hadj2 : Graph.Inv (g.step op).toGraph := by
    rcases g.toGraph_step op with he | ⟨op2, he⟩
    · rw [he]; exact hadj
    · rw [he]; exact Graph.inv_step _ op2 hadj
  refine ⟨hadj2, ?_⟩
  intro a b
  cases op with
  | AddVertex id =>
    show (WeightMap.find g.weights (WeightedGraph.MakeEdgeId a b)).isSome = true ↔
      AdjMap.rel (g.edges.touch id) a b
    rw [AdjMap.rel_touch]
    exact hw a b
  | AddEdge x y w =>
    show (WeightMap.find (WeightMap.assign g.weights (WeightedGraph.MakeEdgeId x y) w)
        (WeightedGraph.MakeEdgeId a b)).isSome = true ↔
      AdjMap.rel ((g.edges.insertAt x y).insertAt y x) a b
    rw [WeightMap.isSome_assign, AdjMap.rel_insertAt, AdjMap.rel_insertAt,
      WeightedGraph.MakeEdgeId_eq_iff, hw a b]
    tauto
  | RemoveVertex id =>
    have hrel : AdjMap.rel (g.RemoveVertex id).edges a b ↔
        AdjMap.rel g.edges a b ∧ a ≠ id ∧ ¬ (AdjMap.rel g.edges id a ∧ b = id) := by
      have := Graph.rel_RemoveVertex g.toGraph id a b
      rw [← g.toGraph_RemoveVertex id] at this
      exact this
    show (WeightMap.find (g.RemoveVertex id).weights (WeightedGraph.MakeEdgeId a b)).isSome
        = true ↔ AdjMap.rel (g.RemoveVertex id).edges a b
    rw [hrel, WeightedGraph.isSome_weights_RemoveVertex, hw a b]
    constructor
    · rintro ⟨h1, h2⟩
      refine ⟨h1, ?_, ?_⟩
      · intro ha
        subst ha
        exact h2 b h1 rfl
      · rintro ⟨h3, h4⟩
        subst h4
        exact h2 a h3 (WeightedGraph.MakeEdgeId_comm b a)
    · rintro ⟨h1, h2, h3⟩
      refine ⟨h1, ?_⟩
      intro n hn he
      rcases (WeightedGraph.MakeEdgeId_eq_iff a b id n).1 he with ⟨h4, -⟩ | ⟨h4, h5⟩
      · exact h2 h4.symm
      · subst h5
        exact h3 ⟨hn, h4.symm⟩
  | RemoveEdge x y =>
    have hrel : AdjMap.rel (g.RemoveEdge x y).edges a b ↔
        AdjMap.rel g.edges a b ∧ ¬ (a = x ∧ b = y) ∧ ¬ (a = y ∧ b = x) :=
      Graph.rel_RemoveEdge g.toGraph x y a b
    show (WeightMap.find (WeightMap.eraseKey g.weights (WeightedGraph.MakeEdgeId x y))
        (WeightedGraph.MakeEdgeId a b)).isSome = true ↔ AdjMap.rel (g.RemoveEdge x y).edges a b
    rw [hrel, WeightMap.isSome_eraseKey, hw a b, ne_eq, WeightedGraph.MakeEdgeId_eq_iff]
    tauto
  | WriteWeight x y w =>
    show (WeightMap.find ((g.WriteEdgeWeight x y w).getD g).weights
        (WeightedGraph.MakeEdgeId a b)).isSome = true ↔
      AdjMap.rel ((g.WriteEdgeWeight x y w).getD g).edges a b
    unfold WeightedGraph.WriteEdgeWeight
    cases hf : WeightMap.find g.weights (WeightedGraph.MakeEdgeId x y) with
    | none => exact hw a b
    | some v =>
      simp only [Option.getD_some]
      rw [WeightMap.isSome_update]
      exact hw a b

theorem WeightedGraph.winv_foldl {W : Type} (ops : List (WOp W)) (g : WeightedGraph W)
    (h : g.WInv) : (ops.foldl WeightedGraph.step g).WInv := by
  induction ops generalizing g with
  | nil => exact h
  | cons op ops ih => exact ih _ (WeightedGraph.winv_step g op h)

theorem WeightedGraph.winv_run {W : Type} (ops : List (WOp W)) :
    (WeightedGraph.run ops).WInv :=
  WeightedGraph.winv_foldl ops _ WeightedGraph.winv_empty

/-! ## `WeightedOrientedGraph`: adjacency part and weight part of each operation -/

theorem WeightedOrientedGraph.toOriented_removeOutgoing {W : Type}
    (g : WeightedOrientedGraph W) (id : Nat) :
    (g.removeOutgoing id).toOriented = g.toOriented.removeOutgoing id := by
  unfold WeightedOrientedGraph.removeOutgoing OrientedGraph.removeOutgoing
    WeightedOrientedGraph.toOriented
  cases hf : AdjMap.find g.edges id with
  | none => rfl
  | some s =>
    simp only
    rw [eraseRefsAndWeights_fst]

theorem WeightedOrientedGraph.toOriented_removeIncoming {W : Type}
    (g : WeightedOrientedGraph W) (id : Nat) :
    (g.removeIncoming id).toOriented = g.toOriented.removeIncoming id := by
  unfold WeightedOrientedGraph.removeIncoming OrientedGraph.removeIncoming
    WeightedOrientedGraph.toOriented
  cases hf : AdjMap.find g.incomingEdges id with
  | none => rfl
  | some s =>
    simp only
    rw [eraseRefsAndWeights_fst]

theorem WeightedOrientedGraph.toOriented_RemoveVertex {W : Type}
    (g : WeightedOrientedGraph W) (id : Nat) :
    (g.RemoveVertex id).toOriented = g.toOriented.RemoveVertex id := by
  unfold WeightedOrientedGraph.RemoveVertex OrientedGraph.RemoveVertex
  rw [WeightedOrientedGraph.toOriented_removeIncoming,
    WeightedOrientedGraph.toOriented_removeOutgoing]

theorem WeightedOrientedGraph.toOriented_step {W : Type} (g : WeightedOrientedGraph W)
    (op : WOp W) :
    (g.step op).toOriented = g.toOriented ∨
      ∃ op2 : Op, (g.step op).toOriented = g.toOriented.step op2 := by
  cases op with
  | AddVertex id => exact Or.inr ⟨Op.AddVertex id, rfl⟩
  | AddEdge a b w => exact Or.inr ⟨Op.AddEdge a b, rfl⟩
  | RemoveVertex id => exact Or.inr ⟨Op.RemoveVertex id, g.toOriented_RemoveVertex id⟩
  | RemoveEdge a b => exact Or.inr ⟨Op.RemoveEdge a b, rfl⟩
  | WriteWeight a b w =>
    left
    show ((g.WriteEdgeWeight a b w).getD g).toOriented = g.toOriented
    unfold WeightedOrientedGraph.WriteEdgeWeight
    cases hf : WeightMap.find g.weights (a, b) <;> rfl

theorem WeightedOrientedGraph.isSome_weights_removeOutgoing {W : Type}
    (g : WeightedOrientedGraph W) (id : Nat) (k : Nat × Nat) :
    (WeightMap.find (g.removeOutgoing id).weights k).isSome = true ↔
      (WeightMap.find g.weights k).isSome = true ∧
        ∀ n, AdjMap.rel g.edges id n → (id, n) ≠ k := by
  unfold WeightedOrientedGraph.removeOutgoing
  cases hf : AdjMap.find g.edges id with
  | none =>
    have hx : ∀ c, ¬ AdjMap.rel g.edges id c := by
      rintro c ⟨s, hs, -⟩
      rw [hf] at hs
      cases hs
    simp only
    exact ⟨fun h => ⟨h, fun n hn => absurd hn (hx n)⟩, fun h => h.1⟩
  | some s =>
    have hs : ∀ c, AdjMap.rel g.edges id c ↔ c ∈ s := by
      intro c
      simp [AdjMap.rel, hf]
    simp only [eraseRefsAndWeights_isSome, hs]

theorem WeightedOrientedGraph.isSome_weights_removeIncoming {W : Type}
    (g : WeightedOrientedGraph W) (id : Nat) (k : Nat × Nat) :
    (WeightMap.find (g.removeIncoming id).weights k).isSome = true ↔
      (WeightMap.find g.weights k).isSome = true ∧
        ∀ n, AdjMap.rel g.incomingEdges id n → (n, id) ≠ k := by
  unfold WeightedOrientedGraph.removeIncoming
  cases hf : AdjMap.find g.incomingEdges id with
  | none =>
    have hx : ∀ c, ¬ AdjMap.rel g.incomingEdges id c := by
      rintro c ⟨s, hs, -⟩
      rw [hf] at hs
      cases hs
    simp only
    exact ⟨fun h => ⟨h, fun n hn => absurd hn (hx n)⟩, fun h => h.1⟩
  | some s =>
    have hs : ∀ c, AdjMap.rel g.incomingEdges id c ↔ c ∈ s := by
      intro c
      simp [AdjMap.rel, hf]
    simp only [eraseRefsAndWeights_isSome, hs]

theorem WeightedOrientedGraph.wog_isSome_weights_RemoveVertex {W : Type}
    (g : WeightedOrientedGraph W) (id : Nat) (a b : Nat) :
    (WeightMap.find (g.RemoveVertex id).weights (a, b)).isSome = true ↔
      (WeightMap.find g.weights (a, b)).isSome = true ∧
        ¬ (a = id ∧ AdjMap.rel g.edges id b) ∧
        ¬ (b = id ∧ AdjMap.rel g.incomingEdges id a) := by
  have hin : ∀ n, AdjMap.rel (g.removeOutgoing id).incomingEdges id n ↔
      AdjMap.rel g.incomingEdges id n := by
    intro n
    have h1 := OrientedGraph.in_removeOutgoing g.toOriented id id n
    rw [← g.toOriented_removeOutgoing id] at h1
    have h2 : AdjMap.rel (g.removeOutgoing id).incomingEdges id n ↔
        AdjMap.rel g.incomingEdges id n ∧
          ¬ (AdjMap.rel g.edges id id ∧ id ≠ id ∧ n = id) := h1
    rw [h2]
    exact ⟨fun h => h.1, fun h => ⟨h, fun h3 => h3.2.1 rfl⟩⟩
  unfold WeightedOrientedGraph.RemoveVertex
  rw [WeightedOrientedGraph.isSome_weights_removeIncoming,
    WeightedOrientedGraph.isSome_weights_removeOutgoing]
  simp only [hin, ne_eq, Prod.mk.injEq]
  constructor
  · rintro ⟨⟨h1, h2⟩, h3⟩
    refine ⟨h1, ?_, ?_⟩
    · rintro ⟨ha, hb⟩
      exact h2 b hb ⟨ha.symm, rfl⟩
    · rintro ⟨hb, ha⟩
      exact h3 a ha ⟨rfl, hb.symm⟩
  · rintro ⟨h1, h2, h3⟩
    refine ⟨⟨h1, ?_⟩, ?_⟩
    · rintro n hn ⟨ha, hb⟩
      subst hb
      exact h2 ⟨ha.symm, hn⟩
    · rintro n hn ⟨ha, hb⟩
      subst ha
      exact h3 ⟨hb.symm, hn⟩

theorem WeightedOrientedGraph.wog_winv_empty {W : Type} :
    WeightedOrientedGraph.WInv (WeightedOrientedGraph.empty : WeightedOrientedGraph W) := by
  refine ⟨OrientedGraph.mirror_empty, ?_⟩
  intro a b
  simp [WeightedOrientedGraph.empty, WeightMap.find, AdjMap.rel, AdjMap.find]

theorem WeightedOrientedGraph.wog_winv_step {W : Type} (g : WeightedOrientedGraph W)
    (op : WOp W) (h : g.WInv) : (g.step op).WInv := by
  obtain ⟨hm, hw⟩ := h
  have hm2 : OrientedGraph.Mirror (g.step op).toOriented := by
    rcases g.toOriented_step op with he | ⟨op2, he⟩
    · rw [he]; exact hm
    · rw [he]; exact OrientedGraph.mirror_step _ op2 hm
  refine ⟨hm2, ?_⟩
  intro a b
  cases op with
  | AddVertex id =>
    show (WeightMap.find g.weights (a, b)).isSome = true ↔ AdjMap.rel (g.edges.touch id) a b
    rw [AdjMap.rel_touch]
    exact hw a b
  | AddEdge x y w =>
    show (WeightMap.find (WeightMap.assign g.weights (x, y) w) (a, b)).isSome = true ↔
      AdjMap.rel (g.edges.insertAt x y) a b
    rw [WeightMap.isSome_assign, AdjMap.rel_insertAt, Prod.mk.injEq, hw a b]
    tauto
  | RemoveVertex id =>
    have hrel : AdjMap.rel (g.RemoveVertex id).edges a b ↔
        AdjMap.rel g.edges a b ∧ a ≠ id ∧ b ≠ id := by
      have := OrientedGraph.relOut_RemoveVertex g.toOriented hm id a b
      rw [← g.toOriented_RemoveVertex id] at this
      exact this
    show (WeightMap.find (g.RemoveVertex id).weights (a, b)).isSome = true ↔
      AdjMap.rel (g.RemoveVertex id).edges a b
    rw [hrel, WeightedOrientedGraph.wog_isSome_weights_RemoveVertex, hw a b]
    constructor
    · rintro ⟨h1, h2, h3⟩
      refine ⟨h1, ?_, ?_⟩
      · intro ha
        subst ha
        exact h2 ⟨rfl, h1⟩
      · intro hb
        subst hb
        exact h3 ⟨rfl, (hm a b).1 h1⟩
    · rintro ⟨h1, h2, h3⟩
      exact ⟨h1, fun h4 => h2 h4.1, fun h4 => h3 h4.1⟩
  | RemoveEdge x y =>
    show (WeightMap.find (WeightMap.eraseKey g.weights (x, y)) (a, b)).isSome = true ↔
      AdjMap.rel (if (AdjMap.find g.edges x).isSome then AdjMap.eraseAt g.edges x y
        else g.edges) a b
    rw [WeightMap.isSome_eraseKey, AdjMap.rel_guarded_eraseAt, hw a b, ne_eq, Prod.mk.injEq]
  | WriteWeight x y w =>
    show (WeightMap.find ((g.WriteEdgeWeight x y w).getD g).weights (a, b)).isSome = true ↔
      AdjMap.rel ((g.WriteEdgeWeight x y w).getD g).edges a b
    unfold WeightedOrientedGraph.WriteEdgeWeight
    cases hf : WeightMap.find g.weights (x, y) with
    | none => exact hw a b
    | some v =>
      simp only [Option.getD_some]
      rw [WeightMap.isSome_update]
      exact hw a b

theorem WeightedOrientedGraph.wog_winv_foldl {W : Type} (ops : List (WOp W))
    (g : WeightedOrientedGraph W) (h : g.WInv) :
    (ops.foldl WeightedOrientedGraph.step g).WInv := by
  induction ops generalizing g with
  | nil => exact h
  | cons op ops ih => exact ih _ (WeightedOrientedGraph.wog_winv_step g op h)

theorem WeightedOrientedGraph.wog_winv_run {W : Type} (ops : List (WOp W)) :
    (WeightedOrientedGraph.run ops).WInv :=
  WeightedOrientedGraph.wog_winv_foldl ops _ WeightedOrientedGraph.wog_winv_empty

/-! ## Weights and edges of a reachable weighted graph: statements of the claims -/

theorem isSome_iff_exists_eq_some {α : Type} (o : Option α) :
    o.isSome = true ↔ ∃ w, o = some w := by
  cases o <;> simp

theorem eq_none_iff_isSome_false {α : Type} (o : Option α) :
    o = none ↔ ¬ o.isSome = true := by
  cases o <;> simp

/-- C24: in every state of `WeightedGraph` reachable from the empty graph by
`AddVertex`, `AddEdge`, `RemoveVertex`, `RemoveEdge` and writes through the mutable
`EdgeWeight` accessor, `EdgeWeight(a, b)` succeeds if and only if `HasEdge(a, b)` is
true, and fails with `std::out_of_range` otherwise. -/
theorem WeightedGraph.EdgeWeight_iff_hasEdge {W : Type} (ops : List (WOp W)) (a b : Nat) :
    ((∃ w, (WeightedGraph.run ops).EdgeWeight a b = some w) ↔
        (WeightedGraph.run ops).HasEdge a b = true) ∧
      ((WeightedGraph.run ops).EdgeWeight a b = none ↔
        (WeightedGraph.run ops).HasEdge a b = false) := by
  have h := (WeightedGraph.winv_run ops).weight_iff a b
  rw [← WeightedGraph.wg_hasEdge_iff] at h
  unfold WeightedGraph.EdgeWeight
  constructor
  · rw [← isSome_iff_exists_eq_some]
    exact h
  · rw [eq_none_iff_isSome_false, h, Bool.not_eq_true]

/-- Witness of C24 after the calls of `weightedScenarioOps`. -/
theorem WeightedGraph.EdgeWeight_iff_hasEdge_witness :
    (WeightedGraph.run weightedScenarioOps).EdgeWeight 2 1 = some 4 ∧
      (WeightedGraph.run weightedScenarioOps).HasEdge 2 1 = true ∧
      (WeightedGraph.run weightedScenarioOps).HasEdge 1 3 = false ∧
      (WeightedGraph.run weightedScenarioOps).EdgeWeight 1 3 = none :=
  ⟨by decide,
    (WeightedGraph.EdgeWeight_iff_hasEdge weightedScenarioOps 2 1).1.1 ⟨4, by decide⟩,
    by decide,
    (WeightedGraph.EdgeWeight_iff_hasEdge weightedScenarioOps 1 3).2.2 (by decide)⟩

/-- C25: in every state of `WeightedOrientedGraph` reachable from the empty graph by
`AddVertex`, `AddEdge`, `RemoveVertex`, `RemoveEdge` and writes through the mutable
`EdgeWeight` accessor, `EdgeWeight(a, b)` succeeds if and only if `HasEdge(a, b)` is
true, and fails with `std::out_of_range` otherwise. -/
theorem WeightedOrientedGraph.wog_EdgeWeight_iff_hasEdge {W : Type} (ops : List (WOp W))
    (a b : Nat) :
    ((∃ w, (WeightedOrientedGraph.run ops).EdgeWeight a b = some w) ↔
        (WeightedOrientedGraph.run ops).HasEdge a b = true) ∧
      ((WeightedOrientedGraph.run ops).EdgeWeight a b = none ↔
        (WeightedOrientedGraph.run ops).HasEdge a b = false) := by
  have h := (WeightedOrientedGraph.wog_winv_run ops).weight_iff a b
  rw [← WeightedOrientedGraph.wog_hasEdge_iff] at h
  unfold WeightedOrientedGraph.EdgeWeight
  constructor
  · rw [← isSome_iff_exists_eq_some]
    exact h
  · rw [eq_none_iff_isSome_false, h, Bool.not_eq_true]

/-- Witness of C25 after the calls of `weightedScenarioOps`: the edge 1 → 2 carries a
weight, the reverse pair does not. -/
theorem WeightedOrientedGraph.wog_EdgeWeight_iff_hasEdge_witness :
    (WeightedOrientedGraph.run weightedScenarioOps).EdgeWeight 1 2 = some 4 ∧
      (WeightedOrientedGraph.run weightedScenarioOps).HasEdge 1 2 = true ∧
      (WeightedOrientedGraph.run weightedScenarioOps).HasEdge 2 1 = false ∧
      (WeightedOrientedGraph.run weightedScenarioOps).EdgeWeight 2 1 = none :=
  ⟨by decide,
    (WeightedOrientedGraph.wog_EdgeWeight_iff_hasEdge weightedScenarioOps 1 2).1.1
      ⟨4, by decide⟩,
    by decide,
    (WeightedOrientedGraph.wog_EdgeWeight_iff_hasEdge weightedScenarioOps 2 1).2.2
      (by decide)⟩

/-- C30: in both weighted variants and in every reachable state, `EdgeWeight(a, b)`
fails with `std::out_of_range` after `RemoveEdge(a, b)`, and `EdgeWeight(v, x)` and
`EdgeWeight(x, v)` fail for every id `x` (also `x = v`) after `RemoveVertex(v)`. -/
theorem weighted_removal_erases_weights {W : Type} (ops : List (WOp W)) (a b v : Nat) :
    ((WeightedGraph.run ops).RemoveEdge a b).EdgeWeight a b = none ∧
      (∀ x, ((WeightedGraph.run ops).RemoveVertex v).EdgeWeight v x = none ∧
        ((WeightedGraph.run ops).RemoveVertex v).EdgeWeight x v = none) ∧
      ((WeightedOrientedGraph.run ops).RemoveEdge a b).EdgeWeight a b = none ∧
      (∀ x, ((WeightedOrientedGraph.run ops).RemoveVertex v).EdgeWeight v x = none ∧
        ((WeightedOrientedGraph.run ops).RemoveVertex v).EdgeWeight x v = none) := by
  refine ⟨?_, ?_, ?_, ?_⟩
  · show WeightMap.find (WeightMap.eraseKey (WeightedGraph.run ops).weights
      (WeightedGraph.MakeEdgeId a b)) (WeightedGraph.MakeEdgeId a b) = none
    rw [WeightMap.find_eraseKey_weights, if_pos rfl]
  · have hinv : ((WeightedGraph.run ops).RemoveVertex v).WInv :=
      WeightedGraph.winv_step _ (WOp.RemoveVertex v) (WeightedGraph.winv_run ops)
    have hnone : ∀ x, ((WeightedGraph.run ops).RemoveVertex v).EdgeWeight v x = none := by
      intro x
      unfold WeightedGraph.EdgeWeight
      rw [eq_none_iff_isSome_false, hinv.weight_iff v x]
      intro hrel
      have h2 := (Graph.rel_RemoveVertex (WeightedGraph.run ops).toGraph v v x).1
        (by rw [← WeightedGraph.toGraph_RemoveVertex]; exact hrel)
      exact h2.2.1 rfl
    intro x
    refine ⟨hnone x, ?_⟩
    have := hnone x
    unfold WeightedGraph.EdgeWeight at this ⊢
    rw [WeightedGraph.MakeEdgeId_comm x v]
    exact this
  · show WeightMap.find (WeightMap.eraseKey (WeightedOrientedGraph.run ops).weights (a, b))
      (a, b) = none
    rw [WeightMap.find_eraseKey_weights, if_pos rfl]
  · have hinv : ((WeightedOrientedGraph.run ops).RemoveVertex v).WInv :=
      WeightedOrientedGraph.wog_winv_step _ (WOp.RemoveVertex v)
        (WeightedOrientedGraph.wog_winv_run ops)
    have hrel : ∀ c d, AdjMap.rel ((WeightedOrientedGraph.run ops).RemoveVertex v).edges c d →
        c ≠ v ∧ d ≠ v := by
      intro c d h
      have h2 := (OrientedGraph.relOut_RemoveVertex (WeightedOrientedGraph.run ops).toOriented
        (WeightedOrientedGraph.wog_winv_run ops).mirror v c d).1
        (by rw [← WeightedOrientedGraph.toOriented_RemoveVertex]; exact h)
      exact h2.2
    intro x
    constructor
    · unfold WeightedOrientedGraph.EdgeWeight
      rw [eq_none_iff_isSome_false, hinv.weight_iff v x]
      exact fun h => (hrel v x h).1 rfl
    · unfold WeightedOrientedGraph.EdgeWeight
      rw [eq_none_iff_isSome_false, hinv.weight_iff x v]
      exact fun h => (hrel x v h).2 rfl

/-- Witness of C30 after the calls of `weightedScenarioOps`: vertex 2 carries the
self-loop and the edge to 1; removing it erases both weights, in both variants. -/
theorem weighted_removal_erases_weights_witness :
    (WeightedGraph.run weightedScenarioOps).EdgeWeight 2 2 = some 6 ∧
      (WeightedGraph.run weightedScenarioOps).EdgeWeight 1 2 = some 4 ∧
      ((WeightedGraph.run weightedScenarioOps).RemoveEdge 1 2).EdgeWeight 1 2 = none ∧
      ((WeightedGraph.run weightedScenarioOps).RemoveVertex 2).EdgeWeight 2 2 = none ∧
      ((WeightedGraph.run weightedScenarioOps).RemoveVertex 2).EdgeWeight 1 2 = none ∧
      (WeightedOrientedGraph.run weightedScenarioOps).EdgeWeight 1 2 = some 4 ∧
      ((WeightedOrientedGraph.run weightedScenarioOps).RemoveVertex 2).EdgeWeight 1 2 = none ∧
      ((WeightedOrientedGraph.run weightedScenarioOps).RemoveVertex 2).EdgeWeight 2 2 = none :=
  ⟨by decide, by decide,
    (weighted_removal_erases_weights weightedScenarioOps 1 2 2).1,
    ((weighted_removal_erases_weights weightedScenarioOps 1 2 2).2.1 2).1,
    ((weighted_removal_erases_weights weightedScenarioOps 1 2 2).2.1 1).2,
    by decide,
    ((weighted_removal_erases_weights weightedScenarioOps 1 2 2).2.2.2 1).2,
    ((weighted_removal_erases_weights weightedScenarioOps 1 2 2).2.2.2 2).1⟩

/-! ## Iteration over the vertices and entries of edge endpoints: statements of the claims -/

/-- C31: in every state of the undirected `Graph` reachable by the public operations,
the sequence produced by `Vertices()` (a finite list) contains no id twice, its elements
are exactly the ids with `HasVertex`, and `NumVertices()` is its length. -/
theorem Graph.Vertices_enumerates (ops : List Op) :
    (Graph.run ops).Vertices.Nodup ∧
      (∀ id, id ∈ (Graph.run ops).Vertices ↔ (Graph.run ops).HasVertex id = true) ∧
      (Graph.run ops).NumVertices = (Graph.run ops).Vertices.length := by
  refine ⟨Graph.keys_nodup_run ops,
    fun id => (AdjMap.find_isSome_iff_mem_keys _ id).symm, ?_⟩
  simp [Graph.NumVertices, Graph.Vertices, AdjMap.keys]

/-- Witness of C31 on the graph of `GraphIteratorTest`: the sorted iteration is
`[1, 2, 3, 4, 5, 10, 15]`. -/
theorem Graph.Vertices_enumerates_witness :
    List.insertionSort (fun a b : Nat => a ≤ b) (Graph.run iteratorTestOps).Vertices
        = [1, 2, 3, 4, 5, 10, 15] ∧
      (Graph.run iteratorTestOps).Vertices.Nodup ∧
      (Graph.run iteratorTestOps).HasVertex 10 = true ∧
      (Graph.run iteratorTestOps).NumVertices = 7 :=
  ⟨by decide, (Graph.Vertices_enumerates iteratorTestOps).1,
    ((Graph.Vertices_enumerates iteratorTestOps).2.1 10).1 (by decide), by decide⟩

/-- C37: in every reachable `OrientedGraph` state, every id stored in an outgoing set
has an entry in `incomingEdges` and every id stored in an incoming set has an entry in
`edges`; after `RemoveVertex(v)` the keys of each map are the previous keys without
`v`, so the indexing `incomingEdges[neighbourId]` and `edges[neighbourId]` inside
`RemoveVertex` creates no entry. -/
theorem OrientedGraph.RemoveVertex_creates_no_entry (ops : List Op) (v : Nat) :
    (∀ a b s, (OrientedGraph.run ops).Edges a = some s → b ∈ s →
        ∃ t, (OrientedGraph.run ops).IncomingEdges b = some t) ∧
      (∀ a b s, (OrientedGraph.run ops).IncomingEdges b = some s → a ∈ s →
        ∃ t, (OrientedGraph.run ops).Edges a = some t) ∧
      (∀ k, k ∈ AdjMap.keys ((OrientedGraph.run ops).RemoveVertex v).edges ↔
        k ∈ AdjMap.keys (OrientedGraph.run ops).edges ∧ k ≠ v) ∧
      (∀ k, k ∈ AdjMap.keys ((OrientedGraph.run ops).RemoveVertex v).incomingEdges ↔
        k ∈ AdjMap.keys (OrientedGraph.run ops).incomingEdges ∧ k ≠ v) := by
  have hm := OrientedGraph.mirror_run ops
  refine ⟨?_, ?_, ?_, ?_⟩
  · intro a b s hs hb
    have h1 : AdjMap.rel (OrientedGraph.run ops).edges a b := ⟨s, hs, hb⟩
    exact (AdjMap.has_iff _ b).1 (AdjMap.has_of_rel ((hm a b).1 h1))
  · intro a b s hs ha
    have h1 : AdjMap.rel (OrientedGraph.run ops).incomingEdges b a := ⟨s, hs, ha⟩
    exact (AdjMap.has_iff _ a).1 (AdjMap.has_of_rel ((hm a b).2 h1))
  · intro k
    rw [← AdjMap.find_isSome_iff_mem_keys, ← AdjMap.find_isSome_iff_mem_keys]
    exact OrientedGraph.hasOut_RemoveVertex _ hm v k
  · intro k
    rw [← AdjMap.find_isSome_iff_mem_keys, ← AdjMap.find_isSome_iff_mem_keys]
    exact OrientedGraph.hasIn_RemoveVertex _ hm v k

/-- Witness of C37 in the state left by `AddEdge(1, 2)`, where the id 2 has an entry
in `incomingEdges` only: `RemoveVertex(2)` leaves the keys of `edges` as they were and
removes the key 2 from `incomingEdges`. -/
theorem OrientedGraph.RemoveVertex_creates_no_entry_witness :
    (OrientedGraph.run [.AddEdge 1 2]).Edges 1 = some [2] ∧
      (∃ t, (OrientedGraph.run [.AddEdge 1 2]).IncomingEdges 2 = some t) ∧
      AdjMap.keys ((OrientedGraph.run [.AddEdge 1 2]).RemoveVertex 2).edges = [1] ∧
      AdjMap.keys ((OrientedGraph.run [.AddEdge 1 2]).RemoveVertex 2).incomingEdges = [] ∧
      1 ∈ AdjMap.keys ((OrientedGraph.run [.AddEdge 1 2]).RemoveVertex 2).edges :=
  ⟨by decide,
    (OrientedGraph.RemoveVertex_creates_no_entry [.AddEdge 1 2] 2).1 1 2 [2] (by decide)
      (by decide),
    by decide, by decide,
    ((OrientedGraph.RemoveVertex_creates_no_entry [.AddEdge 1 2] 2).2.2.1 1).2
      ⟨by decide, by decide⟩⟩

/-- C38: in every reachable state of the undirected `Graph`, `HasEdge(a, b)` implies
`HasVertex(a)` and `HasVertex(b)`, and `Edges(b)` succeeds for every `b` in the set
returned by `Edges(a)`. -/
theorem Graph.edge_joins_vertices (ops : List Op) (a : Nat) :
    (∀ b, (Graph.run ops).HasEdge a b = true →
        (Graph.run ops).HasVertex a = true ∧ (Graph.run ops).HasVertex b = true) ∧
      (∀ s, (Graph.run ops).Edges a = some s → ∀ b ∈ s,
        ∃ t, (Graph.run ops).Edges b = some t) := by
  have hinv := Graph.inv_run ops
  constructor
  · intro b h
    have hr := (Graph.hasEdge_iff_rel _ a b).1 h
    exact ⟨AdjMap.has_of_rel hr, hinv.closed a b hr⟩
  · intro s hs b hb
    exact (AdjMap.has_iff _ b).1 (hinv.closed a b ⟨s, hs, hb⟩)

/-- Witness of C38 on the graph of `GraphIteratorTest`: the edge (3, 5) made 5 a
vertex. -/
theorem Graph.edge_joins_vertices_witness :
    (Graph.run iteratorTestOps).HasEdge 3 5 = true ∧
      (Graph.run iteratorTestOps).HasVertex 5 = true ∧
      (∃ t, (Graph.run iteratorTestOps).Edges 5 = some t) :=
  ⟨by decide, ((Graph.edge_joins_vertices iteratorTestOps 3).1 5 (by decide)).2,
    (Graph.edge_joins_vertices iteratorTestOps 3).2 [5] (by decide) 5 (by decide)⟩

/-! ## Weights kept by the removal operations -/

theorem eraseRefsAndWeights_find {W : Type} (id : Nat) (key : Nat → Nat × Nat)
    (ns : List Nat) (st : AdjMap × WeightMap W) (k : Nat × Nat)
    (h : ∀ n ∈ ns, key n ≠ k) :
    WeightMap.find (eraseRefsAndWeights id key ns st).2 k = WeightMap.find st.2 k := by
  induction ns generalizing st with
  | nil => rfl
  | cons n rest ih =>
    rw [eraseRefsAndWeights, ih _ (fun x hx => h x (List.mem_cons_of_mem _ hx))]
    simp only
    rw [WeightMap.find_eraseKey_weights,
      if_neg (fun e => h n (List.mem_cons_self _ _) e.symm)]

theorem WeightedGraph.find_weights_RemoveVertex {W : Type} (g : WeightedGraph W)
    (v : Nat) (k : Nat × Nat) (h : ∀ n, WeightedGraph.MakeEdgeId v n ≠ k) :
    WeightMap.find (g.RemoveVertex v).weights k = WeightMap.find g.weights k := by
  unfold WeightedGraph.RemoveVertex
  cases hf : AdjMap.find g.edges v with
  | none => rfl
  | some s => exact eraseRefsAndWeights_find v _ s _ k (fun n _ => h n)

theorem WeightedOrientedGraph.find_weights_removeOutgoing {W : Type}
    (g : WeightedOrientedGraph W) (v : Nat) (k : Nat × Nat) (h : k.1 ≠ v) :
    WeightMap.find (g.removeOutgoing v).weights k = WeightMap.find g.weights k := by
  unfold WeightedOrientedGraph.removeOutgoing
  cases hf : AdjMap.find g.edges v with
  | none => rfl
  | some s =>
    refine eraseRefsAndWeights_find v _ s _ k (fun n _ e => h ?_)
    rw [← e]

theorem WeightedOrientedGraph.find_weights_removeIncoming {W : Type}
    (g : WeightedOrientedGraph W) (v : Nat) (k : Nat × Nat) (h : k.2 ≠ v) :
    WeightMap.find (g.removeIncoming v).weights k = WeightMap.find g.weights k := by
  unfold WeightedOrientedGraph.removeIncoming
  cases hf : AdjMap.find g.incomingEdges v with
  | none => rfl
  | some s =>
    refine eraseRefsAndWeights_find v _ s _ k (fun n _ e => h ?_)
    rw [← e]

/-- C36: in both weighted variants and in every state, removal erases only the weights
of the edges it deletes.  After `RemoveVertex(v)`, `EdgeWeight(a, b)` returns what it
returned before for all `a ≠ v`, `b ≠ v`; after `RemoveEdge(a, b)`, `EdgeWeight(c, d)`
returns what it returned before for every unordered pair other than `{a, b}` in
`WeightedGraph` and for every ordered pair other than `(a, b)` in
`WeightedOrientedGraph`. -/
theorem weighted_removal_keeps_other_weights {W : Type} (g : WeightedGraph W)
    (h : WeightedOrientedGraph W) (a b c d v : Nat) :
    (a ≠ v → b ≠ v → (g.RemoveVertex v).EdgeWeight a b = g.EdgeWeight a b) ∧
      (¬ ((c = a ∧ d = b) ∨ (c = b ∧ d = a)) →
        (g.RemoveEdge a b).EdgeWeight c d = g.EdgeWeight c d) ∧
      (a ≠ v → b ≠ v → (h.RemoveVertex v).EdgeWeight a b = h.EdgeWeight a b) ∧
      (¬ (c = a ∧ d = b) → (h.RemoveEdge a b).EdgeWeight c d = h.EdgeWeight c d) := by
  refine ⟨?_, ?_, ?_, ?_⟩
  · intro ha hb
    refine WeightedGraph.find_weights_RemoveVertex g v _ (fun n e => ?_)
    rcases (WeightedGraph.MakeEdgeId_eq_iff a b v n).1 e with h1 | h1
    · exact ha h1.1.symm
    · exact hb h1.1.symm
  · intro hne
    show WeightMap.find (WeightMap.eraseKey g.weights (WeightedGraph.MakeEdgeId a b))
      (WeightedGraph.MakeEdgeId c d) = WeightMap.find g.weights (WeightedGraph.MakeEdgeId c d)
    rw [WeightMap.find_eraseKey_weights,
      if_neg (fun e => hne ((WeightedGraph.MakeEdgeId_eq_iff a b c d).1 e))]
  · intro ha hb
    show WeightMap.find ((h.removeOutgoing v).removeIncoming v).weights (a, b)
      = WeightMap.find h.weights (a, b)
    rw [WeightedOrientedGraph.find_weights_removeIncoming _ v (a, b) hb,
      WeightedOrientedGraph.find_weights_removeOutgoing _ v (a, b) ha]
  · intro hne
    show WeightMap.find (WeightMap.eraseKey h.weights (a, b)) (c, d)
      = WeightMap.find h.weights (c, d)
    rw [WeightMap.find_eraseKey_weights,
      if_neg (fun e => hne ⟨(Prod.mk.inj e).1, (Prod.mk.inj e).2⟩)]

/-- Witness of C36 after the calls of `weightedScenarioOps` (edge between 1 and 2 with
weight 4, self-loop on 2 with weight 6): removing vertex 1, or the edge between 1 and 2,
keeps the weight 6 of the self-loop; in the oriented graph with 1 → 2 and 2 → 1,
removing 1 → 2 keeps the weight 8 of 2 → 1. -/
theorem weighted_removal_keeps_other_weights_witness :
    (WeightedGraph.run weightedScenarioOps).EdgeWeight 2 2 = some 6 ∧
      ((WeightedGraph.run weightedScenarioOps).RemoveVertex 1).EdgeWeight 2 2 =
        (WeightedGraph.run weightedScenarioOps).EdgeWeight 2 2 ∧
      ((WeightedGraph.run weightedScenarioOps).RemoveEdge 1 2).EdgeWeight 2 2 =
        (WeightedGraph.run weightedScenarioOps).EdgeWeight 2 2 ∧
      ((WeightedOrientedGraph.run weightedScenarioOps).RemoveVertex 1).EdgeWeight 2 2 =
        (WeightedOrientedGraph.run weightedScenarioOps).EdgeWeight 2 2 ∧
      weightedTwoWayGraph.EdgeWeight 2 1 = some 8 ∧
      (weightedTwoWayGraph.RemoveEdge 1 2).EdgeWeight 2 1 =
        weightedTwoWayGraph.EdgeWeight 2 1 :=
  ⟨by decide,
    (weighted_removal_keeps_other_weights (WeightedGraph.run weightedScenarioOps)
      weightedTwoWayGraph 2 2 2 2 1).1 (by decide) (by decide),
    (weighted_removal_keeps_other_weights (WeightedGraph.run weightedScenarioOps)
      weightedTwoWayGraph 1 2 2 2 1).2.1 (by decide),
    (weighted_removal_keeps_other_weights (WeightedGraph.run weightedScenarioOps)
      (WeightedOrientedGraph.run weightedScenarioOps) 2 2 2 2 1).2.2.1 (by decide) (by decide),
    by decide,
    (weighted_removal_keeps_other_weights (WeightedGraph.run weightedScenarioOps)
      weightedTwoWayGraph 1 2 2 1 1).2.2.2 (by decide)⟩

/-! ## What a call of `dfs` changes -/

theorem advances_same (g : OrientedGraph) (s : DfsVars) : Advances g s s :=
  ⟨fun _ _ => rfl, [], by simp, List.nodup_nil, fun x hx => absurd hx (List.not_mem_nil x)⟩

theorem advances_setFlag (g : OrientedGraph) (s : DfsVars) :
    Advances g s { s with is_cyclic := true } :=
  ⟨fun _ _ => rfl, [], by simp, List.nodup_nil, fun x hx => absurd hx (List.not_mem_nil x)⟩

theorem advances_visitedMono {g : OrientedGraph} {s s2 : DfsVars} (h : Advances g s s2) :
    VisitedMono s.visited s2.visited := by
  intro x hx
  by_contra hne
  rw [h.frame x hne] at hx
  exact hne hx

theorem advances_andThen {g : OrientedGraph} {s1 s2 s3 : DfsVars} (h12 : Advances g s1 s2)
    (h23 : Advances g s2 s3) : Advances g s1 s3 := by
  have hback := advances_visitedMono h12
  obtain ⟨f12, a1, hr1, hn1, hp1⟩ := h12
  obtain ⟨f23, a2, hr2, hn2, hp2⟩ := h23
  refine ⟨?_, a1 ++ a2, ?_, ?_, ?_⟩
  · intro x hx
    rw [f23 x (by rw [f12 x hx]; exact hx), f12 x hx]
  · rw [hr2, hr1, List.append_assoc]
  · rw [List.nodup_append]
    refine ⟨hn1, hn2, ?_⟩
    intro x h1 h2
    have e1 := (hp1 x h1).2.1
    rw [(hp2 x h2).1] at e1
    cases e1
  · intro x hx
    rcases List.mem_append.1 hx with h | h
    · obtain ⟨p1, p2, p3⟩ := hp1 x h
      refine ⟨p1, ?_, p3⟩
      rw [f23 x (by rw [p2]; decide)]
      exact p2
    · obtain ⟨p1, p2, p3⟩ := hp2 x h
      exact ⟨hback x p1, p2, p3⟩

/-- Entering `dfs` on a `NotVisited` id: `visited[vertex] = Processing`. -/
theorem advances_enter (g : OrientedGraph) (s : DfsVars) (v : Nat)
    (hn : s.visited v = DFSVertexState.NotVisited) :
    Advances g s { s with visited := setVisited s.visited v DFSVertexState.Processing } := by
  refine ⟨?_, [], by simp, List.nodup_nil, fun x hx => absurd hx (List.not_mem_nil x)⟩
  intro x hx
  have hxv : x ≠ v := by
    rintro rfl
    exact hx hn
  exact setVisited_other _ _ _ _ hxv

/-- Leaving `dfs` at its end: `visited[vertex] = Processed; result_order.push_back(vertex)`. -/
theorem advances_exit (g : OrientedGraph) (s s1 : DfsVars) (v : Nat)
    (h : Advances g s s1) (hn : s.visited v = DFSVertexState.NotVisited)
    (hp : s1.visited v = DFSVertexState.Processing) (hv : g.HasVertex v = true) :
    Advances g s { s1 with
      visited := setVisited s1.visited v DFSVertexState.Processed
      result_order := s1.result_order ++ [v] } := by
  obtain ⟨f, a, hr, hnd, hpa⟩ := h
  have hne : ∀ x ∈ a, x ≠ v := by
    rintro x hx rfl
    have e := (hpa x hx).2.1
    rw [hp] at e
    cases e
  refine ⟨?_, a ++ [v], ?_, ?_, ?_⟩
  · intro x hx
    have hxv : x ≠ v := by
      rintro rfl
      exact hx hn
    show setVisited s1.visited v DFSVertexState.Processed x = s.visited x
    rw [setVisited_other _ _ _ _ hxv]
    exact f x hx
  · show s1.result_order ++ [v] = s.result_order ++ (a ++ [v])
    rw [hr, List.append_assoc]
  · rw [List.nodup_append]
    refine ⟨hnd, List.nodup_singleton v, ?_⟩
    intro x h1 h2
    rw [List.mem_singleton] at h2
    exact hne x h1 h2
  · intro x hx
    show s.visited x = DFSVertexState.NotVisited ∧
      setVisited s1.visited v DFSVertexState.Processed x = DFSVertexState.Processed ∧
      g.HasVertex x = true
    rcases List.mem_append.1 hx with h1 | h1
    · obtain ⟨p1, p2, p3⟩ := hpa x h1
      rw [setVisited_other _ _ _ _ (hne x h1)]
      exact ⟨p1, p2, p3⟩
    · rw [List.mem_singleton] at h1
      subst h1
      exact ⟨hn, setVisited_same _ _ _, hv⟩

theorem dfsLoop_advances (g : OrientedGraph) (call : Nat → DfsVars → SortResult DfsVars)
    (hcall : ∀ d s s2, call d s = .ok s2 → s.visited d = DFSVertexState.NotVisited →
      Advances g s s2)
    (ds : List Nat) :
    ∀ st b st2, dfsLoop call ds st = .ok (b, st2) → Advances g st st2 := by
  induction ds with
  | nil =>
    intro st b st2 h
    simp only [dfsLoop, SortResult.ok.injEq, Prod.mk.injEq] at h
    obtain ⟨-, rfl⟩ := h
    exact advances_same g st
  | cons d rest ihl =>
    intro st b st2 h
    have key : ∀ st1, Advances g st st1 →
        (if st1.visited d = DFSVertexState.Processing then
            SortResult.ok (true, { st1 with is_cyclic := true })
          else dfsLoop call rest st1) = .ok (b, st2) → Advances g st st2 := by
      intro st1 h1 h2
      by_cases hp : st1.visited d = DFSVertexState.Processing
      · rw [if_pos hp] at h2
        simp only [SortResult.ok.injEq, Prod.mk.injEq] at h2
        obtain ⟨-, rfl⟩ := h2
        exact advances_andThen h1 (advances_setFlag g st1)
      · rw [if_neg hp] at h2
        exact advances_andThen h1 (ihl st1 b st2 h2)
    unfold dfsLoop at h
    by_cases hd : st.visited d = DFSVertexState.NotVisited
    · rw [if_pos hd] at h
      cases hres : call d st with
      | out_of_range => rw [hres] at h; cases h
      | out_of_fuel => rw [hres] at h; cases h
      | ok st1 =>
        rw [hres] at h
        exact key st1 (hcall d st st1 hres hd) h
    · rw [if_neg hd] at h
      exact key st (advances_same g st) h

theorem dfs_advances (g : OrientedGraph) (fuel : Nat) :
    ∀ v st st2, dfs fuel g v st = .ok st2 →
      st.visited v = DFSVertexState.NotVisited → Advances g st st2 := by
  induction fuel with
  | zero =>
    intro v st st2 h
    simp [dfs] at h
  | succ fuel ih =>
    intro v st st2 h hn
    unfold dfs at h
    cases hE : g.Edges v with
    | none => rw [hE] at h; cases h
    | some ds =>
      rw [hE] at h
      simp only at h
      cases hloop : dfsLoop (dfs fuel g) ds
          { st with visited := setVisited st.visited v DFSVertexState.Processing } with
      | out_of_range => rw [hloop] at h; cases h
      | out_of_fuel => rw [hloop] at h; cases h
      | ok res =>
        obtain ⟨b, st1⟩ := res
        rw [hloop] at h
        have h01 := dfsLoop_advances g (dfs fuel g) ih ds _ b st1 hloop
        have hv1 : st1.visited v = DFSVertexState.Processing := by
          have := h01.frame v (by
            show setVisited st.visited v DFSVertexState.Processing v
              ≠ DFSVertexState.NotVisited
            rw [setVisited_same]
            decide)
          rw [this]
          exact setVisited_same _ _ _
        have h1 : Advances g st st1 := advances_andThen (advances_enter g st v hn) h01
        cases b with
        | true =>
          simp only [SortResult.ok.injEq] at h
          subst h
          exact h1
        | false =>
          simp only [SortResult.ok.injEq] at h
          subst h
          exact advances_exit g st st1 v h1 hn hv1 (OrientedGraph.hasVertex_of_Edges hE)

theorem sortLoop_advances (g : OrientedGraph) (fuel : Nat) (vs : List Nat) :
    ∀ st st2, sortLoop fuel g vs st = .ok (some st2) → Advances g st st2 := by
  induction vs with
  | nil =>
    intro st st2 h
    simp only [sortLoop, SortResult.ok.injEq, Option.some.injEq] at h
    subst h
    exact advances_same g st
  | cons v rest ihl =>
    intro st st2 h
    unfold sortLoop at h
    by_cases hcy : st.is_cyclic = true
    · rw [if_pos hcy] at h
      cases h
    · rw [if_neg hcy] at h
      by_cases hn : st.visited v = DFSVertexState.NotVisited
      · rw [if_pos hn] at h
        cases hcall : dfs fuel g v st with
        | out_of_range => rw [hcall] at h; cases h
        | out_of_fuel => rw [hcall] at h; cases h
        | ok st1 =>
          rw [hcall] at h
          exact advances_andThen (dfs_advances g fuel v st st1 hcall hn) (ihl st1 st2 h)
      · rw [if_neg hn] at h
        exact ihl st st2 h

/-! ## The result of `TopologicalSort` lists vertices, each once -/

/-- C39: on every `OrientedGraph`, cyclic or not, a sequence returned by
`TopologicalSort` contains no id twice and only ids satisfying `HasVertex`; every call
of `dfs` on a `NotVisited` id appends pairwise distinct ids that it turned from
`NotVisited` into `Processed`; and when every edge endpoint is a vertex,
`TopologicalSort` does return. -/
theorem TopologicalSort_no_duplicates (g : OrientedGraph) (fuel : Nat) :
    (∀ r, TopologicalSort fuel g = .ok r → r.Nodup ∧ ∀ x ∈ r, g.HasVertex x = true) ∧
      (∀ v st st2, dfs fuel g v st = .ok st2 →
        st.visited v = DFSVertexState.NotVisited → Advances g st st2) ∧
      (g.EdgeClosed → g.NumVertices ≤ fuel → ∃ r, TopologicalSort fuel g = .ok r) := by
  refine ⟨?_, dfs_advances g fuel, fun hc hfuel => TopologicalSort_returns g hc fuel hfuel⟩
  intro r h
  unfold TopologicalSort at h
  cases hloop : sortLoop fuel g g.Vertices initialVars with
  | out_of_range => rw [hloop] at h; cases h
  | out_of_fuel => rw [hloop] at h; cases h
  | ok res =>
    rw [hloop] at h
    cases res with
    | none =>
      simp only [SortResult.ok.injEq] at h
      subst h
      exact ⟨List.nodup_nil, fun x hx => absurd hx (List.not_mem_nil x)⟩
    | some st2 =>
      simp only [SortResult.ok.injEq] at h
      subst h
      obtain ⟨-, a, hr, hnd, hpa⟩ := sortLoop_advances g fuel g.Vertices initialVars st2 hloop
      have hr2 : st2.result_order = a := by
        rw [hr]
        rfl
      rw [hr2]
      exact ⟨List.nodup_reverse.2 hnd, fun x hx => (hpa x (List.mem_reverse.1 hx)).2.2⟩

/-- Witness of C39 on cyclic graphs: the graph with vertices 1, 2 and the self-loop on
2, for which the sequence `[1]` is returned, and the graph with the edges 1 → 3, 1 → 2,
2 → 1, whose vertices all have entries, so the sort returns. -/
theorem TopologicalSort_no_duplicates_witness :
    TopologicalSort 2 selfLoopLastGraph = .ok [1] ∧
      selfLoopLastGraph.HasVertex 1 = true ∧
      (∃ r, TopologicalSort 3 cycleAfterLeafGraph = .ok r) :=
  ⟨rfl,
    ((TopologicalSort_no_duplicates selfLoopLastGraph 2).1 [1] rfl).2 1 (by decide),
    (TopologicalSort_no_duplicates cycleAfterLeafGraph 3).2.2
      (cycleAfterLeafGraph.edgeClosed_of_edgeList (by decide)) (by decide)⟩

/-! ## `dfs` terminates on every graph -/

theorem dfsLoop_congr_call (call call2 : Nat → DfsVars → SortResult DfsVars)
    (hc : ∀ d s r, call d s = r → r ≠ SortResult.out_of_fuel → call2 d s = r)
    (ds : List Nat) :
    ∀ st r, dfsLoop call ds st = r → r ≠ SortResult.out_of_fuel →
      dfsLoop call2 ds st = r := by
  induction ds with
  | nil =>
    intro st r h _
    exact h
  | cons d rest ihl =>
    intro st r h hr
    unfold dfsLoop at h ⊢
    by_cases hd : st.visited d = DFSVertexState.NotVisited
    · rw [if_pos hd] at h ⊢
      cases hres : call d st with
      | out_of_range =>
        rw [hres] at h
        rw [hc d st _ hres (by simp)]
        exact h
      | out_of_fuel =>
        rw [hres] at h
        exact absurd h.symm hr
      | ok st1 =>
        rw [hres] at h
        rw [hc d st _ hres (by simp)]
        simp only at h ⊢
        by_cases hp : st1.visited d = DFSVertexState.Processing
        · rw [if_pos hp] at h ⊢
          exact h
        · rw [if_neg hp] at h ⊢
          exact ihl st1 r h hr
    · rw [if_neg hd] at h ⊢
      simp only at h ⊢
      by_cases hp : st.visited d = DFSVertexState.Processing
      · rw [if_pos hp] at h ⊢
        exact h
      · rw [if_neg hp] at h ⊢
        exact ihl st r h hr

theorem dfs_fuel_succ (g : OrientedGraph) (fuel : Nat) :
    ∀ v st r, dfs fuel g v st = r → r ≠ SortResult.out_of_fuel →
      dfs (fuel + 1) g v st = r := by
  induction fuel with
  | zero =>
    intro v st r h hr
    exact absurd h.symm hr
  | succ fuel ih =>
    intro v st r h hr
    rw [dfs] at h ⊢
    cases hE : g.Edges v with
    | none =>
      rw [hE] at h
      exact h
    | some ds =>
      rw [hE] at h
      simp only at h ⊢
      cases hloop : dfsLoop (dfs fuel g) ds
          { st with visited := setVisited st.visited v DFSVertexState.Processing } with
      | out_of_fuel =>
        rw [hloop] at h
        exact absurd h.symm hr
      | out_of_range =>
        rw [dfsLoop_congr_call (dfs fuel g) (dfs (fuel + 1) g) ih ds _ _ hloop (by simp)]
        rw [hloop] at h
        exact h
      | ok res =>
        rw [dfsLoop_congr_call (dfs fuel g) (dfs (fuel + 1) g) ih ds _ _ hloop (by simp)]
        rw [hloop] at h
        exact h

theorem dfs_fuel_add (g : OrientedGraph) (fuel k : Nat) (v : Nat) (st : DfsVars)
    (r : SortResult DfsVars) (h : dfs fuel g v st = r) (hr : r ≠ SortResult.out_of_fuel) :
    dfs (fuel + k) g v st = r := by
  induction k with
  | zero => exact h
  | succ k ih => exact dfs_fuel_succ g (fuel + k) v st r ih hr

theorem sortLoop_fuel_add (g : OrientedGraph) (fuel k : Nat) (vs : List Nat) :
    ∀ st r, sortLoop fuel g vs st = r → r ≠ SortResult.out_of_fuel →
      sortLoop (fuel + k) g vs st = r := by
  induction vs with
  | nil =>
    intro st r h _
    exact h
  | cons v rest ihl =>
    intro st r h hr
    unfold sortLoop at h ⊢
    by_cases hcy : st.is_cyclic = true
    · rw [if_pos hcy] at h ⊢
      exact h
    · rw [if_neg hcy] at h ⊢
      by_cases hn : st.visited v = DFSVertexState.NotVisited
      · rw [if_pos hn] at h ⊢
        cases hcall : dfs fuel g v st with
        | out_of_fuel =>
          rw [hcall] at h
          exact absurd h.symm hr
        | out_of_range =>
          rw [dfs_fuel_add g fuel k v st _ hcall (by simp)]
          rw [hcall] at h
          exact h
        | ok st1 =>
          rw [dfs_fuel_add g fuel k v st _ hcall (by simp)]
          rw [hcall] at h
          exact ihl st1 r h hr
      · rw [if_neg hn] at h ⊢
        exact ihl st r h hr

theorem TopologicalSort_fuel_add (g : OrientedGraph) (fuel k : Nat)
    (r : SortResult (List Nat)) (h : TopologicalSort fuel g = r)
    (hr : r ≠ SortResult.out_of_fuel) : TopologicalSort (fuel + k) g = r := by
  unfold TopologicalSort at h ⊢
  cases hloop : sortLoop fuel g g.Vertices initialVars with
  | out_of_fuel =>
    rw [hloop] at h
    exact absurd h.symm hr
  | out_of_range =>
    rw [sortLoop_fuel_add g fuel k g.Vertices _ _ hloop (by simp)]
    rw [hloop] at h
    exact h
  | ok res =>
    rw [sortLoop_fuel_add g fuel k g.Vertices _ _ hloop (by simp)]
    rw [hloop] at h
    exact h

theorem dfsLoop_terminates (g : OrientedGraph) (fuel : Nat)
    (ih : ∀ v st, st.visited v = DFSVertexState.NotVisited →
      pending g.Vertices st.visited < fuel → dfs fuel g v st ≠ SortResult.out_of_fuel)
    (ds : List Nat) :
    ∀ st, pending g.Vertices st.visited < fuel →
      dfsLoop (dfs fuel g) ds st ≠ SortResult.out_of_fuel := by
  induction ds with
  | nil =>
    intro st _
    simp [dfsLoop]
  | cons d rest ihl =>
    intro st hfuel
    have key : ∀ st1, pending g.Vertices st1.visited < fuel →
        (if st1.visited d = DFSVertexState.Processing then
            SortResult.ok (true, { st1 with is_cyclic := true })
          else dfsLoop (dfs fuel g) rest st1) ≠ SortResult.out_of_fuel := by
      intro st1 h1
      by_cases hp : st1.visited d = DFSVertexState.Processing
      · rw [if_pos hp]
        simp
      · rw [if_neg hp]
        exact ihl st1 h1
    unfold dfsLoop
    by_cases hd : st.visited d = DFSVertexState.NotVisited
    · rw [if_pos hd]
      cases hres : dfs fuel g d st with
      | out_of_range => simp
      | out_of_fuel => exact absurd hres (ih d st hd hfuel)
      | ok st1 =>
        exact key st1 (lt_of_le_of_lt
          (pending_mono _ (advances_visitedMono (dfs_advances g fuel d st st1 hres hd))) hfuel)
    · rw [if_neg hd]
      exact key st hfuel

theorem dfs_no_out_of_fuel (g : OrientedGraph) (fuel : Nat) :
    ∀ v st, st.visited v = DFSVertexState.NotVisited →
      pending g.Vertices st.visited < fuel → dfs fuel g v st ≠ SortResult.out_of_fuel := by
  induction fuel with
  | zero =>
    intro v st _ hfuel
    exact absurd hfuel (Nat.not_lt_zero _)
  | succ fuel ih =>
    intro v st hn hfuel
    rw [dfs]
    cases hE : g.Edges v with
    | none => simp
    | some ds =>
      have hlt := pending_set_lt g.Vertices st.visited v
        ((g.hasVertex_iff_mem_Vertices v).1 (OrientedGraph.hasVertex_of_Edges hE)) hn
      have hloop := dfsLoop_terminates g fuel ih ds
        { st with visited := setVisited st.visited v DFSVertexState.Processing }
        (by simp only; omega)
      simp only
      cases hres : dfsLoop (dfs fuel g) ds
          { st with visited := setVisited st.visited v DFSVertexState.Processing } with
      | out_of_range => simp
      | out_of_fuel => exact absurd hres hloop
      | ok res =>
        obtain ⟨b, st1⟩ := res
        cases b <;> simp

theorem sortLoop_no_out_of_fuel (g : OrientedGraph) (fuel : Nat) (vs : List Nat) :
    ∀ st, pending g.Vertices st.visited < fuel →
      sortLoop fuel g vs st ≠ SortResult.out_of_fuel := by
  induction vs with
  | nil =>
    intro st _
    simp [sortLoop]
  | cons v rest ihl =>
    intro st hfuel
    unfold sortLoop
    by_cases hcy : st.is_cyclic = true
    · rw [if_pos hcy]
      simp
    · rw [if_neg hcy]
      by_cases hn : st.visited v = DFSVertexState.NotVisited
      · rw [if_pos hn]
        cases hcall : dfs fuel g v st with
        | out_of_range => simp
        | out_of_fuel => exact absurd hcall (dfs_no_out_of_fuel g fuel v st hn hfuel)
        | ok st1 =>
          exact ihl st1 (lt_of_le_of_lt
            (pending_mono _ (advances_visitedMono (dfs_advances g fuel v st st1 hcall hn)))
            hfuel)
      · rw [if_neg hn]
        exact ihl st hfuel

theorem TopologicalSort_no_out_of_fuel (g : OrientedGraph) (fuel : Nat)
    (hfuel : g.NumVertices < fuel) : TopologicalSort fuel g ≠ SortResult.out_of_fuel := by
  have h := sortLoop_no_out_of_fuel g fuel g.Vertices initialVars
    (lt_of_le_of_lt (pending_initial_le g) hfuel)
  unfold TopologicalSort
  cases hloop : sortLoop fuel g g.Vertices initialVars with
  | out_of_range => simp
  | out_of_fuel => exact absurd hloop h
  | ok res => cases res <;> simp

/-- C34: on every `OrientedGraph`, cyclic or not, a call of `dfs` on a `NotVisited` id
terminates.  Marking a vertex `Processing` strictly lowers the number of `NotVisited`
vertices, and with any fuel above that number the embedding yields one and the same
outcome, which is not `out_of_fuel`; likewise `TopologicalSort` yields one outcome for
every fuel above `NumVertices()`. -/
theorem dfs_terminates (g : OrientedGraph) (v : Nat) (st : DfsVars)
    (hn : st.visited v = DFSVertexState.NotVisited) :
    (g.HasVertex v = true →
        pending g.Vertices (setVisited st.visited v DFSVertexState.Processing)
          < pending g.Vertices st.visited) ∧
      (∃ r, r ≠ SortResult.out_of_fuel ∧
        ∀ fuel, pending g.Vertices st.visited < fuel → dfs fuel g v st = r) ∧
      (∃ r, r ≠ SortResult.out_of_fuel ∧
        ∀ fuel, g.NumVertices < fuel → TopologicalSort fuel g = r) := by
  refine ⟨fun hv => pending_set_lt g.Vertices st.visited v
    ((g.hasVertex_iff_mem_Vertices v).1 hv) hn, ?_, ?_⟩
  · have h0 := dfs_no_out_of_fuel g (pending g.Vertices st.visited + 1) v st hn
      (Nat.lt_succ_self _)
    refine ⟨_, h0, ?_⟩
    intro fuel hfuel
    obtain ⟨k, rfl⟩ := Nat.exists_eq_add_of_le (Nat.succ_le_of_lt hfuel)
    exact dfs_fuel_add g _ k v st _ rfl h0
  · have h0 := TopologicalSort_no_out_of_fuel g (g.NumVertices + 1) (Nat.lt_succ_self _)
    refine ⟨_, h0, ?_⟩
    intro fuel hfuel
    obtain ⟨k, rfl⟩ := Nat.exists_eq_add_of_le (Nat.succ_le_of_lt hfuel)
    exact TopologicalSort_fuel_add g _ k _ rfl h0

/-- Witness of C34 on a cyclic graph (edges 1 → 3, 1 → 2, 2 → 1) and on the graph left
by `AddEdge(1, 2)`, whose edge ends in an id without entry: the sort of the first
returns, the sort of the second ends with `std::out_of_range`. -/
theorem dfs_terminates_witness :
    initialVars.visited 1 = DFSVertexState.NotVisited ∧
      (∃ r, r ≠ SortResult.out_of_fuel ∧
        ∀ fuel, pending cycleAfterLeafGraph.Vertices initialVars.visited < fuel →
          dfs fuel cycleAfterLeafGraph 1 initialVars = r) ∧
      TopologicalSort 4 cycleAfterLeafGraph = .ok [] ∧
      TopologicalSort 2 danglingEdgeGraph = .out_of_range :=
  ⟨rfl, (dfs_terminates cycleAfterLeafGraph 1 initialVars rfl).2.1, rfl, rfl⟩

/-! ## After `is_cyclic` is set, every frame of `dfs` returns at once -/

theorem dfsLoop_outcome (g : OrientedGraph) (fuel : Nat)
    (ih : ∀ v st st2, dfs fuel g v st = .ok st2 → st.is_cyclic = false →
      st.visited v = DFSVertexState.NotVisited →
      (st2.is_cyclic = false ∧ st2.visited v = DFSVertexState.Processed) ∨
        (st2.visited v = DFSVertexState.Processing ∧
          ∃ sd, Detected g fuel v st sd ∧ sd.is_cyclic = false ∧
            st2 = { sd with is_cyclic := true }))
    (ds : List Nat) :
    ∀ st b st2, dfsLoop (dfs fuel g) ds st = .ok (b, st2) → st.is_cyclic = false →
      (b = false ∧ st2.is_cyclic = false) ∨
        (b = true ∧ ∃ pre d post s1, ds = pre ++ d :: post ∧
          dfsLoop (dfs fuel g) pre st = .ok (false, s1) ∧ s1.is_cyclic = false ∧
          ((s1.visited d = DFSVertexState.Processing ∧ st2 = { s1 with is_cyclic := true }) ∨
            (s1.visited d = DFSVertexState.NotVisited ∧
              ∃ sd, Detected g fuel d s1 sd ∧ sd.is_cyclic = false ∧
                st2 = { sd with is_cyclic := true }))) := by
  induction ds with
  | nil =>
    intro st b st2 h hc
    simp only [dfsLoop, SortResult.ok.injEq, Prod.mk.injEq] at h
    obtain ⟨rfl, rfl⟩ := h
    exact Or.inl ⟨rfl, hc⟩
  | cons d rest ihl =>
    intro st b st2 h hc
    unfold dfsLoop at h
    by_cases hd : st.visited d = DFSVertexState.NotVisited
    · rw [if_pos hd] at h
      cases hres : dfs fuel g d st with
      | out_of_range => rw [hres] at h; cases h
      | out_of_fuel => rw [hres] at h; cases h
      | ok st1 =>
        rw [hres] at h
        simp only at h
        rcases ih d st st1 hres hc hd with ⟨hc1, hd1⟩ | ⟨hd1, sd, hdet, hsd, hst1⟩
        · have hnp : ¬ st1.visited d = DFSVertexState.Processing := by
            rw [hd1]
            decide
          rw [if_neg hnp] at h
          rcases ihl st1 b st2 h hc1 with hl | ⟨hb, pre, d2, post, s1, hds, hpre, hs1, hcase⟩
          · exact Or.inl hl
          · refine Or.inr ⟨hb, d :: pre, d2, post, s1, by rw [hds]; rfl, ?_, hs1, hcase⟩
            unfold dfsLoop
            rw [if_pos hd, hres]
            simp only
            rw [if_neg hnp]
            exact hpre
        · rw [if_pos hd1] at h
          simp only [SortResult.ok.injEq, Prod.mk.injEq] at h
          obtain ⟨rfl, rfl⟩ := h
          refine Or.inr ⟨rfl, [], d, rest, st, rfl, rfl, hc, Or.inr ⟨hd, sd, hdet, hsd, ?_⟩⟩
          rw [hst1]
    · rw [if_neg hd] at h
      simp only at h
      by_cases hp : st.visited d = DFSVertexState.Processing
      · rw [if_pos hp] at h
        simp only [SortResult.ok.injEq, Prod.mk.injEq] at h
        obtain ⟨rfl, rfl⟩ := h
        exact Or.inr ⟨rfl, [], d, rest, st, rfl, rfl, hc, Or.inl ⟨hp, rfl⟩⟩
      · rw [if_neg hp] at h
        rcases ihl st b st2 h hc with hl | ⟨hb, pre, d2, post, s1, hds, hpre, hs1, hcase⟩
        · exact Or.inl hl
        · refine Or.inr ⟨hb, d :: pre, d2, post, s1, by rw [hds]; rfl, ?_, hs1, hcase⟩
          unfold dfsLoop
          rw [if_neg hd]
          simp only
          rw [if_neg hp]
          exact hpre

/-- A call of `dfs` on a `NotVisited` id, entered with the flag unset, either ends
normally, with the flag unset and its vertex `Processed`, or returns with its vertex
still `Processing` and with exactly the variables of the moment at which
`is_cyclic = true` was reached, the flag apart. -/
theorem dfs_outcome (g : OrientedGraph) (fuel : Nat) :
    ∀ v st st2, dfs fuel g v st = .ok st2 → st.is_cyclic = false →
      st.visited v = DFSVertexState.NotVisited →
      (st2.is_cyclic = false ∧ st2.visited v = DFSVertexState.Processed) ∨
        (st2.visited v = DFSVertexState.Processing ∧
          ∃ sd, Detected g fuel v st sd ∧ sd.is_cyclic = false ∧
            st2 = { sd with is_cyclic := true }) := by
  induction fuel with
  | zero =>
    intro v st st2 h
    simp [dfs] at h
  | succ fuel ih =>
    intro v st st2 h hc hn
    unfold dfs at h
    cases hE : g.Edges v with
    | none => rw [hE] at h; cases h
    | some ds =>
      rw [hE] at h
      simp only at h
      cases hloop : dfsLoop (dfs fuel g) ds
          { st with visited := setVisited st.visited v DFSVertexState.Processing } with
      | out_of_range => rw [hloop] at h; cases h
      | out_of_fuel => rw [hloop] at h; cases h
      | ok res =>
        obtain ⟨b, st1⟩ := res
        rw [hloop] at h
        have h01 := dfsLoop_advances g (dfs fuel g) (dfs_advances g fuel) ds _ b st1 hloop
        have hv1 : st1.visited v = DFSVertexState.Processing := by
          have := h01.frame v (by
            show setVisited st.visited v DFSVertexState.Processing v
              ≠ DFSVertexState.NotVisited
            rw [setVisited_same]
            decide)
          rw [this]
          exact setVisited_same _ _ _
        rcases dfsLoop_outcome g fuel ih ds _ b st1 hloop hc with
          ⟨hb, hc1⟩ | ⟨hb, pre, d, post, s1, hds, hpre, hs1, hcase⟩
        · subst hb
          simp only [SortResult.ok.injEq] at h
          subst h
          exact Or.inl ⟨hc1, setVisited_same _ _ _⟩
        · subst hb
          simp only [SortResult.ok.injEq] at h
          subst h
          rw [hds] at hE
          refine Or.inr ⟨hv1, ?_⟩
          rcases hcase with ⟨hp, hst⟩ | ⟨hnv, sd, hdet, hsd, hst⟩
          · exact ⟨s1, Detected.inFrame fuel v st pre d post s1 hE hpre hp, hs1, hst⟩
          · exact ⟨sd, Detected.inCall fuel v st pre d post s1 sd hE hpre hnv hdet, hsd, hst⟩

/-- C35: when a call of `dfs` made by `TopologicalSort` (flag unset, vertex
`NotVisited`) returns with `is_cyclic` set, its vertex and every vertex that was
`Processing` at entry are still `Processing`, the variables are exactly those of the
moment `sd` at which `is_cyclic = true` was reached, the flag apart, so `result_order`
is the one of that moment, and the loop of `TopologicalSort` starts no further `dfs`:
whatever vertices remain, it ends without consulting `dfs` (the statement holds for
fuel 0 as well). -/
theorem dfs_cycle_short_circuit (g : OrientedGraph) (fuel : Nat) (v : Nat)
    (st st2 : DfsVars) (hc : st.is_cyclic = false)
    (hn : st.visited v = DFSVertexState.NotVisited) (h : dfs fuel g v st = .ok st2)
    (hcy : st2.is_cyclic = true) :
    st2.visited v = DFSVertexState.Processing ∧
      (∀ x, st.visited x = DFSVertexState.Processing →
        st2.visited x = DFSVertexState.Processing) ∧
      (∃ sd, Detected g fuel v st sd ∧ sd.is_cyclic = false ∧
        st2.visited = sd.visited ∧ st2.result_order = sd.result_order) ∧
      (∀ fuel2 rest, sortLoop fuel2 g rest st2 =
        .ok (match rest with
          | [] => some st2
          | _ :: _ => none)) := by
  rcases dfs_outcome g fuel v st st2 h hc hn with ⟨hc2, -⟩ | ⟨hv, sd, hdet, hsd, hst⟩
  · rw [hcy] at hc2
    cases hc2
  · refine ⟨hv, ?_, ⟨sd, hdet, hsd, by rw [hst], by rw [hst]⟩, ?_⟩
    · intro x hx
      rw [(dfs_advances g fuel v st st2 h hn).frame x (by rw [hx]; decide)]
      exact hx
    · intro fuel2 rest
      cases rest with
      | nil => rfl
      | cons w rest2 =>
        unfold sortLoop
        rw [if_pos hcy]

/-- Witness of C35 on the graph with the edges 1 → 3, 1 → 2, 2 → 1: the call
`dfs(graph, 1, ...)` processes 3, meets the cycle in the frame of 2, and returns with
`result_order = [3]` and the vertices 1 and 2 still `Processing`. -/
theorem dfs_cycle_short_circuit_witness :
    dfs 3 cycleAfterLeafGraph 1 initialVars = .ok cycleAfterLeafVars ∧
      cycleAfterLeafVars.result_order = [3] ∧
      cycleAfterLeafVars.visited 1 = DFSVertexState.Processing ∧
      cycleAfterLeafVars.visited 2 = DFSVertexState.Processing ∧
      (∃ sd, Detected cycleAfterLeafGraph 3 1 initialVars sd ∧ sd.is_cyclic = false ∧
        cycleAfterLeafVars.visited = sd.visited ∧
        cycleAfterLeafVars.result_order = sd.result_order) ∧
      sortLoop 0 cycleAfterLeafGraph [2, 3] cycleAfterLeafVars = .ok none :=
  ⟨rfl, rfl,
    (dfs_cycle_short_circuit cycleAfterLeafGraph 3 1 initialVars cycleAfterLeafVars rfl rfl
      rfl rfl).1,
    rfl,
    (dfs_cycle_short_circuit cycleAfterLeafGraph 3 1 initialVars cycleAfterLeafVars rfl rfl
      rfl rfl).2.2.1,
    (dfs_cycle_short_circuit cycleAfterLeafGraph 3 1 initialVars cycleAfterLeafVars rfl rfl
      rfl rfl).2.2.2 0 [2, 3]⟩

end graph

namespace geometry

/-! ## Reads and writes at the end of a prefix -/

theorem getD_append_length {T : Type} (A : List T) (x : T) (rest : List T) (d : T) :
    (A ++ x :: rest).getD A.length d = x := by
  induction A with
  | nil => rfl
  | cons a A ih => simpa using ih

theorem set_append_length {T : Type} (A : List T) (x y : T) (rest : List T) :
    (A ++ x :: rest).set A.length y = A ++ y :: rest := by
  induction A with
  | nil => rfl
  | cons a A ih => simp [ih]

/-! ## The inner loop inserts `current` into the prefix -/

/-- Run on an array `A ++ h :: B` from `j = A.length`, the inner loop followed by
`data[j] = current` splits `A` into `A1 ++ A2` and leaves `A1 ++ current :: A2 ++ B`:
the comparator is negative on every element of `A2` and non-negative on the last
element of `A1`. -/
theorem innerLoop_spec {T : Type} [Inhabited T] (cmp : T → T → Int) (current : T)
    (A : List T) : ∀ (h : T) (B : List T),
    ∃ A1 A2, A = A1 ++ A2 ∧ (∀ x ∈ A2, ¬ cmp current x ≥ 0) ∧
      (A1 = [] ∨ ∃ A0 x, A1 = A0 ++ [x] ∧ cmp current x ≥ 0) ∧
      (innerLoop cmp current A.length (A ++ h :: B)).2.set
        (innerLoop cmp current A.length (A ++ h :: B)).1 current
        = A1 ++ current :: (A2 ++ B) := by
  induction A using List.reverseRecOn with
  | nil =>
    intro h B
    exact ⟨[], [], rfl, by simp, Or.inl rfl, rfl⟩
  | append_singleton A x ih =>
    intro h B
    have hlen : (A ++ [x]).length = A.length + 1 := by simp
    have hdata : A ++ [x] ++ h :: B = A ++ x :: h :: B := by simp
    rw [hlen, hdata, innerLoop, getD_append_length]
    by_cases hc : cmp current x ≥ 0
    · rw [if_pos hc]
      refine ⟨A ++ [x], [], by simp, by simp, Or.inr ⟨A, x, rfl, hc⟩, ?_⟩
      have := set_append_length (A ++ [x]) h current B
      rw [hlen, hdata] at this
      simp [this]
    · rw [if_neg hc]
      have hset : (A ++ x :: h :: B).set (A.length + 1) x = A ++ x :: x :: B := by
        have := set_append_length (A ++ [x]) h x B
        rw [hlen, hdata] at this
        simp [this]
      rw [hset]
      obtain ⟨A1, A2, hA, h2, h1, hres⟩ := ih x (x :: B)
      refine ⟨A1, A2 ++ [x], by rw [hA]; simp, ?_, h1, ?_⟩
      · intro y hy
        rcases List.mem_append.1 hy with hy | hy
        · exact h2 y hy
        · rw [List.mem_singleton] at hy
          subst hy
          exact hc
      · rw [hres]
        simp

/-- The body of the outer loop at `i = A.length` on the array `A ++ c :: B`. -/
theorem outerBody_spec {T : Type} [Inhabited T] (cmp : T → T → Int) (A : List T) (c : T)
    (B : List T) :
    ∃ A1 A2, A = A1 ++ A2 ∧ (∀ x ∈ A2, ¬ cmp c x ≥ 0) ∧
      (A1 = [] ∨ ∃ A0 x, A1 = A0 ++ [x] ∧ cmp c x ≥ 0) ∧
      outerBody cmp (A ++ c :: B) A.length = (A1 ++ c :: A2) ++ B := by
  obtain ⟨A1, A2, hA, h2, h1, hres⟩ := innerLoop_spec cmp c A c B
  refine ⟨A1, A2, hA, h2, h1, ?_⟩
  unfold outerBody
  rw [getD_append_length, hres]
  simp

/-! ## The outer loop keeps a sorted prefix -/

theorem pairwise_insert {T : Type} (r : T → T → Prop) [IsTotal T r] [IsTrans T r]
    (cmp : T → T → Int) (hcmp : ∀ c x, cmp c x ≥ 0 ↔ r x c) (c : T) (A1 A2 : List T)
    (hs : (A1 ++ A2).Pairwise r) (h2 : ∀ x ∈ A2, ¬ cmp c x ≥ 0)
    (h1 : A1 = [] ∨ ∃ A0 x, A1 = A0 ++ [x] ∧ cmp c x ≥ 0) :
    (A1 ++ c :: A2).Pairwise r := by
  rw [List.pairwise_append] at hs ⊢
  obtain ⟨hs1, hs2, hs12⟩ := hs
  have hc2 : ∀ y ∈ A2, r c y := by
    intro y hy
    rcases IsTotal.total (r := r) c y with h | h
    · exact h
    · exact absurd ((hcmp c y).2 h) (h2 y hy)
  have hc1 : ∀ a ∈ A1, r a c := by
    intro a ha
    rcases h1 with h1 | ⟨A0, x, hA0, hx⟩
    · subst h1
      cases ha
    · subst hA0
      have hxc : r x c := (hcmp c x).1 hx
      rcases List.mem_append.1 ha with ha | ha
      · rw [List.pairwise_append] at hs1
        exact IsTrans.trans a x c (hs1.2.2 a ha x (List.mem_singleton_self x)) hxc
      · rw [List.mem_singleton] at ha
        subst ha
        exact hxc
  refine ⟨hs1, List.pairwise_cons.2 ⟨hc2, hs2⟩, ?_⟩
  intro a ha b hb
  rcases List.mem_cons.1 hb with hb | hb
  · subst hb
    exact hc1 a ha
  · exact hs12 a ha b hb

theorem foldl_outerBody {T : Type} [Inhabited T] (r : T → T → Prop) [IsTotal T r]
    [IsTrans T r] (cmp : T → T → Int) (hcmp : ∀ c x, cmp c x ≥ 0 ↔ r x c) (B : List T) :
    ∀ S : List T, S.Pairwise r →
      ((List.range' S.length B.length).foldl (outerBody cmp) (S ++ B)).Pairwise r ∧
        ((List.range' S.length B.length).foldl (outerBody cmp) (S ++ B)).Perm (S ++ B) := by
  induction B with
  | nil =>
    intro S hS
    simpa using hS
  | cons c B ih =>
    intro S hS
    obtain ⟨A1, A2, hA, h2, h1, hres⟩ := outerBody_spec cmp S c B
    have hsorted : (A1 ++ c :: A2).Pairwise r :=
      pairwise_insert r cmp hcmp c A1 A2 (hA ▸ hS) h2 h1
    have hlen : (A1 ++ c :: A2).length = S.length + 1 := by
      rw [hA]
      simp only [List.length_append, List.length_cons]
      omega
    have hperm : (A1 ++ c :: A2 ++ B).Perm (S ++ c :: B) := by
      rw [hA]
      simp only [List.append_assoc, List.cons_append]
      exact List.Perm.append_left A1 List.perm_middle.symm
    have hstep : (List.range' S.length (c :: B).length).foldl (outerBody cmp) (S ++ c :: B)
        = (List.range' (A1 ++ c :: A2).length B.length).foldl (outerBody cmp)
            (A1 ++ c :: A2 ++ B) := by
      rw [hlen, List.length_cons, List.range'_succ, List.foldl_cons, hres]
    rw [hstep]
    obtain ⟨ih1, ih2⟩ := ih (A1 ++ c :: A2) hsorted
    exact ⟨ih1, ih2.trans hperm⟩

/-- With a comparator whose sign test `comparator(c, x) >= 0` decides a total
transitive relation `r x c`, `InsertionSort` on the whole array returns a permutation
of the input that is sorted for `r`. -/
theorem InsertionSort_sorted_of_comparator {T : Type} [Inhabited T] (r : T → T → Prop)
    [IsTotal T r] [IsTrans T r] (cmp : T → T → Int) (hcmp : ∀ c x, cmp c x ≥ 0 ↔ r x c)
    (data : List T) :
    (InsertionSort data data.length cmp).Sorted r ∧
      (InsertionSort data data.length cmp).Perm data := by
  unfold InsertionSort List.Sorted
  cases data with
  | nil => simp
  | cons a rest =>
    have := foldl_outerBody r cmp hcmp rest [a] (List.pairwise_singleton r a)
    simpa using this

theorem methodComparator_nonneg (c x : Int) : methodComparator c x ≥ 0 ↔ x ≤ c := by
  unfold methodComparator
  by_cases h1 : c < x
  · rw [if_pos h1]
    constructor
    · intro h; omega
    · intro h; omega
  · rw [if_neg h1]
    by_cases h2 : c > x
    · rw [if_pos h2]; constructor <;> intro _ <;> omega
    · rw [if_neg h2]; constructor <;> intro _ <;> omega

theorem documentedComparator_nonneg (c x : Int) : documentedComparator c x ≥ 0 ↔ x ≥ c := by
  unfold documentedComparator
  by_cases h1 : x > c
  · rw [if_pos h1]; constructor <;> intro _ <;> omega
  · rw [if_neg h1]
    by_cases h2 : c > x
    · rw [if_pos h2]; constructor <;> intro _ <;> omega
    · rw [if_neg h2]; constructor <;> intro _ <;> omega

/-! ## `InsertionSort`: statements of the claims -/

/-- C32: for every array of integers, `InsertionSort` called on the whole array with
the three-way comparator of the server method leaves the ascending sort of the input:
the result is non-decreasing, is a permutation of the input, and equals the sorted
list of the input. -/
theorem InsertionSort_method_ascending (data : List Int) :
    (InsertionSort data data.length methodComparator).Sorted (fun a b => a ≤ b) ∧
      (InsertionSort data data.length methodComparator).Perm data ∧
      InsertionSort data data.length methodComparator
        = List.insertionSort (fun a b => a ≤ b) data := by
  obtain ⟨h1, h2⟩ := InsertionSort_sorted_of_comparator (fun a b : Int => a ≤ b)
    methodComparator methodComparator_nonneg data
  refine ⟨h1, h2, ?_⟩
  exact List.eq_of_perm_of_sorted (h2.trans (List.perm_insertionSort _ data).symm) h1
    (List.sorted_insertionSort _ data)

/-- Witness of C32 on the array of `SimpleTest`. -/
theorem InsertionSort_method_ascending_witness :
    InsertionSort [3, 2, 4, 5, 1] 5 methodComparator = [1, 2, 3, 4, 5] ∧
      (InsertionSort [3, 2, 4, 5, 1] 5 methodComparator).Sorted (fun a b => a ≤ b) :=
  ⟨by decide, (InsertionSort_method_ascending [3, 2, 4, 5, 1]).1⟩

/-- C33, failing input: with a comparator following the convention of the doc comment
of `InsertionSort`, the array `[1, 2]` becomes `[2, 1]`; for every array of integers the
result is the input in non-increasing order. -/
theorem InsertionSort_documented_descending :
    InsertionSort [1, 2] 2 documentedComparator = [2, 1] ∧
      ∀ data : List Int,
        (InsertionSort data data.length documentedComparator).Sorted (fun a b => a ≥ b) ∧
          (InsertionSort data data.length documentedComparator).Perm data :=
  ⟨by decide, fun data => InsertionSort_sorted_of_comparator (fun a b : Int => a ≥ b)
    documentedComparator documentedComparator_nonneg data⟩

end geometry
